import Mathlib

/-!
Verification development for the render scheduler of `songs-to-youtube`
(`src/render.py`).

The Python program runs `Renderer` and `AlbumRenderHelper` slots on the Qt GUI
thread: worker threads only *emit* signals (`finished`, `error`, `progress`,
`QThread.finished`), and the cross-thread connections are queued, so every slot
body executes atomically and the whole scheduler behaves as a sequential
machine consuming a stream of delivery events.  We embed the scheduler as such
a machine: `St`/`Sys` holds the fields of `Renderer` and of each
`AlbumRenderHelper`, each Python method becomes a Lean function on the state,
and `stepEv` dispatches one delivered event exactly as the connected slots do.
`validEvB` encodes which deliveries the environment can actually produce
(a worker can only finish once, only while its thread runs, after its external
process has exited, and so on).

`ProcessHandler.run`, `CombineSongWorker.run` and `Renderer._worker_progress`
are additionally embedded as standalone functions.  Python `float` division in
`_worker_progress` is modelled as exact rational division; `str.strip`,
`str.split` and `int()` are modelled character-by-character.
-/

set_option maxHeartbeats 1000000
set_option linter.unnecessarySeqFocus false
set_option linter.unreachableTactic false
set_option linter.unusedTactic false

namespace SongsToYoutube

/-! ### Association-list operations with Python `dict` semantics -/

/-- `d[k]` lookup (`None` when absent). -/
def alookup {α : Type} : List (String × α) → String → Option α
  | [], _ => none
  | (k, v) :: r, key => if k = key then some v else alookup r key

/-- `d[k] = v`: overwrite in place if the key exists, else append (insertion
order is preserved, as for a Python `dict`). -/
def dictSet {α : Type} : List (String × α) → String → α → List (String × α)
  | [], k, v => [(k, v)]
  | (k', v') :: r, k, v => if k' = k then (k', v) :: r else (k', v') :: dictSet r k v

/-- `del d[k]`: removes the (first) entry with the given key. -/
def delKey {α : Type} : List (String × α) → String → List (String × α)
  | [], _ => []
  | (k', v') :: r, k => if k' = k then r else (k', v') :: delKey r k

/-- `for w, t in d.items(): if t == thread: del d[w]; break`
(used by `Renderer.thread_finished`): remove the first entry whose *value*
matches. -/
def delVal : List (String × String) → String → List (String × String)
  | [], _ => []
  | (k', v') :: r, v => if v' = v then r else (k', v') :: delVal r v

/-- Keys of an association list, in order. -/
def keys {α : Type} (l : List (String × α)) : List String := l.map (·.1)

/-- `list.remove(x)` guarded by `if x in list` (removes the first occurrence,
no-op when absent). -/
def lerase : List String → String → List String
  | [], _ => []
  | x :: r, a => if x = a then r else x :: lerase r a

/-- Pointwise update of a total map. -/
def fupd {α : Type} (f : String → α) (k : String) (v : α) : String → α :=
  fun x => if x = k then v else f x

/-! ### Python string primitives used by `_worker_progress` -/

/-- Whitespace characters stripped by Python `str.strip()`. -/
def pyIsSpace (c : Char) : Bool :=
  c = ' ' || c = '\t' || c = '\n' || c = '\r' || c = '\x0b' || c = '\x0c'

/-- Strip leading and trailing whitespace from a character list. -/
def stripChars (l : List Char) : List Char :=
  ((l.dropWhile pyIsSpace).reverse.dropWhile pyIsSpace).reverse

/-- Python `s.strip()`. -/
def pyStrip (s : String) : String := ⟨stripChars s.toList⟩

/-- Python `s.split(sep)` for a one-character separator: split at *every*
occurrence, keeping empty pieces (`"a=b=c" → ["a","b","c"]`, `"" → [""]`). -/
def splitChars (sep : Char) : List Char → List (List Char)
  | [] => [[]]
  | c :: rest =>
    let r := splitChars sep rest
    if c = sep then [] :: r
    else
      match r with
      | h :: t => (c :: h) :: t
      | [] => [[c]]

/-- Python `s.split("=")`. -/
def pySplit (s : String) (sep : Char) : List String :=
  (splitChars sep s.toList).map (fun l => ⟨l⟩)

/-- Digit-string value, `none` if empty or any non-digit. -/
def digitsVal : List Char → Option Nat
  | [] => none
  | [c] => if c.isDigit then some (c.toNat - '0'.toNat) else none
  | c :: rest =>
    if c.isDigit then
      (digitsVal rest).map (fun n => (c.toNat - '0'.toNat) * 10 ^ rest.length + n)
    else none

/-- Python `int(s)`: optional surrounding whitespace, optional sign, at least
one digit.  (Underscore digit grouping is not modelled.) -/
def pyInt (s : String) : Option ℤ :=
  match stripChars s.toList with
  | '-' :: rest => (digitsVal rest).map (fun n => -(n : ℤ))
  | '+' :: rest => (digitsVal rest).map (fun n => (n : ℤ))
  | l => (digitsVal l).map (fun n => (n : ℤ))

/-! ### `Renderer._worker_progress` (progress normalization) -/

/-- Python `int(x)` on a real number: truncation toward zero
(`q.den` is positive, so `num.tdiv den` truncates `q` toward zero). -/
def pyTrunc (q : ℚ) : ℤ := q.num.tdiv q.den

/-- `max(0, min(int((current_time_ms / total_time_ms) * 100), 100))` with
`current_time_ms = v // 1000` (`v` the parsed `out_time_us` value, `d` the
duration hint in ms).  Float division is modelled as exact rational division:
the exact value of `(current_time_ms / d) * 100` is `current_time_ms * 100 / d`
and `int(...)` truncates toward zero, which on integers is `Int.tdiv`
(`pyTrunc_intCast_div` below proves this agrees with truncating the rational
quotient). -/
def pyClamp (v d : ℤ) : ℤ :=
  max 0 (min ((Int.fdiv v 1000 * 100).tdiv d) 100)

/-- Body of the `try:` block of `Renderer._worker_progress`, before the
`except` handler: `.error` marks the exceptions the Python code can raise
(unpacking a split of length ≠ 2, `int()` on a non-numeric value, division by
a zero duration hint).  `.ok none` is the silent no-emission path for a key
other than `out_time_us`; `.ok (some p)` emits progress `p`. -/
def workerProgressBody (durationMs : ℤ) (line : String) : Except Unit (Option ℤ) :=
  match pySplit (pyStrip line) '=' with
  | [key, value] =>
    if key = "out_time_us" then
      match pyInt value with
      | some v =>
        if durationMs = 0 then .error ()
        else .ok (some (pyClamp v durationMs))
      | none => .error ()
    else .ok none
  | _ => .error ()

/-- `Renderer._worker_progress` with its `try/except`: first component is the
emitted progress (if any), second is whether the `except` branch ran (which
logs a warning locally and swallows the exception). -/
def workerProgressHandler (durationMs : ℤ) (line : String) : Option ℤ × Bool :=
  match workerProgressBody durationMs line with
  | .ok r => (r, false)
  | .error _ => (none, true)

/-! ### `ProcessHandler.run` (stream pumping) -/

/-- Items placed on the queue by the two `read_pipe` readers: a tagged line, or
the `(None, None)` end-of-stream sentinel a reader enqueues in its `finally`
block. -/
inductive QItem
  | out (line : String)
  | err (line : String)
  | sentinel
deriving DecidableEq, Repr

/-- Events the handler forwards (`stdout.emit` / `stderr.emit`). -/
inductive PHEmit
  | out (line : String)
  | err (line : String)
deriving DecidableEq, Repr

/-- `ProcessHandler.read_pipe` on one stream: enqueue each decoded line, then
(in `finally`) one sentinel. -/
def readPipe (mk : String → QItem) (lines : List String) : List QItem :=
  lines.map mk ++ [QItem.sentinel]

/-- The queue a real run produces is an interleaving of the two readers'
outputs (each reader's items keep their order). -/
inductive Interleave : List QItem → List QItem → List QItem → Prop
  | nil : Interleave [] [] []
  | left {x xs ys zs} : Interleave xs ys zs → Interleave (x :: xs) ys (x :: zs)
  | right {y xs ys zs} : Interleave xs ys zs → Interleave xs (y :: ys) (y :: zs)

/-- The main loop of `ProcessHandler.run`: pop items in arrival order, forward
tagged lines, and `break` at the first `(None, None)` sentinel. -/
def consumeQueue : List QItem → List PHEmit
  | [] => []
  | QItem.sentinel :: _ => []
  | QItem.out l :: rest => PHEmit.out l :: consumeQueue rest
  | QItem.err l :: rest => PHEmit.err l :: consumeQueue rest

/-- `ProcessHandler.run`: forward lines until the first sentinel, then
`error = p.wait() != 0`.  Returns the forwarded events and the error flag. -/
def processHandlerRun (queue : List QItem) (exitCode : ℤ) : List PHEmit × Bool :=
  (consumeQueue queue, exitCode != 0)

/-! ### `CombineSongWorker.run` (input deletion) -/

/-- The `for song in children: os.remove(song.fileOutput)` loop over a file
system modelled as the list of existing paths.  Returns the remaining files and
whether all removes succeeded; a missing file raises `FileNotFoundError`,
aborting the loop (later inputs are kept). -/
def removeLoop : List String → List String → List String × Bool
  | [], fs => (fs, true)
  | i :: rest, fs => if i ∈ fs then removeLoop rest (lerase fs i) else (fs, false)

/-- `CombineSongWorker.run` after the external process has returned:
`errors = handler.run(...)` is `exitFails`; the code then removes *every*
input file unconditionally and emits `finished(not errors)`.  If a remove
raises, the `except` branch emits `finished(False)`.  Result: remaining file
system and the emitted success flag. -/
def combineRun (inputs : List String) (fs : List String) (exitFails : Bool) :
    List String × Bool :=
  let (fs', removedAll) := removeLoop inputs fs
  (fs', if removedAll then !exitFails else false)

/-! ### The scheduler machine: state -/

/-- `QThread` lifecycle as observed by the main thread: `unstarted` before
`start()`, `running` from `start()` until the `finished` signal is delivered,
`quitting` once `quit()` has been called (event loop stopping, `finished`
delivery pending), `finished` after the `QThread.finished` delivery. -/
inductive TStatus
  | unstarted
  | running
  | quitting
  | finished
deriving DecidableEq, Repr

/-- `thread.isRunning()`. -/
def TStatus.isRun : TStatus → Bool
  | .running => true
  | .quitting => true
  | _ => false

/-- Signals the `Renderer` emits to its caller. -/
inductive Emission
  | progress (name : String) (pct : ℤ)
  | jobError (name : String) (msg : String)
  | done (name : String) (success : Bool)
  | batchFinished (results : List (String × Bool))
deriving DecidableEq, Repr

/-- `Renderer` state.  Worker identity is `str(worker)` (the output file
name); each worker owns exactly one `QThread`, which we identify by the same
name, so `workers` maps a worker name to its thread name (always equal). -/
structure St where
  threads : List String
  workers : List (String × String)
  results : List (String × Bool)
  working : Bool
  cancelled : Bool
  tstatus : String → TStatus
  /-- whether this worker's `finished` signal has been delivered -/
  wfin : String → Bool
  /-- whether an external process was ever spawned for this worker -/
  spawned : String → Bool
  /-- the `PROCESSES` registry: live external processes, by owning worker -/
  procs : List String
  log : List Emission

/-- `AlbumRenderHelper` state. -/
structure HelperSt where
  hworkers : List String
  herror : Bool
  combine : String
deriving DecidableEq, Repr

/-- Renderer plus all connected album helpers (in connection order). -/
structure Sys where
  rst : St
  helpers : List HelperSt

/-! ### The scheduler machine: Python methods -/

/-- `thread.start()`: no-op when already running, else enter `running`. -/
def startThread (s : St) (t : String) : St :=
  if (s.tstatus t).isRun then s else { s with tstatus := fupd s.tstatus t .running }

/-- `thread.quit()`: a running event loop begins stopping; on a thread that
was never started it is a no-op. -/
def quitThread (s : St) (t : String) : St :=
  if s.tstatus t = .running then { s with tstatus := fupd s.tstatus t .quitting } else s

/-- `Renderer.render`: set `working`, emit `finished` immediately when there
are no workers, then start the first `min(maxProcesses, len(threads))`
threads. -/
def renderFn (m : Nat) (s : St) : St :=
  let s := { s with working := true }
  let s :=
    if s.workers.length = 0 then
      { s with working := false, log := s.log ++ [Emission.batchFinished s.results] }
    else s
  (s.threads.take (min m s.threads.length)).foldl startThread s

/-- `Renderer.start_worker`: release a worker created with
`auto_start=False` — append its thread to the run queue (once), and kick the
scheduler if it is idle. -/
def startWorkerFn (m : Nat) (s : St) (name : String) : St :=
  match alookup s.workers name with
  | none => s
  | some t =>
    if t ∈ s.threads then s
    else
      let s := { s with threads := s.threads ++ [t] }
      if s.working then s else renderFn m s

/-- `Renderer.cancel_worker`: quit the worker's thread, drop it from the run
queue and from tracking. -/
def cancelWorkerFn (s : St) (name : String) : St :=
  match alookup s.workers name with
  | none => s
  | some t =>
    let s := quitThread s t
    let s := { s with threads := lerase s.threads t }
    let s := if s.threads.length = 0 then { s with working := false } else s
    { s with workers := delKey s.workers name }

/-- The helper-local part of `AlbumRenderHelper.worker_done`: discard the
finished worker from the pending set and record a failure. -/
def helperDoneLocal (name : String) (success : Bool) (h : HelperSt) : HelperSt :=
  if name ∈ h.hworkers then
    { h with hworkers := lerase h.hworkers name, herror := h.herror || !success }
  else h

/-- Deliver `Renderer.worker_done` to every connected `AlbumRenderHelper`
in connection order.  Each slot updates its own pending set, then — pending
set empty and no error — calls `renderer.start_worker(combine)`. -/
def helpersDone (m : Nat) (name : String) (success : Bool) :
    St → List HelperSt → St × List HelperSt
  | s, [] => (s, [])
  | s, h :: rest =>
    let h' := helperDoneLocal name success h
    let s' := if h'.hworkers.length = 0 && !h'.herror then startWorkerFn m s h'.combine else s
    let p := helpersDone m name success s' rest
    (p.1, h' :: p.2)

/-- Deliver `Renderer.worker_error` to every connected helper: a helper whose
pending set still contains the worker marks itself failed and cancels its
combine job. -/
def helpersError (name : String) : St → List HelperSt → St × List HelperSt
  | s, [] => (s, [])
  | s, h :: rest =>
    let s' := if name ∈ h.hworkers then cancelWorkerFn s h.combine else s
    let h' := if name ∈ h.hworkers then { h with herror := true } else h
    let p := helpersError name s' rest
    (p.1, h' :: p.2)

/-- `Renderer.worker_finished` (slot for a worker's `finished` signal):
record the result; unless cancelled, emit `worker_done` (which runs every
helper slot synchronously) and quit the worker's thread. -/
def workerFinishedFn (m : Nat) (sys : Sys) (name : String) (success : Bool) : Sys :=
  let s := { sys.rst with results := dictSet sys.rst.results name success }
  if s.cancelled then { sys with rst := s }
  else
    let s := { s with log := s.log ++ [Emission.done name success] }
    let p := helpersDone m name success s sys.helpers
    { rst := quitThread p.1 name, helpers := p.2 }

/-- `Renderer.thread_finished` (slot for `QThread.finished`): unless
cancelled, drop the thread and its worker from tracking, emit the batch result
when no worker remains, and start the first not-yet-running queued thread. -/
def threadFinishedFn (sys : Sys) (t : String) : Sys :=
  if sys.rst.cancelled then sys
  else
    let s := sys.rst
    let s := { s with threads := lerase s.threads t }
    let s := { s with workers := delVal s.workers t }
    let s := if s.threads.length = 0 then { s with working := false } else s
    let s :=
      if s.workers.length = 0 then
        { s with log := s.log ++ [Emission.batchFinished s.results] }
      else s
    let s :=
      match s.threads.find? (fun th => !(s.tstatus th).isRun) with
      | some th => { startThread s th with working := true }
      | none => s
    { sys with rst := s }

/-- `Renderer.cancel`: `clean_up()` kills every registered process
(modelled as succeeding), the cancellation flag is set, every tracked worker
without a result is recorded as failed, and the final results map is emitted
immediately. -/
def cancelFn (sys : Sys) : Sys :=
  let s := { sys.rst with procs := [] }
  let s := { s with cancelled := true }
  let r := (keys s.workers).foldl
    (fun r n => if (alookup r n).isSome then r else dictSet r n false) s.results
  let s := { s with results := r }
  { sys with rst := { s with log := s.log ++ [Emission.batchFinished r] } }

/-- Delivery of one raw `progress` line: `Renderer._worker_progress` (note:
no cancellation check in the source). -/
def progressEvtFn (dur : String → ℤ) (sys : Sys) (name : String) (line : String) : Sys :=
  match (workerProgressHandler (dur name) line).1 with
  | some p => { sys with rst := { sys.rst with log := sys.rst.log ++ [Emission.progress name p] } }
  | none => sys

/-- Delivery of a worker's `error` signal: re-emitted as `worker_error`
(no cancellation check in the source), then every helper slot runs. -/
def workerErrorFn (sys : Sys) (name : String) (msg : String) : Sys :=
  let s := { sys.rst with log := sys.rst.log ++ [Emission.jobError name msg] }
  let p := helpersError name s sys.helpers
  { rst := p.1, helpers := p.2 }

/-! ### The scheduler machine: events and runs -/

/-- Deliveries the main thread can process, plus worker-thread actions on the
global `PROCESSES` registry. -/
inductive Ev
  | workerFinished (name : String) (success : Bool)
  | workerError (name : String) (msg : String)
  | progressLine (name : String) (line : String)
  | threadDone (name : String)
  | procSpawn (name : String)
  | procExit (name : String)
  | cancelAll
deriving DecidableEq, Repr

/-- Environment constraints on event delivery: a worker emits
`finished` once, from its own running thread, after its process has left the
registry; `error`/`progress` lines only while it runs and before `finished`;
`QThread.finished` is delivered once after `quit()`; a process spawns at most
while its worker runs. -/
def validEvB (sys : Sys) : Ev → Bool
  | .workerFinished n _ =>
    sys.rst.tstatus n = TStatus.running && !sys.rst.wfin n && !(n ∈ sys.rst.procs : Bool)
  | .workerError n _ => sys.rst.tstatus n = TStatus.running && !sys.rst.wfin n
  | .progressLine n _ => sys.rst.tstatus n = TStatus.running && !sys.rst.wfin n
  | .threadDone n => sys.rst.tstatus n = TStatus.quitting
  | .procSpawn n =>
    sys.rst.tstatus n = TStatus.running && !sys.rst.wfin n && !(n ∈ sys.rst.procs : Bool)
  | .procExit n => n ∈ sys.rst.procs
  | .cancelAll => true

/-- Process one delivered event. -/
def stepEv (m : Nat) (dur : String → ℤ) (sys : Sys) : Ev → Sys
  | .workerFinished n b =>
    let sys := { sys with rst := { sys.rst with wfin := fupd sys.rst.wfin n true } }
    workerFinishedFn m sys n b
  | .workerError n msg => workerErrorFn sys n msg
  | .progressLine n line => progressEvtFn dur sys n line
  | .threadDone n =>
    let sys := { sys with rst := { sys.rst with tstatus := fupd sys.rst.tstatus n .finished } }
    threadFinishedFn sys n
  | .procSpawn n =>
    { sys with rst := { sys.rst with
        procs := sys.rst.procs ++ [n], spawned := fupd sys.rst.spawned n true } }
  | .procExit n => { sys with rst := { sys.rst with procs := lerase sys.rst.procs n } }
  | .cancelAll => cancelFn sys

/-- Run a sequence of events. -/
def runEvs (m : Nat) (dur : String → ℤ) (sys : Sys) : List Ev → Sys
  | [] => sys
  | e :: es => runEvs m dur (stepEv m dur sys e) es

/-- A trace is valid when every event is a possible delivery in the state it
meets. -/
def validFrom (m : Nat) (dur : String → ℤ) (sys : Sys) : List Ev → Bool
  | [] => true
  | e :: es => validEvB sys e && validFrom m dur (stepEv m dur sys e) es

/-! ### The scheduler machine: batch submission -/

/-- One submission: a standalone render job, or an album in SINGLE-playlist
mode (render jobs for its songs plus one combine job gated on all of them). -/
inductive SubItem
  | song (name : String)
  | album (combine : String) (songs : List String)
deriving DecidableEq, Repr

/-- All job identities a submission creates, in creation order (an empty
album creates no jobs at all: `add_render_album_job` returns early). -/
def subNames : List SubItem → List String
  | [] => []
  | .song n :: r => n :: subNames r
  | .album c ss :: r => if ss.isEmpty then subNames r else ss ++ c :: subNames r

/-- The render-job names that are auto-started (everything except combine
jobs), in creation order. -/
def autoNames : List SubItem → List String
  | [] => []
  | .song n :: r => n :: autoNames r
  | .album _ ss :: r => if ss.isEmpty then autoNames r else ss ++ autoNames r

/-- The dependency groups a submission creates (`add_render_album_job`
returns early on an empty album). -/
def albumsOf : List SubItem → List (String × List String)
  | [] => []
  | .song _ :: r => albumsOf r
  | .album c ss :: r => if ss.isEmpty then albumsOf r else (c, ss) :: albumsOf r

/-- `Renderer.add_worker`. -/
def addWorkerFn (s : St) (name : String) (autoStart : Bool) : St :=
  let s := if autoStart then { s with threads := s.threads ++ [name] } else s
  { s with workers := dictSet s.workers name name }

/-- Submit one item: `add_render_song_job`, or `add_render_album_job` in
SINGLE mode (which builds an `AlbumRenderHelper`: every song job auto-started,
then the combine job with `auto_start=False`). -/
def submitItem (sys : Sys) : SubItem → Sys
  | .song n => { sys with rst := addWorkerFn sys.rst n true }
  | .album c ss =>
    if ss.isEmpty then sys
    else
      { rst := addWorkerFn (ss.foldl (fun s n => addWorkerFn s n true) sys.rst) c false,
        helpers := sys.helpers ++ [⟨ss, false, c⟩] }

/-- The empty renderer (`Renderer.__init__`). -/
def initSt : St :=
  { threads := [], workers := [], results := [], working := false, cancelled := false
    tstatus := fun _ => .unstarted, wfin := fun _ => false, spawned := fun _ => false
    procs := [], log := [] }

/-- Submit a whole batch and call `Renderer.render()` once, as the GUI
does. -/
def initSys (m : Nat) (sub : List SubItem) : Sys :=
  { rst := renderFn m (sub.foldl submitItem { rst := initSt, helpers := [] }).rst,
    helpers := (sub.foldl submitItem { rst := initSt, helpers := [] }).helpers }

/-- The renderer state after submitting a batch, before `render()` runs. -/
def initRst (sub : List SubItem) : St :=
  { initSt with threads := autoNames sub,
                workers := (subNames sub).map (fun n => (n, n)) }

/-- The jobs currently in RUNNING status. -/
def runningCount (sub : List SubItem) (sys : Sys) : Nat :=
  ((subNames sub).filter (fun n => sys.rst.tstatus n = TStatus.running)).length

/-- The `batchFinished` snapshots present in an emission log. -/
def finishedSnaps : List Emission → List (List (String × Bool))
  | [] => []
  | Emission.batchFinished r :: rest => r :: finishedSnaps rest
  | _ :: rest => finishedSnaps rest

/-- The per-job completion (`worker_done`) emissions in a log. -/
def doneEmits : List Emission → List (String × Bool)
  | [] => []
  | Emission.done n b :: rest => (n, b) :: doneEmits rest
  | _ :: rest => doneEmits rest

/-- The per-job error (`worker_error`) emissions in a log. -/
def errEmits : List Emission → List (String × String)
  | [] => []
  | Emission.jobError n e :: rest => (n, e) :: errEmits rest
  | _ :: rest => errEmits rest

/-- The tagged-line events a queue prefix yields (sentinels carry no line). -/
def phEmits : List QItem → List PHEmit
  | [] => []
  | QItem.out l :: rest => PHEmit.out l :: phEmits rest
  | QItem.err l :: rest => PHEmit.err l :: phEmits rest
  | QItem.sentinel :: rest => phEmits rest

/-- A fixed duration-hint environment for concrete traces. -/
def exDur : String → ℤ := fun _ => 1000

/-- The downstream job of a group has been released: its thread is in the run
queue or has already been started. -/
def released (sys : Sys) (c : String) : Prop :=
  sys.rst.tstatus c ≠ TStatus.unstarted ∨ c ∈ sys.rst.threads

/-- Per-dependency-group invariant, relating one `AlbumRenderHelper` to the
album `(combine name, song names)` it was created for. -/
structure AlbumInv (rst : St) (alb : String × List String) (h : HelperSt) : Prop where
  combine_eq : h.combine = alb.1
  pending_nodup : h.hworkers.Nodup
  pending_sub : ∀ u ∈ h.hworkers, u ∈ alb.2
  pending_of_unfinished : ∀ u, u ∈ alb.2 → rst.wfin u = false → u ∈ h.hworkers
  pending_unfinished : rst.cancelled = false → ∀ u ∈ h.hworkers, rst.wfin u = false
  pending_blocks : h.hworkers ≠ [] →
    rst.tstatus alb.1 = TStatus.unstarted ∧ alb.1 ∉ rst.threads
  error_blocks : h.herror = true →
    rst.tstatus alb.1 = TStatus.unstarted ∧ alb.1 ∉ rst.threads
  failure_rec : ∀ u ∈ alb.2, alookup rst.results u = some false →
    h.herror = true ∨ u ∈ h.hworkers
  combine_tracked : h.herror = false → rst.tstatus alb.1 = TStatus.unstarted →
    alb.1 ∉ rst.threads → alookup rst.workers alb.1 = some alb.1
  release_stable : h.hworkers = [] → h.herror = false → rst.cancelled = false →
    alb.1 ∈ rst.threads ∨ alb.1 ∉ keys rst.workers

/-- Reachable-state invariant of the scheduler machine. -/
structure Inv (m : Nat) (sub : List SubItem) (sys : Sys) : Prop where
  idle_inactive : sys.rst.working = false → ∀ n, (sys.rst.tstatus n).isRun = false
  active_listed : ∀ n, (sys.rst.tstatus n).isRun = true → n ∈ sys.rst.threads
  listed_tracked : ∀ t ∈ sys.rst.threads, t ∈ keys sys.rst.workers
  threads_nodup : sys.rst.threads.Nodup
  keys_nodup : (keys sys.rst.workers).Nodup
  keys_sub : ∀ k ∈ keys sys.rst.workers, k ∈ subNames sub
  vals_eq : ∀ p ∈ sys.rst.workers, p.2 = p.1
  active_bound : ((subNames sub).filter (fun n => (sys.rst.tstatus n).isRun)).length ≤ m
  procs_running : ∀ n ∈ sys.rst.procs,
    sys.rst.tstatus n = TStatus.running ∧ sys.rst.wfin n = false
  spawned_started : ∀ n, sys.rst.spawned n = true → sys.rst.tstatus n ≠ TStatus.unstarted
  results_iff_wfin : sys.rst.cancelled = false →
    ∀ n, (alookup sys.rst.results n).isSome = sys.rst.wfin n
  wfin_results : ∀ n, sys.rst.wfin n = true → (alookup sys.rst.results n).isSome = true
  snaps_spec : sys.rst.cancelled = false →
    finishedSnaps sys.rst.log =
      if sys.rst.workers.length = 0 then [sys.rst.results] else []
  albums_inv : List.Forall₂ (AlbumInv sys.rst) (albumsOf sub) sys.helpers

/-- Static name-distinctness facts a duplicate-free submission provides. -/
structure AlbFacts (sub : List SubItem) : Prop where
  pairwise : (albumsOf sub).Pairwise (fun a b => a.1 ≠ b.1 ∧ a.1 ∉ b.2 ∧ b.1 ∉ a.2)
  self_ok : ∀ p ∈ albumsOf sub, p.1 ∉ p.2 ∧ p.2.Nodup
  in_names : ∀ p ∈ albumsOf sub, p.1 ∈ subNames sub ∧ ∀ u ∈ p.2, u ∈ subNames sub
  auto_no_combine : ∀ p ∈ albumsOf sub, p.1 ∉ autoNames sub

/-- Weakened per-group invariant holding at entry to the `worker_done`
broadcast for worker `n`: `n` already has `wfin` set and its result recorded,
but may still be listed in its helper's pending set. -/
structure AlbumDoneInv (n : String) (rst : St) (alb : String × List String)
    (h : HelperSt) : Prop where
  combine_eq : h.combine = alb.1
  pending_nodup : h.hworkers.Nodup
  pending_sub : ∀ u ∈ h.hworkers, u ∈ alb.2
  pending_of_unfinished : ∀ u, u ∈ alb.2 → rst.wfin u = false → u ∈ h.hworkers
  pending_unfinished : rst.cancelled = false → ∀ u ∈ h.hworkers, u ≠ n → rst.wfin u = false
  pending_blocks : h.hworkers ≠ [] →
    rst.tstatus alb.1 = TStatus.unstarted ∧ alb.1 ∉ rst.threads
  error_blocks : h.herror = true →
    rst.tstatus alb.1 = TStatus.unstarted ∧ alb.1 ∉ rst.threads
  failure_rec : ∀ u ∈ alb.2, alookup rst.results u = some false →
    h.herror = true ∨ u ∈ h.hworkers
  combine_tracked : h.herror = false → rst.tstatus alb.1 = TStatus.unstarted →
    alb.1 ∉ rst.threads → alookup rst.workers alb.1 = some alb.1
  release_stable : h.hworkers = [] → h.herror = false → rst.cancelled = false →
    alb.1 ∈ rst.threads ∨ alb.1 ∉ keys rst.workers

/-- What the sequential `worker_error` broadcast guarantees: only `workers`
shrinks (by untracking never-started combine jobs of the listed groups), and
every group invariant is restored for the updated helpers. -/
structure ErrGo (s s' : St) (albs : List (String × List String))
    (hs' : List HelperSt) : Prop where
  thr : s'.threads = s.threads
  wkg : s'.working = s.working
  res : s'.results = s.results
  wfn : s'.wfin = s.wfin
  tst : s'.tstatus = s.tstatus
  cnc : s'.cancelled = s.cancelled
  lg : s'.log = s.log
  prc : s'.procs = s.procs
  spn : s'.spawned = s.spawned
  sub : ∀ q ∈ s'.workers, q ∈ s.workers
  ksub : List.Sublist (keys s'.workers) (keys s.workers)
  keep : ∀ k, k ∈ s.threads → alookup s'.workers k = alookup s.workers k
  keep2 : ∀ k, k ∉ albs.map (·.1) → alookup s'.workers k = alookup s.workers k
  inv : List.Forall₂ (AlbumInv s') albs hs'

/-- What the sequential `worker_done` broadcast guarantees: only the run
queue grows (by tracked combine jobs of the listed groups), and every group
invariant is restored for the updated helpers. -/
structure DoneGo (s s' : St) (albs : List (String × List String))
    (hs' : List HelperSt) : Prop where
  wkr : s'.workers = s.workers
  res : s'.results = s.results
  wfn : s'.wfin = s.wfin
  tst : s'.tstatus = s.tstatus
  cnc : s'.cancelled = s.cancelled
  lg : s'.log = s.log
  prc : s'.procs = s.procs
  spn : s'.spawned = s.spawned
  wkg : s'.working = s.working
  thr : ∃ ext, s'.threads = s.threads ++ ext ∧
    ∀ t ∈ ext, t ∈ keys s.workers ∧ ∃ q ∈ albs, t = q.1
  ndp : s'.threads.Nodup
  inv : List.Forall₂ (AlbumInv s') albs hs'

/-! ## Basic lemmas -/

theorem alookup_dictSet_self {α : Type} (l : List (String × α)) (k : String) (v : α) :
    alookup (dictSet l k v) k = some v := by
  induction l with
  | nil => simp [dictSet, alookup]
  | cons p r ih =>
    obtain ⟨k', v'⟩ := p
    by_cases h : k' = k
    · subst h; simp [dictSet, alookup]
    · simp [dictSet, alookup, h, ih]

theorem alookup_dictSet_ne {α : Type} (l : List (String × α)) (k k' : String) (v : α)
    (h : k' ≠ k) : alookup (dictSet l k v) k' = alookup l k' := by
  have hne : ¬(k = k') := fun hh => h hh.symm
  induction l with
  | nil => simp [dictSet, alookup, hne]
  | cons p r ih =>
    obtain ⟨k₀, v₀⟩ := p
    by_cases h0 : k₀ = k
    · subst h0
      simp [dictSet, alookup, hne]
    · simp [dictSet, alookup, h0, ih]

theorem doneEmits_append (l₁ l₂ : List Emission) :
    doneEmits (l₁ ++ l₂) = doneEmits l₁ ++ doneEmits l₂ := by
  induction l₁ with
  | nil => rfl
  | cons e r ih => cases e <;> simp [doneEmits, ih]

theorem errEmits_append (l₁ l₂ : List Emission) :
    errEmits (l₁ ++ l₂) = errEmits l₁ ++ errEmits l₂ := by
  induction l₁ with
  | nil => rfl
  | cons e r ih => cases e <;> simp [errEmits, ih]

theorem finishedSnaps_append (l₁ l₂ : List Emission) :
    finishedSnaps (l₁ ++ l₂) = finishedSnaps l₁ ++ finishedSnaps l₂ := by
  induction l₁ with
  | nil => rfl
  | cons e r ih => cases e <;> simp [finishedSnaps, ih]

/-! ## Truncation bridge: Python `int()` of a float quotient vs `Int.tdiv` -/

theorem pyTrunc_nonneg_eq_floor (q : ℚ) (h : 0 ≤ q) : pyTrunc q = ⌊q⌋ := by
  rw [pyTrunc, Rat.floor_def]
  exact Int.tdiv_eq_ediv (Rat.num_nonneg.2 h) (Int.natCast_nonneg q.den)

theorem pyTrunc_neg (q : ℚ) : pyTrunc (-q) = -pyTrunc q := by
  rw [pyTrunc, pyTrunc, Rat.neg_num, Rat.den_neg_eq_den, Int.neg_tdiv]

theorem pyTrunc_intCast_div_of_nonneg (a b : ℤ) (ha : 0 ≤ a) (hb : 0 < b) :
    pyTrunc ((a : ℚ) / (b : ℚ)) = a.tdiv b := by
  obtain ⟨n, rfl⟩ : ∃ n : ℕ, b = (n : ℤ) := ⟨b.toNat, (Int.toNat_of_nonneg hb.le).symm⟩
  have hq : (0 : ℚ) ≤ (a : ℚ) / ((n : ℤ) : ℚ) := by
    apply div_nonneg (by exact_mod_cast ha)
    exact_mod_cast hb.le
  rw [pyTrunc_nonneg_eq_floor _ hq]
  have h1 : (((n : ℤ)) : ℚ) = ((n : ℕ) : ℚ) := by push_cast; ring
  rw [h1, Rat.floor_intCast_div_natCast a n]
  exact (Int.tdiv_eq_ediv ha (by exact_mod_cast hb.le)).symm

theorem pyTrunc_intCast_div (a b : ℤ) (hb : 0 < b) :
    pyTrunc ((a : ℚ) / (b : ℚ)) = a.tdiv b := by
  rcases le_or_lt 0 a with ha | ha
  · exact pyTrunc_intCast_div_of_nonneg a b ha hb
  · have h1 : (a : ℚ) / (b : ℚ) = -((((-a) : ℤ) : ℚ) / (b : ℚ)) := by push_cast; ring
    rw [h1, pyTrunc_neg, pyTrunc_intCast_div_of_nonneg (-a) b (by omega) hb, Int.neg_tdiv,
      neg_neg]

theorem pyClamp_eq_rat (v d : ℤ) (hd : 0 < d) :
    pyClamp v d =
      max 0 (min (pyTrunc (((Int.fdiv v 1000 : ℤ) : ℚ) / (d : ℚ) * 100)) 100) := by
  have h1 : ((Int.fdiv v 1000 : ℤ) : ℚ) / (d : ℚ) * 100 =
      ((Int.fdiv v 1000 * 100 : ℤ) : ℚ) / (d : ℚ) := by push_cast; ring
  rw [pyClamp, h1, pyTrunc_intCast_div _ _ hd]

theorem pyClamp_bounds (v d : ℤ) : 0 ≤ pyClamp v d ∧ pyClamp v d ≤ 100 := by
  refine ⟨le_max_left 0 _, max_le (by norm_num) (min_le_right _ _)⟩

/-! ## ProcessHandler lemmas -/

theorem consumeQueue_append_sentinel (q₁ q₂ : List QItem) (h : QItem.sentinel ∉ q₁) :
    consumeQueue (q₁ ++ QItem.sentinel :: q₂) = phEmits q₁ := by
  induction q₁ with
  | nil => rfl
  | cons x r ih =>
    have hx : x ≠ QItem.sentinel := fun hh => h (hh ▸ List.mem_cons_self x r)
    have hr : QItem.sentinel ∉ r := fun hh => h (List.mem_cons_of_mem x hh)
    cases x with
    | out l => simp [consumeQueue, phEmits, ih hr]
    | err l => simp [consumeQueue, phEmits, ih hr]
    | sentinel => exact absurd rfl hx

theorem readPipe_sentinel_count (mk : String → QItem) (lines : List String)
    (hmk : ∀ l, mk l ≠ QItem.sentinel) :
    (readPipe mk lines).count QItem.sentinel = 1 := by
  rw [readPipe, List.count_append]
  have h0 : (lines.map mk).count QItem.sentinel = 0 := by
    rw [List.count_eq_zero]
    intro hmem
    obtain ⟨l, _, hl⟩ := List.mem_map.1 hmem
    exact hmk l hl
  simp [h0, List.count_cons]

/-- C3: the claim says input artifacts are deleted exactly when the external
process succeeds, and are left untouched on a non-zero exit.
`CombineSongWorker.run` however runs its `os.remove` loop unconditionally
after `handler.run` returns, so a failed run (non-zero exit, `exitFails =
true`) also deletes every input and only then signals failure; this theorem
evaluates the embedded code on such failing inputs. -/
theorem c3_combine_deletes_inputs_on_failure :
    combineRun ["a.mkv"] ["a.mkv"] true = ([], false)
    ∧ combineRun ["a.mkv", "b.mkv"] ["a.mkv", "b.mkv", "keep.txt"] true = (["keep.txt"], false)
    ∧ combineRun ["a.mkv"] ["a.mkv"] false = ([], true) := by
  decide

/-- C4: refuted.  A valid interleaving of the two reader outputs can deliver
one stream's end-of-stream sentinel before the other stream's pending lines;
the run loop of `ProcessHandler.run` breaks at the *first* sentinel, so the
stderr line enqueued after stdout's sentinel is never forwarded, contradicting
"every line produced on either stream is forwarded before the call returns". -/
theorem c4_counterexample :
    Interleave (readPipe QItem.out []) (readPipe QItem.err ["lost diagnostics"])
      [QItem.sentinel, QItem.err "lost diagnostics", QItem.sentinel]
    ∧ processHandlerRun [QItem.sentinel, QItem.err "lost diagnostics", QItem.sentinel] 0 =
      ([], false) := by
  constructor
  · have h1 : readPipe QItem.out [] = [QItem.sentinel] := rfl
    have h2 : readPipe QItem.err ["lost diagnostics"] =
        [QItem.err "lost diagnostics", QItem.sentinel] := rfl
    rw [h1, h2]
    exact Interleave.left (Interleave.right (Interleave.right Interleave.nil))
  · rfl

/-- C4 (amended): every line that reaches the queue *before the first
sentinel* is forwarded, tagged with its origin stream and in queue order;
each reader enqueues exactly one sentinel for its stream; items queued after
the first sentinel are discarded by the run loop. -/
theorem c4_stream_pumping :
    (∀ (q₁ q₂ : List QItem) (e : ℤ), QItem.sentinel ∉ q₁ →
        processHandlerRun (q₁ ++ QItem.sentinel :: q₂) e = (phEmits q₁, e != 0))
    ∧ (∀ lines : List String,
        (readPipe QItem.out lines).count QItem.sentinel = 1
        ∧ (readPipe QItem.err lines).count QItem.sentinel = 1) := by
  constructor
  · intro q₁ q₂ e h
    rw [processHandlerRun, consumeQueue_append_sentinel q₁ q₂ h]
  · intro lines
    exact ⟨readPipe_sentinel_count QItem.out lines (fun l => by simp),
      readPipe_sentinel_count QItem.err lines (fun l => by simp)⟩

/-- Witness for C4 (amended) at a concrete queue. -/
theorem c4_stream_pumping_witness :
    processHandlerRun [QItem.out "frame=1", QItem.err "warning", QItem.sentinel,
        QItem.sentinel] 1 = ([PHEmit.out "frame=1", PHEmit.err "warning"], true) := by
  have h := c4_stream_pumping.1 [QItem.out "frame=1", QItem.err "warning"] [QItem.sentinel] 1
    (by decide)
  exact h.trans (by decide)

/-- C8: `ProcessHandler.run` returns failure exactly when the spawned process
exits non-zero (`error = p.wait() != 0`); the forwarded stream content —
including any stderr lines the readers produced — plays no role in the
outcome. -/
theorem c8_exit_code_authoritative :
    ∀ (outs errs : List String) (q : List QItem) (e : ℤ),
      Interleave (readPipe QItem.out outs) (readPipe QItem.err errs) q →
      ((processHandlerRun q e).2 = true ↔ e ≠ 0) := by
  intro outs errs q e _
  simp [processHandlerRun]

/-- Witness for C8: a run with stderr content and exit code 0 succeeds. -/
theorem c8_exit_code_authoritative_witness :
    Interleave (readPipe QItem.out ["frame=1"]) (readPipe QItem.err ["warning"])
      [QItem.out "frame=1", QItem.err "warning", QItem.sentinel, QItem.sentinel]
    ∧ (processHandlerRun [QItem.out "frame=1", QItem.err "warning", QItem.sentinel,
        QItem.sentinel] 0).2 = false := by
  have h1 : readPipe QItem.out ["frame=1"] = [QItem.out "frame=1", QItem.sentinel] := rfl
  have h2 : readPipe QItem.err ["warning"] = [QItem.err "warning", QItem.sentinel] := rfl
  have hil : Interleave (readPipe QItem.out ["frame=1"]) (readPipe QItem.err ["warning"])
      [QItem.out "frame=1", QItem.err "warning", QItem.sentinel, QItem.sentinel] := by
    rw [h1, h2]
    exact Interleave.left (Interleave.right (Interleave.left (Interleave.right Interleave.nil)))
  refine ⟨hil, ?_⟩
  have h := c8_exit_code_authoritative ["frame=1"] ["warning"] _ 0 hil
  simp at h
  exact h

theorem workerProgressBody_ok_some (d : ℤ) (line : String) (p : ℤ)
    (hb : workerProgressBody d line = .ok (some p)) : ∃ v, p = pyClamp v d := by
  rw [workerProgressBody] at hb
  split at hb
  · split at hb
    · split at hb
      · split at hb
        · simp at hb
        · simp only [Except.ok.injEq, Option.some.injEq] at hb
          exact ⟨_, hb.symm⟩
      · simp at hb
    · simp at hb
  · simp at hb

/-- C9: for a positive duration hint and a line of the form
`out_time_us=<integer>`, `_worker_progress` emits exactly the elapsed time in
milliseconds (`v // 1000`) divided by the duration hint, scaled to an integer
percentage (truncated toward zero, as Python `int()` does) and clamped to
`[0, 100]`; and every emitted progress value lies in `[0, 100]`.  Python's
float division is modelled as exact rational division (`pyTrunc` of the exact
quotient). -/
theorem c9_progress_normalization :
    (∀ (d : ℤ) (line val : String) (v : ℤ),
        0 < d →
        pySplit (pyStrip line) '=' = ["out_time_us", val] →
        pyInt val = some v →
        workerProgressHandler d line =
          (some (max 0 (min (pyTrunc (((Int.fdiv v 1000 : ℤ) : ℚ) / (d : ℚ) * 100)) 100)),
            false))
    ∧ (∀ (d : ℤ) (line : String) (p : ℤ),
        (workerProgressHandler d line).1 = some p → 0 ≤ p ∧ p ≤ 100) := by
  constructor
  · intro d line val v hd hsplit hint
    have hd0 : ¬(d = 0) := by omega
    rw [workerProgressHandler, workerProgressBody, hsplit]
    simp [hint, hd0, pyClamp_eq_rat v d hd]
  · intro d line p h
    rw [workerProgressHandler] at h
    rcases hb : workerProgressBody d line with e | r <;> rw [hb] at h
    · simp at h
    · simp only at h
      subst h
      obtain ⟨v, hp⟩ := workerProgressBody_ok_some d line p hb
      rw [hp]
      exact pyClamp_bounds v d

/-- Witness for C9 at `d = 1000` ms and the line `out_time_us=500000`. -/
theorem c9_progress_normalization_witness :
    workerProgressHandler 1000 "out_time_us=500000" =
      (some (max 0 (min (pyTrunc (((Int.fdiv 500000 1000 : ℤ) : ℚ) / (1000 : ℚ) * 100)) 100)),
        false) :=
  c9_progress_normalization.1 1000 "out_time_us=500000" "500000" 500000 (by norm_num)
    (by decide) (by decide)

/-- C10: refuted on the logging detail.  The claim asserts every unusable
line — including one whose key is not `out_time_us` — "is logged locally";
but `_worker_progress` logs only in its `except` branch, and a well-formed
`key=value` line with a different key (`frame=100`, which the external tool
emits constantly) is skipped silently: no progress event and no log. -/
theorem c10_counterexample :
    (workerProgressHandler 1000 "frame=100").1 = none
    ∧ (workerProgressHandler 1000 "frame=100").2 = false := by
  decide

/-- C10 (amended): the handler never propagates an exception and never emits
a job error; an unusable line produces no progress event; the exception cases
(no `=` or several `=`, non-numeric value, zero duration hint) are logged
(second component `true`), while a `key=value` line with a different key is
skipped silently without logging. -/
theorem c10_no_exception :
    (∀ (d : ℤ) (line : String), (pySplit (pyStrip line) '=').length ≠ 2 →
        workerProgressHandler d line = (none, true))
    ∧ (∀ (d : ℤ) (line k val : String), pySplit (pyStrip line) '=' = [k, val] →
        k ≠ "out_time_us" → workerProgressHandler d line = (none, false))
    ∧ (∀ (d : ℤ) (line val : String), pySplit (pyStrip line) '=' = ["out_time_us", val] →
        pyInt val = none → workerProgressHandler d line = (none, true))
    ∧ (∀ (line val : String) (v : ℤ), pySplit (pyStrip line) '=' = ["out_time_us", val] →
        pyInt val = some v → workerProgressHandler 0 line = (none, true))
    ∧ (∀ (dur : String → ℤ) (sys : Sys) (n line : String),
        errEmits (progressEvtFn dur sys n line).rst.log = errEmits sys.rst.log) := by
  refine ⟨?_, ?_, ?_, ?_, ?_⟩
  · intro d line h
    rcases hsplit : pySplit (pyStrip line) '=' with _ | ⟨k, _ | ⟨val, _ | ⟨x, xs⟩⟩⟩ <;>
        rw [workerProgressHandler, workerProgressBody, hsplit] <;>
      first
        | rfl
        | exact absurd (show (pySplit (pyStrip line) '=').length = 2 by rw [hsplit]; rfl) h
  · intro d line k val hsplit hk
    rw [workerProgressHandler, workerProgressBody, hsplit]
    simp [hk]
  · intro d line val hsplit hint
    rw [workerProgressHandler, workerProgressBody, hsplit]
    simp [hint]
  · intro line val v hsplit hint
    rw [workerProgressHandler, workerProgressBody, hsplit]
    simp [hint]
  · intro dur sys n line
    rw [progressEvtFn]
    rcases (workerProgressHandler (dur n) line).1 with _ | p
    · rfl
    · simp [errEmits_append, errEmits]

/-- Witness for C10 (amended) on a line without any `=` separator and on a
non-numeric value. -/
theorem c10_no_exception_witness :
    workerProgressHandler 7 "no separators here" = (none, true)
    ∧ workerProgressHandler 7 "out_time_us=N/A" = (none, true) := by
  refine ⟨c10_no_exception.1 7 "no separators here" (by decide), ?_⟩
  exact c10_no_exception.2.2.1 7 "out_time_us=N/A" "N/A" (by decide) (by decide)

/-! ## Scheduler-machine lemmas: shapes of the Python methods -/

theorem startThread_shape (s : St) (t : String) :
    ∃ f, startThread s t = { s with tstatus := f } := by
  rw [startThread]
  split
  · exact ⟨s.tstatus, rfl⟩
  · exact ⟨_, rfl⟩

theorem quitThread_shape (s : St) (t : String) :
    ∃ f, quitThread s t = { s with tstatus := f } := by
  rw [quitThread]
  split
  · exact ⟨_, rfl⟩
  · exact ⟨s.tstatus, rfl⟩

theorem foldl_startThread_shape (l : List String) (s₀ : St) :
    ∃ f, l.foldl startThread s₀ = { s₀ with tstatus := f } := by
  induction l generalizing s₀ with
  | nil => exact ⟨s₀.tstatus, rfl⟩
  | cons t r ih =>
    obtain ⟨f, hf⟩ := startThread_shape s₀ t
    obtain ⟨g, hg⟩ := ih (startThread s₀ t)
    refine ⟨g, ?_⟩
    rw [List.foldl_cons, hg, hf]

theorem renderFn_shape (m : Nat) (s : St) (h : ¬(s.workers.length = 0)) :
    ∃ f, renderFn m s = { s with working := true, tstatus := f } := by
  rw [renderFn]
  simp only [h, if_false, reduceIte]
  exact foldl_startThread_shape _ _

theorem startWorkerFn_shape (m : Nat) (s : St) (n : String) (hw : s.working = true) :
    ∃ l, startWorkerFn m s n = { s with threads := s.threads ++ l } := by
  rw [startWorkerFn]
  rcases alookup s.workers n with _ | t
  · exact ⟨[], by simp⟩
  · simp only
    split
    · exact ⟨[], by simp⟩
    · simp only [hw, if_true, reduceIte]
      exact ⟨[t], rfl⟩

theorem cancelWorkerFn_shape (s : St) (n : String) :
    ∃ f th wo wk, cancelWorkerFn s n =
      { s with tstatus := f, threads := th, working := wo, workers := wk } := by
  rw [cancelWorkerFn]
  rcases alookup s.workers n with _ | t
  · exact ⟨s.tstatus, s.threads, s.working, s.workers, rfl⟩
  · obtain ⟨f, hf⟩ := quitThread_shape s t
    simp only [hf]
    split
    · exact ⟨f, _, false, _, rfl⟩
    · exact ⟨f, _, s.working, _, rfl⟩

theorem helpersError_shape (n : String) (s : St) (hs : List HelperSt) :
    ∃ f th wo wk, (helpersError n s hs).1 =
      { s with tstatus := f, threads := th, working := wo, workers := wk } := by
  induction hs generalizing s with
  | nil => exact ⟨s.tstatus, s.threads, s.working, s.workers, rfl⟩
  | cons h r ih =>
    rw [helpersError]
    by_cases hmem : n ∈ h.hworkers
    · simp only [hmem, if_true, reduceIte]
      obtain ⟨f, th, wo, wk, hc⟩ := cancelWorkerFn_shape s h.combine
      obtain ⟨f', th', wo', wk', hr⟩ := ih (cancelWorkerFn s h.combine)
      refine ⟨f', th', wo', wk', ?_⟩
      rw [hr, hc]
    · simp only [hmem, if_false, reduceIte]
      exact ih s

theorem helpersDone_shape (m : Nat) (n : String) (b : Bool) (s : St) (hs : List HelperSt)
    (hw : s.working = true) :
    ∃ l, (helpersDone m n b s hs).1 = { s with threads := s.threads ++ l } := by
  induction hs generalizing s with
  | nil => exact ⟨[], by simp [helpersDone]⟩
  | cons h r ih =>
    rw [helpersDone]
    split
    · obtain ⟨l₁, hl₁⟩ := startWorkerFn_shape m s (helperDoneLocal n b h).combine hw
      obtain ⟨l₂, hl₂⟩ := ih (startWorkerFn m s (helperDoneLocal n b h).combine)
        (by rw [hl₁]; exact hw)
      refine ⟨l₁ ++ l₂, ?_⟩
      rw [hl₂, hl₁]
      simp only [List.append_assoc]
    · exact ih s hw

theorem helpersDone_snd (m : Nat) (n : String) (b : Bool) (s : St) (hs : List HelperSt) :
    (helpersDone m n b s hs).2 = hs.map (helperDoneLocal n b) := by
  induction hs generalizing s with
  | nil => rfl
  | cons h r ih =>
    rw [helpersDone]
    split <;> simp [ih]

/-! ## `Renderer.cancel`: the results-completion fold -/

theorem cancelFold_preserve (l : List String) :
    ∀ (r : List (String × Bool)) (n : String) (b : Bool), alookup r n = some b →
      alookup (l.foldl (fun r n => if (alookup r n).isSome then r else dictSet r n false) r) n
        = some b := by
  induction l with
  | nil => intro r n b h; exact h
  | cons k rest ih =>
    intro r n b h
    simp only [List.foldl_cons]
    apply ih
    by_cases hk : (alookup r k).isSome = true
    · rw [if_pos hk]
      exact h
    · rw [if_neg hk]
      by_cases hkn : k = n
      · subst hkn
        rw [h] at hk
        simp at hk
      · rw [alookup_dictSet_ne r k n false (fun hh => hkn hh.symm)]
        exact h

theorem cancelFold_new (l : List String) :
    ∀ (r : List (String × Bool)) (n : String), alookup r n = none → n ∈ l →
      alookup (l.foldl (fun r n => if (alookup r n).isSome then r else dictSet r n false) r) n
        = some false := by
  induction l with
  | nil => intro r n _ hm; cases hm
  | cons k rest ih =>
    intro r n h hm
    simp only [List.foldl_cons]
    rcases List.mem_cons.1 hm with rfl | hmem
    · have hns : ¬((alookup r n).isSome = true) := by rw [h]; simp
      rw [if_neg hns]
      exact cancelFold_preserve rest _ n false (alookup_dictSet_self r n false)
    · by_cases hk : (alookup r k).isSome = true
      · rw [if_pos hk]
        exact ih r n h hmem
      · rw [if_neg hk]
        by_cases hkn : k = n
        · subst hkn
          exact cancelFold_preserve rest _ k false (alookup_dictSet_self r k false)
        · apply ih
          · rw [alookup_dictSet_ne r k n false (fun hh => hkn hh.symm)]
            exact h
          · exact hmem

theorem cancelFold_mem (l : List String) (r : List (String × Bool)) (n : String)
    (h : n ∈ l) :
    (alookup (l.foldl (fun r n => if (alookup r n).isSome then r else dictSet r n false) r) n
      ).isSome = true := by
  rcases hk : alookup r n with _ | b
  · rw [cancelFold_new l r n hk h]
    rfl
  · rw [cancelFold_preserve l r n b hk]
    rfl

/-! ## C6: `Renderer.cancel` -/

/-- C6: refuted on results coverage.  After an upstream error has made the
helper cancel its combine job, `cancel_worker` has already deleted the combine
worker from tracking without recording a result; `Renderer.cancel` then marks
only the *still tracked* workers, so the emitted map misses the submitted
combine job even though it never reached a terminal state. -/
theorem c6_counterexample :
    validFrom 2 exDur (initSys 2 [SubItem.album "alb" ["s1", "s2"]])
        [Ev.workerError "s1" "boom", Ev.cancelAll] = true
    ∧ "alb" ∈ subNames [SubItem.album "alb" ["s1", "s2"]]
    ∧ (runEvs 2 exDur (initSys 2 [SubItem.album "alb" ["s1", "s2"]])
        [Ev.workerError "s1" "boom", Ev.cancelAll]).rst.tstatus "alb" = TStatus.unstarted
    ∧ alookup (runEvs 2 exDur (initSys 2 [SubItem.album "alb" ["s1", "s2"]])
        [Ev.workerError "s1" "boom", Ev.cancelAll]).rst.results "alb" = none
    ∧ finishedSnaps (runEvs 2 exDur (initSys 2 [SubItem.album "alb" ["s1", "s2"]])
        [Ev.workerError "s1" "boom", Ev.cancelAll]).rst.log =
      [[("s1", false), ("s2", false)]] := by
  decide

/-- C6 (amended): `cancel` empties the live-process registry, sets the
cancellation flag, records `success = false` for every *still tracked* job
without a result, keeps already recorded results, and emits the final results
map immediately; a combine job previously removed by `cancel_worker` is no
longer tracked and is absent from the map. -/
theorem c6_cancel_all :
    ∀ (m : Nat) (dur : String → ℤ) (sys : Sys),
      (stepEv m dur sys Ev.cancelAll).rst.procs = []
      ∧ (stepEv m dur sys Ev.cancelAll).rst.cancelled = true
      ∧ (∀ n, n ∈ keys sys.rst.workers →
          (alookup (stepEv m dur sys Ev.cancelAll).rst.results n).isSome = true)
      ∧ (∀ n, n ∈ keys sys.rst.workers → alookup sys.rst.results n = none →
          alookup (stepEv m dur sys Ev.cancelAll).rst.results n = some false)
      ∧ (∀ n b, alookup sys.rst.results n = some b →
          alookup (stepEv m dur sys Ev.cancelAll).rst.results n = some b)
      ∧ (stepEv m dur sys Ev.cancelAll).rst.log =
          sys.rst.log ++
            [Emission.batchFinished (stepEv m dur sys Ev.cancelAll).rst.results] := by
  intro m dur sys
  refine ⟨rfl, rfl, ?_, ?_, ?_, rfl⟩
  · intro n hn
    exact cancelFold_mem (keys sys.rst.workers) sys.rst.results n hn
  · intro n hn hnone
    exact cancelFold_new (keys sys.rst.workers) sys.rst.results n hnone hn
  · intro n b hb
    exact cancelFold_preserve (keys sys.rst.workers) sys.rst.results n b hb

/-- Witness for C6 (amended): cancelling a one-song batch records the song. -/
theorem c6_cancel_all_witness :
    (alookup (stepEv 1 exDur (initSys 1 [SubItem.song "s1"]) Ev.cancelAll).rst.results
      "s1").isSome = true :=
  (c6_cancel_all 1 exDur (initSys 1 [SubItem.song "s1"])).2.2.1 "s1" (by decide)

/-! ## C7: emissions after cancellation -/

/-- C7: refuted for progress.  `_worker_progress` has no cancellation check,
so a progress line delivered after `cancel` still produces a progress
emission while the cancellation flag is set. -/
theorem c7_counterexample :
    validFrom 1 exDur (initSys 1 [SubItem.song "s1"])
        [Ev.cancelAll, Ev.progressLine "s1" "out_time_us=500000"] = true
    ∧ (runEvs 1 exDur (initSys 1 [SubItem.song "s1"]) [Ev.cancelAll]).rst.cancelled = true
    ∧ (runEvs 1 exDur (initSys 1 [SubItem.song "s1"])
        [Ev.cancelAll, Ev.progressLine "s1" "out_time_us=500000"]).rst.log =
      (runEvs 1 exDur (initSys 1 [SubItem.song "s1"]) [Ev.cancelAll]).rst.log ++
        [Emission.progress "s1" 50] := by
  decide

theorem stepEv_cancelled (m : Nat) (dur : String → ℤ) (sys : Sys) (ev : Ev)
    (h : sys.rst.cancelled = true) :
    doneEmits (stepEv m dur sys ev).rst.log = doneEmits sys.rst.log
    ∧ (stepEv m dur sys ev).rst.cancelled = true := by
  cases ev with
  | workerFinished n b =>
    rw [stepEv, workerFinishedFn]
    simp only [h, if_true, reduceIte]
    exact ⟨trivial, trivial⟩
  | workerError n msg =>
    rw [stepEv, workerErrorFn]
    obtain ⟨f, th, wo, wk, hsh⟩ := helpersError_shape n
      { sys.rst with log := sys.rst.log ++ [Emission.jobError n msg] } sys.helpers
    rw [hsh]
    constructor
    · simp [doneEmits_append, doneEmits]
    · exact h
  | progressLine n line =>
    rw [stepEv, progressEvtFn]
    rcases (workerProgressHandler (dur n) line).1 with _ | p
    · exact ⟨rfl, h⟩
    · constructor
      · simp [doneEmits_append, doneEmits]
      · exact h
  | threadDone n =>
    rw [stepEv, threadFinishedFn]
    simp only [h, if_true, reduceIte]
    exact ⟨trivial, trivial⟩
  | procSpawn n => exact ⟨rfl, h⟩
  | procExit n => exact ⟨rfl, h⟩
  | cancelAll =>
    rw [stepEv, cancelFn]
    constructor
    · simp [doneEmits_append, doneEmits]
    · rfl

/-- C7 (amended): once the cancellation flag is set, no further per-job
completion (`worker_done`) emission ever occurs, for any subsequent events;
progress emissions, by contrast, are *not* suppressed (see the
counterexample), because `_worker_progress` does not consult the flag. -/
theorem c7_done_suppressed :
    ∀ (m : Nat) (dur : String → ℤ) (sys : Sys) (evs : List Ev),
      sys.rst.cancelled = true →
      doneEmits (runEvs m dur sys evs).rst.log = doneEmits sys.rst.log
      ∧ (runEvs m dur sys evs).rst.cancelled = true := by
  intro m dur sys evs
  induction evs generalizing sys with
  | nil => intro h; exact ⟨rfl, h⟩
  | cons e rest ih =>
    intro h
    obtain ⟨h1, h2⟩ := stepEv_cancelled m dur sys e h
    obtain ⟨g1, g2⟩ := ih (stepEv m dur sys e) h2
    exact ⟨g1.trans h1, g2⟩

/-- Witness for C7 (amended): after cancelling, delivering a progress line
adds no completion emission. -/
theorem c7_done_suppressed_witness :
    doneEmits (runEvs 1 exDur (runEvs 1 exDur (initSys 1 [SubItem.song "s1"]) [Ev.cancelAll])
        [Ev.progressLine "s1" "out_time_us=500000"]).rst.log
      = doneEmits (runEvs 1 exDur (initSys 1 [SubItem.song "s1"]) [Ev.cancelAll]).rst.log :=
  (c7_done_suppressed 1 exDur (runEvs 1 exDur (initSys 1 [SubItem.song "s1"]) [Ev.cancelAll])
    [Ev.progressLine "s1" "out_time_us=500000"] (by decide)).1

/-! ## C1 and C2: counterexamples -/

/-- C1: refuted.  `RenderSongWorker` re-emits every stderr line of the
external process as a job `error` signal, and `AlbumRenderHelper.worker_error`
cancels the combine job as soon as any still-pending upstream worker emits
one.  In this trace the single upstream job *completes successfully* after
printing one line to stderr, yet the combine job has been cancelled: it is
never released, never started, and no process is ever spawned for it —
contradicting "the combine job is started if every upstream render job
reports success". -/
theorem c1_counterexample :
    validFrom 2 exDur (initSys 2 [SubItem.album "alb" ["s1"]])
        [Ev.workerError "s1" "ffmpeg banner", Ev.workerFinished "s1" true,
          Ev.threadDone "s1"] = true
    ∧ (runEvs 2 exDur (initSys 2 [SubItem.album "alb" ["s1"]])
        [Ev.workerError "s1" "ffmpeg banner", Ev.workerFinished "s1" true,
          Ev.threadDone "s1"]).rst.tstatus "alb" = TStatus.unstarted
    ∧ "alb" ∉ (runEvs 2 exDur (initSys 2 [SubItem.album "alb" ["s1"]])
        [Ev.workerError "s1" "ffmpeg banner", Ev.workerFinished "s1" true,
          Ev.threadDone "s1"]).rst.threads
    ∧ (runEvs 2 exDur (initSys 2 [SubItem.album "alb" ["s1"]])
        [Ev.workerError "s1" "ffmpeg banner", Ev.workerFinished "s1" true,
          Ev.threadDone "s1"]).rst.spawned "alb" = false := by
  decide

/-- C2: refuted.  When an upstream error makes the helper cancel the combine
job, `cancel_worker` removes it from tracking without recording any result;
when the remaining threads finish, `thread_finished` sees no tracked worker
left and emits the batch-finished map — exactly once, but with 2 entries for
3 submitted jobs: the cancelled combine job is silently dropped. -/
theorem c2_counterexample :
    validFrom 2 exDur (initSys 2 [SubItem.album "alb" ["s1", "s2"]])
        [Ev.workerError "s1" "boom", Ev.workerFinished "s1" false, Ev.threadDone "s1",
          Ev.workerFinished "s2" true, Ev.threadDone "s2"] = true
    ∧ (subNames [SubItem.album "alb" ["s1", "s2"]]).length = 3
    ∧ finishedSnaps (runEvs 2 exDur (initSys 2 [SubItem.album "alb" ["s1", "s2"]])
        [Ev.workerError "s1" "boom", Ev.workerFinished "s1" false, Ev.threadDone "s1",
          Ev.workerFinished "s2" true, Ev.threadDone "s2"]).rst.log =
      [[("s1", false), ("s2", true)]]
    ∧ alookup (runEvs 2 exDur (initSys 2 [SubItem.album "alb" ["s1", "s2"]])
        [Ev.workerError "s1" "boom", Ev.workerFinished "s1" false, Ev.threadDone "s1",
          Ev.workerFinished "s2" true, Ev.threadDone "s2"]).rst.results "alb" = none := by
  decide

/-! ## List-primitive lemmas for the invariant proofs -/

theorem fupd_self {α : Type} (f : String → α) (k : String) (v : α) : fupd f k v k = v := by
  simp [fupd]

theorem fupd_ne {α : Type} (f : String → α) (k x : String) (v : α) (h : x ≠ k) :
    fupd f k v x = f x := by
  simp [fupd, h]

theorem mem_of_mem_lerase {l : List String} {a x : String} (h : x ∈ lerase l a) : x ∈ l := by
  induction l with
  | nil => cases h
  | cons y r ih =>
    rw [lerase] at h
    by_cases hy : y = a
    · rw [if_pos hy] at h
      exact List.mem_cons_of_mem y h
    · rw [if_neg hy] at h
      rcases List.mem_cons.1 h with rfl | hr
      · exact List.mem_cons_self x r
      · exact List.mem_cons_of_mem y (ih hr)

theorem mem_lerase_of_ne {l : List String} {a x : String} (hx : x ∈ l) (hne : x ≠ a) :
    x ∈ lerase l a := by
  induction l with
  | nil => cases hx
  | cons y r ih =>
    rw [lerase]
    by_cases hy : y = a
    · rw [if_pos hy]
      rcases List.mem_cons.1 hx with rfl | hr
      · exact absurd hy hne
      · exact hr
    · rw [if_neg hy]
      rcases List.mem_cons.1 hx with rfl | hr
      · exact List.mem_cons_self _ _
      · exact List.mem_cons_of_mem y (ih hr)

theorem lerase_of_not_mem {l : List String} {a : String} (h : a ∉ l) : lerase l a = l := by
  induction l with
  | nil => rfl
  | cons y r ih =>
    have hy : ¬(y = a) := fun hh => h (hh ▸ List.mem_cons_self y r)
    rw [lerase, if_neg hy, ih (fun hh => h (List.mem_cons_of_mem y hh))]

theorem nodup_lerase {l : List String} {a : String} (h : l.Nodup) : (lerase l a).Nodup := by
  induction l with
  | nil => exact List.nodup_nil
  | cons y r ih =>
    rw [lerase]
    obtain ⟨hy, hr⟩ := List.nodup_cons.1 h
    by_cases hya : y = a
    · rw [if_pos hya]; exact hr
    · rw [if_neg hya]
      exact List.nodup_cons.2 ⟨fun hm => hy (mem_of_mem_lerase hm), ih hr⟩

theorem not_mem_lerase_self {l : List String} {a : String} (h : l.Nodup) :
    a ∉ lerase l a := by
  induction l with
  | nil => exact List.not_mem_nil a
  | cons y r ih =>
    rw [lerase]
    obtain ⟨hy, hr⟩ := List.nodup_cons.1 h
    by_cases hya : y = a
    · rw [if_pos hya]
      subst hya
      exact hy
    · rw [if_neg hya]
      intro hmem
      rcases List.mem_cons.1 hmem with rfl | hm
      · exact hya rfl
      · exact ih hr hm

theorem length_lerase_of_mem {l : List String} {a : String} (h : a ∈ l) :
    (lerase l a).length + 1 = l.length := by
  induction l with
  | nil => cases h
  | cons y r ih =>
    rw [lerase]
    by_cases hy : y = a
    · rw [if_pos hy]; rfl
    · rw [if_neg hy]
      have har : a ∈ r := by
        rcases List.mem_cons.1 h with rfl | hr
        · exact absurd rfl hy
        · exact hr
      simp only [List.length_cons]
      rw [← ih har]

theorem alookup_mem {α : Type} {l : List (String × α)} {k : String} {v : α}
    (h : alookup l k = some v) : (k, v) ∈ l := by
  induction l with
  | nil => cases h
  | cons p r ih =>
    obtain ⟨k0, v0⟩ := p
    rw [alookup] at h
    by_cases hk : k0 = k
    · rw [if_pos hk] at h
      subst hk
      cases h
      exact List.mem_cons_self _ _
    · rw [if_neg hk] at h
      exact List.mem_cons_of_mem _ (ih h)

theorem alookup_none_iff {α : Type} (l : List (String × α)) (k : String) :
    alookup l k = none ↔ k ∉ keys l := by
  induction l with
  | nil => simp [alookup, keys]
  | cons p r ih =>
    obtain ⟨k0, v0⟩ := p
    rw [alookup, keys]
    by_cases hk : k0 = k
    · subst hk
      simp
    · rw [if_neg hk]
      simp only [List.map_cons, List.mem_cons]
      constructor
      · intro h hm
        rcases hm with hm | hm
        · exact hk hm.symm
        · exact (ih.1 h) hm
      · intro h
        exact ih.2 (fun hm => h (Or.inr hm))

theorem alookup_isSome_iff {α : Type} (l : List (String × α)) (k : String) :
    (alookup l k).isSome = true ↔ k ∈ keys l := by
  constructor
  · intro h
    rcases hl : alookup l k with _ | v
    · rw [hl] at h; cases h
    · exact List.mem_map.2 ⟨(k, v), alookup_mem hl, rfl⟩
  · intro hm
    rcases hl : alookup l k with _ | v
    · exact absurd hm ((alookup_none_iff l k).1 hl)
    · rfl

theorem alookup_of_vals_eq {l : List (String × String)} {k : String}
    (hv : ∀ p ∈ l, p.2 = p.1) (h : k ∈ keys l) : alookup l k = some k := by
  induction l with
  | nil => cases h
  | cons p r ih =>
    obtain ⟨k0, v0⟩ := p
    have hv0 : v0 = k0 := hv (k0, v0) (List.mem_cons_self _ _)
    rw [alookup]
    by_cases hk : k0 = k
    · rw [if_pos hk, hv0, hk]
    · rw [if_neg hk]
      apply ih (fun p hp => hv p (List.mem_cons_of_mem _ hp))
      rcases List.mem_cons.1 h with hm | hm
      · exact absurd hm.symm hk
      · exact hm

theorem keys_delKey {α : Type} (l : List (String × α)) (k : String) :
    keys (delKey l k) = lerase (keys l) k := by
  induction l with
  | nil => rfl
  | cons p r ih =>
    obtain ⟨k0, v0⟩ := p
    rw [delKey]
    show _ = lerase (k0 :: keys r) k
    rw [lerase]
    by_cases hk : k0 = k
    · rw [if_pos hk, if_pos hk]
    · rw [if_neg hk, if_neg hk]
      show k0 :: keys (delKey r k) = _
      rw [ih]

theorem alookup_delKey_ne {α : Type} (l : List (String × α)) (k n : String) (h : n ≠ k) :
    alookup (delKey l k) n = alookup l n := by
  induction l with
  | nil => rfl
  | cons p r ih =>
    obtain ⟨k0, v0⟩ := p
    rw [delKey, alookup]
    by_cases hk : k0 = k
    · rw [if_pos hk]
      have hne : ¬(k0 = n) := fun hh => h ((hh ▸ hk : n = k))
      rw [if_neg hne]
    · rw [if_neg hk]
      show _ = if k0 = n then some v0 else alookup r n
      by_cases hn : k0 = n
      · rw [alookup, if_pos hn, if_pos hn]
      · rw [alookup, if_neg hn, if_neg hn, ih]

theorem delKey_of_not_mem {α : Type} {l : List (String × α)} {k : String}
    (h : k ∉ keys l) : delKey l k = l := by
  induction l with
  | nil => rfl
  | cons p r ih =>
    obtain ⟨k0, v0⟩ := p
    have hk : ¬(k0 = k) := fun hh => h (List.mem_map.2 ⟨(k0, v0), List.mem_cons_self _ _, hh⟩)
    rw [delKey, if_neg hk, ih (fun hm => h (List.mem_cons_of_mem _ hm))]

theorem mem_delKey {α : Type} {l : List (String × α)} {k : String} {p : String × α}
    (h : p ∈ delKey l k) : p ∈ l := by
  induction l with
  | nil => cases h
  | cons q r ih =>
    obtain ⟨k0, v0⟩ := q
    rw [delKey] at h
    by_cases hk : k0 = k
    · rw [if_pos hk] at h
      exact List.mem_cons_of_mem _ h
    · rw [if_neg hk] at h
      rcases List.mem_cons.1 h with rfl | hm
      · exact List.mem_cons_self _ _
      · exact List.mem_cons_of_mem _ (ih hm)

theorem delVal_eq_delKey (l : List (String × String)) (t : String)
    (hv : ∀ p ∈ l, p.2 = p.1) : delVal l t = delKey l t := by
  induction l with
  | nil => rfl
  | cons p r ih =>
    obtain ⟨k0, v0⟩ := p
    have hv0 : v0 = k0 := hv (k0, v0) (List.mem_cons_self _ _)
    subst hv0
    rw [delVal, delKey]
    by_cases hk : v0 = t
    · rw [if_pos hk, if_pos hk]
    · rw [if_neg hk, if_neg hk, ih (fun p hp => hv p (List.mem_cons_of_mem _ hp))]

theorem keys_dictSet_of_mem {α : Type} {l : List (String × α)} {k : String} (v : α)
    (h : k ∈ keys l) : keys (dictSet l k v) = keys l := by
  induction l with
  | nil => cases h
  | cons p r ih =>
    obtain ⟨k0, v0⟩ := p
    rw [dictSet]
    by_cases hk : k0 = k
    · rw [if_pos hk]
      show k0 :: keys r = k0 :: keys r
      rfl
    · rw [if_neg hk]
      show k0 :: keys (dictSet r k v) = k0 :: keys r
      rcases List.mem_cons.1 h with hm | hm
      · exact absurd hm.symm hk
      · rw [ih hm]

theorem keys_dictSet_of_not_mem {α : Type} {l : List (String × α)} {k : String} (v : α)
    (h : k ∉ keys l) : keys (dictSet l k v) = keys l ++ [k] := by
  induction l with
  | nil => rfl
  | cons p r ih =>
    obtain ⟨k0, v0⟩ := p
    have hk : ¬(k0 = k) := fun hh => h (List.mem_map.2 ⟨(k0, v0), List.mem_cons_self _ _, hh⟩)
    rw [dictSet, if_neg hk]
    show k0 :: keys (dictSet r k v) = (k0 :: keys r) ++ [k]
    rw [ih (fun hm => h (List.mem_cons_of_mem _ hm))]
    rfl

theorem mem_dictSet {α : Type} {l : List (String × α)} {k : String} {v : α}
    {p : String × α} (h : p ∈ dictSet l k v) : p ∈ l ∨ p = (k, v) := by
  induction l with
  | nil =>
    rw [dictSet] at h
    rcases List.mem_cons.1 h with rfl | hm
    · exact Or.inr rfl
    · cases hm
  | cons q r ih =>
    obtain ⟨k0, v0⟩ := q
    rw [dictSet] at h
    by_cases hk : k0 = k
    · rw [if_pos hk] at h
      rcases List.mem_cons.1 h with rfl | hm
      · subst hk; exact Or.inr rfl
      · exact Or.inl (List.mem_cons_of_mem _ hm)
    · rw [if_neg hk] at h
      rcases List.mem_cons.1 h with rfl | hm
      · exact Or.inl (List.mem_cons_self _ _)
      · rcases ih hm with hm2 | hm2
        · exact Or.inl (List.mem_cons_of_mem _ hm2)
        · exact Or.inr hm2

theorem dictSet_of_not_mem {α : Type} {l : List (String × α)} {k : String} (v : α)
    (h : k ∉ keys l) : dictSet l k v = l ++ [(k, v)] := by
  induction l with
  | nil => rfl
  | cons p r ih =>
    obtain ⟨k0, v0⟩ := p
    have hk : ¬(k0 = k) := fun hh => h (List.mem_map.2 ⟨(k0, v0), List.mem_cons_self _ _, hh⟩)
    rw [dictSet, if_neg hk, ih (fun hm => h (List.mem_cons_of_mem _ hm))]
    rfl

/-! ## Counting lemmas for the concurrency bound -/

theorem filter_length_update_le (names : List String) (f g : String → Bool) (k : String)
    (hnd : names.Nodup) (h : ∀ x, x ≠ k → g x = f x) :
    (names.filter g).length ≤ (names.filter f).length + 1 := by
  induction names with
  | nil => simp
  | cons x r ih =>
    obtain ⟨hx0, hr⟩ := List.nodup_cons.1 hnd
    by_cases hx : x = k
    · subst hx
      have heq : r.filter g = r.filter f := by
        apply List.filter_congr
        intro y hy
        exact h y (fun hh => hx0 (hh ▸ hy))
      rcases hg : g x with _ | _ <;> rcases hf : f x with _ | _ <;>
        simp only [List.filter_cons, hg, hf, Bool.false_eq_true, if_false, if_true, reduceIte,
          List.length_cons, heq] <;> omega
    · have hgf := h x hx
      have hih := ih hr
      rcases hg : g x with _ | _ <;> rw [hg] at hgf <;>
        simp only [List.filter_cons, hg, ← hgf, Bool.false_eq_true, if_false, if_true,
          reduceIte, List.length_cons] <;> omega

theorem filter_length_mono (names : List String) (f g : String → Bool)
    (h : ∀ x, g x = true → f x = true) :
    (names.filter g).length ≤ (names.filter f).length := by
  induction names with
  | nil => simp
  | cons x r ih =>
    rcases hg : g x with _ | _
    · rcases hf : f x with _ | _ <;>
        simp only [List.filter_cons, hg, hf, Bool.false_eq_true, if_false, if_true,
          reduceIte, List.length_cons] <;> omega
    · have hf := h x hg
      simp only [List.filter_cons, hg, hf, if_true, reduceIte, List.length_cons]
      omega

theorem filter_length_update_decr (names : List String) (f g : String → Bool) (k : String)
    (hnd : names.Nodup) (hk : k ∈ names) (hf : f k = true) (hg : g k = false)
    (h : ∀ x, x ≠ k → g x = f x) :
    (names.filter g).length + 1 = (names.filter f).length := by
  induction names with
  | nil => cases hk
  | cons x r ih =>
    obtain ⟨hx, hr⟩ := List.nodup_cons.1 hnd
    rcases List.mem_cons.1 hk with rfl | hm
    · have heq : r.filter g = r.filter f := by
        apply List.filter_congr
        intro y hy
        exact h y (fun hh => hx (hh ▸ hy))
      simp only [List.filter_cons, hf, hg, Bool.false_eq_true, if_false, if_true, reduceIte,
        List.length_cons, heq]
    · have hxk : x ≠ k := fun hh => hx (hh ▸ hm)
      have hgf := h x hxk
      rcases hgx : g x with _ | _ <;> rw [hgx] at hgf <;>
        simp only [List.filter_cons, hgx, ← hgf, Bool.false_eq_true, if_false, if_true,
          reduceIte, List.length_cons] <;> rw [← ih hr hm] <;> omega

/-! ## Static facts about submissions -/

theorem albumsOf_nonempty {sub : List SubItem} {p : String × List String}
    (h : p ∈ albumsOf sub) : p.2 ≠ [] := by
  induction sub with
  | nil => cases h
  | cons it r ih =>
    cases it with
    | song n => exact ih h
    | album c ss =>
      rw [albumsOf] at h
      by_cases he : ss.isEmpty
      · rw [if_pos he] at h
        exact ih h
      · rw [if_neg he] at h
        rcases List.mem_cons.1 h with rfl | hm
        · simpa [List.isEmpty_iff] using he
        · exact ih hm

theorem mem_subNames_of_albumsOf {sub : List SubItem} {p : String × List String}
    (h : p ∈ albumsOf sub) : p.1 ∈ subNames sub ∧ ∀ u ∈ p.2, u ∈ subNames sub := by
  induction sub with
  | nil => cases h
  | cons it r ih =>
    cases it with
    | song n =>
      obtain ⟨h1, h2⟩ := ih h
      exact ⟨List.mem_cons_of_mem n h1, fun u hu => List.mem_cons_of_mem n (h2 u hu)⟩
    | album c ss =>
      rw [albumsOf] at h
      rw [subNames]
      by_cases he : ss.isEmpty
      · rw [if_pos he] at h
        rw [if_pos he]
        exact ih h
      · rw [if_neg he] at h
        rw [if_neg he]
        rcases List.mem_cons.1 h with rfl | hm
        · refine ⟨List.mem_append_right _ (List.mem_cons_self _ _), fun u hu => ?_⟩
          exact List.mem_append_left _ hu
        · obtain ⟨h1, h2⟩ := ih hm
          exact ⟨List.mem_append_right _ (List.mem_cons_of_mem c h1),
            fun u hu => List.mem_append_right _ (List.mem_cons_of_mem c (h2 u hu))⟩

theorem autoNames_sublist (sub : List SubItem) :
    List.Sublist (autoNames sub) (subNames sub) := by
  induction sub with
  | nil => exact List.Sublist.refl []
  | cons it r ih =>
    cases it with
    | song n =>
      rw [autoNames, subNames]
      exact ih.cons₂ n
    | album c ss =>
      rw [autoNames, subNames]
      by_cases he : ss.isEmpty
      · rw [if_pos he, if_pos he]
        exact ih
      · rw [if_neg he, if_neg he]
        exact (ih.cons c).append_left ss

theorem mem_subNames_of_autoNames {sub : List SubItem} {n : String}
    (h : n ∈ autoNames sub) : n ∈ subNames sub :=
  (autoNames_sublist sub).mem h

theorem albFacts_of_nodup {sub : List SubItem} (hnd : (subNames sub).Nodup) :
    AlbFacts sub := by
  induction sub with
  | nil => exact ⟨List.Pairwise.nil, fun p hp => absurd hp (List.not_mem_nil p),
      fun p hp => absurd hp (List.not_mem_nil p), fun p hp => absurd hp (List.not_mem_nil p)⟩
  | cons it r ih =>
    cases it with
    | song n =>
      rw [subNames] at hnd
      obtain ⟨hn, hr⟩ := List.nodup_cons.1 hnd
      obtain ⟨pw, so, inm, anc⟩ := ih hr
      refine ⟨pw, so, ?_, ?_⟩
      · intro p hp
        obtain ⟨h1, h2⟩ := inm p hp
        exact ⟨List.mem_cons_of_mem n h1, fun u hu => List.mem_cons_of_mem n (h2 u hu)⟩
      · intro p hp
        rw [autoNames]
        intro hmem
        rcases List.mem_cons.1 hmem with heq | hm
        · exact hn (heq ▸ (inm p hp).1)
        · exact anc p hp hm
    | album c ss =>
      rw [subNames] at hnd
      by_cases he : ss.isEmpty
      · rw [if_pos he] at hnd
        obtain ⟨pw, so, inm, anc⟩ := ih hnd
        refine ⟨?_, ?_, ?_, ?_⟩
        · rw [albumsOf, if_pos he]
          exact pw
        · intro p hp
          rw [albumsOf, if_pos he] at hp
          exact so p hp
        · intro p hp
          rw [albumsOf, if_pos he] at hp
          rw [subNames, if_pos he]
          exact inm p hp
        · intro p hp
          rw [albumsOf, if_pos he] at hp
          rw [autoNames, if_pos he]
          exact anc p hp
      · rw [if_neg he] at hnd
        rw [List.nodup_append] at hnd
        obtain ⟨hss, hcr, hdisj⟩ := hnd
        obtain ⟨hc, hr⟩ := List.nodup_cons.1 hcr
        obtain ⟨pw, so, inm, anc⟩ := ih hr
        have hcr2 : ∀ q ∈ albumsOf r, c ≠ q.1 ∧ c ∉ q.2 ∧ q.1 ∉ ss := by
          intro q hq
          obtain ⟨hq1, hq2⟩ := inm q hq
          refine ⟨fun hh => hc (hh ▸ hq1), fun hh => hc (hq2 c hh), fun hh => ?_⟩
          exact hdisj hh (List.mem_cons_of_mem c hq1)
        refine ⟨?_, ?_, ?_, ?_⟩
        · rw [albumsOf, if_neg he]
          exact List.Pairwise.cons (fun q hq => hcr2 q hq) pw
        · intro p hp
          rw [albumsOf, if_neg he] at hp
          rcases List.mem_cons.1 hp with rfl | hm
          · exact ⟨fun hh => hdisj hh (List.mem_cons_self c _), hss⟩
          · exact so p hm
        · intro p hp
          rw [albumsOf, if_neg he] at hp
          rw [subNames, if_neg he]
          rcases List.mem_cons.1 hp with rfl | hm
          · exact ⟨List.mem_append_right _ (List.mem_cons_self _ _),
              fun u hu => List.mem_append_left _ hu⟩
          · obtain ⟨h1, h2⟩ := inm p hm
            exact ⟨List.mem_append_right _ (List.mem_cons_of_mem c h1),
              fun u hu => List.mem_append_right _ (List.mem_cons_of_mem c (h2 u hu))⟩
        · intro p hp
          rw [albumsOf, if_neg he] at hp
          rw [autoNames, if_neg he]
          intro hmem
          rcases List.mem_cons.1 hp with rfl | hm
          · rcases List.mem_append.1 hmem with h1 | h1
            · exact hdisj h1 (List.mem_cons_self _ _)
            · exact hc (mem_subNames_of_autoNames h1)
          · rcases List.mem_append.1 hmem with h1 | h1
            · exact hdisj h1 (List.mem_cons_of_mem c (inm p hm).1)
            · exact anc p hm h1

/-! ## Batch submission: characterizing `initSys` -/

theorem keys_pairMap (l : List String) :
    keys (l.map (fun n => (n, n))) = l := by
  induction l with
  | nil => rfl
  | cons x r ih =>
    rw [List.map_cons]
    show x :: keys (r.map (fun n => (n, n))) = x :: r
    rw [ih]

theorem forall2_map_self {α β : Type} (R : α → β → Prop) (f : α → β) (l : List α)
    (h : ∀ a ∈ l, R a (f a)) : List.Forall₂ R l (l.map f) := by
  induction l with
  | nil => exact List.Forall₂.nil
  | cons x r ih =>
    rw [List.map_cons]
    exact List.Forall₂.cons (h x (List.mem_cons_self _ _))
      (ih (fun a ha => h a (List.mem_cons_of_mem _ ha)))

theorem addWorkerFn_fresh (s : St) (n : String) (b : Bool) (h : n ∉ keys s.workers) :
    addWorkerFn s n b =
      { s with threads := if b then s.threads ++ [n] else s.threads,
               workers := s.workers ++ [(n, n)] } := by
  cases b <;> simp [addWorkerFn, dictSet_of_not_mem _ h]

theorem addSongs_fold (ss : List String) :
    ∀ (s : St), ss.Nodup → (∀ k, k ∈ keys s.workers → k ∉ ss) →
      ss.foldl (fun s n => addWorkerFn s n true) s =
        { s with threads := s.threads ++ ss,
                 workers := s.workers ++ ss.map (fun n => (n, n)) } := by
  induction ss with
  | nil => intro s _ _; simp
  | cons x r ih =>
    intro s hnd hfresh
    obtain ⟨hx, hr⟩ := List.nodup_cons.1 hnd
    have hxf : x ∉ keys s.workers := fun hm => hfresh x hm (List.mem_cons_self _ _)
    rw [List.foldl_cons, addWorkerFn_fresh s x true hxf]
    rw [ih _ hr ?hfresh2]
    case hfresh2 =>
      intro k hk hkr
      show False
      have hk2 : k ∈ keys s.workers ++ [x] := by
        have : keys (s.workers ++ [(x, x)]) = keys s.workers ++ [x] := by
          rw [keys, List.map_append]
          rfl
        rw [← this]
        exact hk
      rcases List.mem_append.1 hk2 with hm | hm
      · exact hfresh k hm (List.mem_cons_of_mem _ hkr)
      · have : k = x := by simpa using hm
        exact hx (this ▸ hkr)
    simp only [if_true, reduceIte, List.append_assoc, List.map_cons]
    rfl

theorem submit_fold (sub : List SubItem) :
    ∀ (sys₀ : Sys), (subNames sub).Nodup →
      (∀ k, k ∈ keys sys₀.rst.workers → k ∉ subNames sub) →
      sub.foldl submitItem sys₀ =
        { rst := { sys₀.rst with
              threads := sys₀.rst.threads ++ autoNames sub,
              workers := sys₀.rst.workers ++ (subNames sub).map (fun n => (n, n)) },
          helpers := sys₀.helpers ++
            (albumsOf sub).map (fun p => ⟨p.2, false, p.1⟩) } := by
  induction sub with
  | nil =>
    intro sys₀ _ _
    rw [List.foldl_nil, subNames, autoNames, albumsOf]
    simp
  | cons it r ih =>
    intro sys₀ hnd hfresh
    rw [List.foldl_cons]
    cases it with
    | song n =>
      rw [subNames] at hnd hfresh
      obtain ⟨hn, hr⟩ := List.nodup_cons.1 hnd
      have hnf : n ∉ keys sys₀.rst.workers :=
        fun hm => hfresh n hm (List.mem_cons_self _ _)
      have hstep : submitItem sys₀ (SubItem.song n) =
          { sys₀ with rst := { sys₀.rst with
              threads := sys₀.rst.threads ++ [n],
              workers := sys₀.rst.workers ++ [(n, n)] } } := by
        rw [submitItem, addWorkerFn_fresh _ _ _ hnf]
        rfl
      rw [hstep, ih _ hr ?fr]
      case fr =>
        intro k hk hkr
        have hk2 : keys (sys₀.rst.workers ++ [(n, n)]) = keys sys₀.rst.workers ++ [n] := by
          rw [keys, List.map_append]
          rfl
        rw [hk2] at hk
        rcases List.mem_append.1 hk with hm | hm
        · exact hfresh k hm (List.mem_cons_of_mem _ hkr)
        · have : k = n := by simpa using hm
          exact hn (this ▸ hkr)
      rw [subNames, autoNames, albumsOf]
      simp only [List.append_assoc, List.map_cons]
      rfl
    | album c ss =>
      by_cases he : ss.isEmpty
      · rw [subNames, if_pos he] at hnd hfresh
        have hstep : submitItem sys₀ (SubItem.album c ss) = sys₀ := by
          rw [submitItem, if_pos he]
        rw [hstep, ih _ hnd hfresh, subNames, if_pos he, autoNames, if_pos he,
          albumsOf, if_pos he]
      · rw [subNames, if_neg he] at hnd hfresh
        rw [List.nodup_append] at hnd
        obtain ⟨hss, hcr, hdisj⟩ := hnd
        obtain ⟨hc, hr⟩ := List.nodup_cons.1 hcr
        have he2 : ¬(ss.isEmpty = true) := he
        have hcfresh : c ∉ keys (sys₀.rst.workers ++ ss.map (fun n => (n, n))) := by
          rw [keys, List.map_append]
          intro hm
          rcases List.mem_append.1 hm with hm1 | hm1
          · exact hfresh c hm1 (List.mem_append_right _ (List.mem_cons_self _ _))
          · have : c ∈ keys (ss.map (fun n => (n, n))) := hm1
            rw [keys_pairMap] at this
            exact hdisj this (List.mem_cons_self _ _)
        have hstep : submitItem sys₀ (SubItem.album c ss) =
            { rst := { sys₀.rst with
                threads := sys₀.rst.threads ++ ss,
                workers := (sys₀.rst.workers ++ ss.map (fun n => (n, n))) ++ [(c, c)] },
              helpers := sys₀.helpers ++ [⟨ss, false, c⟩] } := by
          rw [submitItem, if_neg he2]
          rw [addSongs_fold ss sys₀.rst hss
            (fun k hk hkr => hfresh k hk (List.mem_append_left _ hkr))]
          rw [addWorkerFn_fresh _ c false hcfresh]
          rfl
        rw [hstep, ih _ hr ?fr2]
        case fr2 =>
          intro k hk hkr
          have hk2 : keys ((sys₀.rst.workers ++ ss.map (fun n => (n, n))) ++ [(c, c)]) =
              (keys sys₀.rst.workers ++ ss) ++ [c] := by
            rw [keys, List.map_append, List.map_append]
            rw [← keys, ← keys, ← keys, keys_pairMap]
            rfl
          rw [hk2] at hk
          rcases List.mem_append.1 hk with hm | hm
          · rcases List.mem_append.1 hm with hm1 | hm1
            · exact hfresh k hm1 (List.mem_append_right _ (List.mem_cons_of_mem c hkr))
            · exact hdisj hm1 (List.mem_cons_of_mem c hkr)
          · have : k = c := by simpa using hm
            exact hc (this ▸ hkr)
        rw [subNames, if_neg he, autoNames, if_neg he, albumsOf, if_neg he]
        simp only [List.append_assoc, List.map_append, List.map_cons]
        rfl

/-! ## Starting threads: pointwise effect and counting -/

theorem startThread_tstatus_ne (s : St) (t x : String) (h : x ≠ t) :
    (startThread s t).tstatus x = s.tstatus x := by
  rw [startThread]
  split
  · rfl
  · exact fupd_ne _ _ _ _ h

theorem foldl_startThread_tstatus_not_mem (l : List String) :
    ∀ (s : St) (n : String), n ∉ l → (l.foldl startThread s).tstatus n = s.tstatus n := by
  induction l with
  | nil => intro s n _; rfl
  | cons t r ih =>
    intro s n hn
    rw [List.foldl_cons]
    rw [ih _ n (fun hm => hn (List.mem_cons_of_mem _ hm))]
    exact startThread_tstatus_ne s t n (fun hh => hn (hh ▸ List.mem_cons_self _ _))

theorem foldl_startThread_count (l : List String) (names : List String) (hnd : names.Nodup) :
    ∀ (s : St),
      (names.filter (fun n => ((l.foldl startThread s).tstatus n).isRun)).length ≤
        (names.filter (fun n => (s.tstatus n).isRun)).length + l.length := by
  induction l with
  | nil => intro s; simp
  | cons t r ih =>
    intro s
    rw [List.foldl_cons]
    have h1 := ih (startThread s t)
    have h2 : (names.filter (fun n => ((startThread s t).tstatus n).isRun)).length ≤
        (names.filter (fun n => (s.tstatus n).isRun)).length + 1 := by
      apply filter_length_update_le names _ _ t hnd
      intro x hx
      rw [startThread_tstatus_ne s t x hx]
    rw [List.length_cons]
    omega

/-! ## The initial state satisfies the invariant -/

theorem renderFn_start (m : Nat) (s : St) (h : ¬(s.workers.length = 0)) :
    renderFn m s =
      (s.threads.take (min m s.threads.length)).foldl startThread
        { s with working := true } := by
  rw [renderFn]
  simp only [h, if_false, reduceIte]

theorem initSys_eq (m : Nat) (sub : List SubItem) (hnd : (subNames sub).Nodup) :
    initSys m sub =
      { rst := renderFn m (initRst sub),
        helpers := (albumsOf sub).map (fun p => ⟨p.2, false, p.1⟩) } := by
  rw [initSys, submit_fold sub _ hnd ?base]
  case base =>
    intro k hk
    simp [initSt, keys] at hk
  simp [initSt, initRst]

theorem inv_init (m : Nat) (sub : List SubItem) (hnd : (subNames sub).Nodup) :
    Inv m sub (initSys m sub) := by
  obtain ⟨pw, so, inm, anc⟩ := albFacts_of_nodup hnd
  rw [initSys_eq m sub hnd]
  by_cases hempty : (subNames sub).length = 0
  · have hsn : subNames sub = [] := List.length_eq_zero.1 hempty
    have han : autoNames sub = [] := List.sublist_nil.1 (hsn ▸ autoNames_sublist sub)
    have halb : albumsOf sub = [] := by
      rw [List.eq_nil_iff_forall_not_mem]
      intro p hp
      have hmem := (mem_subNames_of_albumsOf hp).1
      rw [hsn] at hmem
      cases hmem
    have hrend : renderFn m (initRst sub) =
        { initSt with log := [Emission.batchFinished []] } := by
      rw [initRst, hsn, han, renderFn]
      simp [initSt]
    rw [hrend, halb]
    refine ⟨?_, ?_, ?_, ?_, ?_, ?_, ?_, ?_, ?_, ?_, ?_, ?_, ?_, ?_⟩
    · intro _ n
      rfl
    · intro n h
      cases h
    · intro t ht
      cases ht
    · exact List.nodup_nil
    · exact List.nodup_nil
    · intro k hk
      cases hk
    · intro p hp
      cases hp
    · simp [initSt, TStatus.isRun]
    · intro n hn
      cases hn
    · intro n h
      cases h
    · intro _ n
      rfl
    · intro n h
      exact Bool.noConfusion h
    · intro _
      rfl
    · rw [halb]
      exact List.Forall₂.nil
  · have hwne : ¬((initRst sub).workers.length = 0) := by
      simp only [initRst]
      simpa using hempty
    rw [renderFn_start m _ hwne]
    have htake : (initRst sub).threads.take (min m (initRst sub).threads.length) =
        (autoNames sub).take (min m (autoNames sub).length) := rfl
    rw [htake]
    obtain ⟨f, hf⟩ := foldl_startThread_shape
      ((autoNames sub).take (min m (autoNames sub).length))
      { initRst sub with working := true }
    rw [hf]
    have hstatL : ∀ n, n ∉ (autoNames sub).take (min m (autoNames sub).length) →
        f n = TStatus.unstarted := by
      intro n hn
      have h1 := foldl_startThread_tstatus_not_mem
        ((autoNames sub).take (min m (autoNames sub).length))
        { initRst sub with working := true } n hn
      rw [hf] at h1
      exact h1
    have hauto_nodup : (autoNames sub).Nodup := (autoNames_sublist sub).nodup hnd
    refine ⟨?_, ?_, ?_, ?_, ?_, ?_, ?_, ?_, ?_, ?_, ?_, ?_, ?_, ?_⟩
    · intro h
      simp at h
    · intro n h
      by_cases hn : n ∈ (autoNames sub).take (min m (autoNames sub).length)
      · exact List.take_subset _ _ hn
      · have h2 : (f n).isRun = true := h
        rw [hstatL n hn] at h2
        cases h2
    · intro t ht
      show t ∈ keys ((subNames sub).map (fun n => (n, n)))
      rw [keys_pairMap]
      exact mem_subNames_of_autoNames ht
    · exact hauto_nodup
    · show (keys ((subNames sub).map (fun n => (n, n)))).Nodup
      rw [keys_pairMap]
      exact hnd
    · intro k hk
      have hk2 : k ∈ keys ((subNames sub).map (fun n => (n, n))) := hk
      rw [keys_pairMap] at hk2
      exact hk2
    · intro p hp
      obtain ⟨n, _, hn⟩ := List.mem_map.1 hp
      rw [← hn]
    · have hc := foldl_startThread_count
        ((autoNames sub).take (min m (autoNames sub).length)) (subNames sub) hnd
        { initRst sub with working := true }
      rw [hf] at hc
      have hbase : ((subNames sub).filter (fun n =>
          ((initRst sub).tstatus n).isRun)).length = 0 := by
        simp [initRst, initSt, TStatus.isRun]
      have hlen : ((autoNames sub).take (min m (autoNames sub).length)).length ≤ m := by
        rw [List.length_take]
        omega
      simp only at hc
      show ((subNames sub).filter (fun n => (f n).isRun)).length ≤ m
      omega
    · intro n hn
      cases hn
    · intro n h
      simp [initRst, initSt] at h
    · intro _ n
      rfl
    · intro n h
      simp [initRst, initSt] at h
    · intro _
      have hw2 : ¬(((subNames sub).map (fun n => (n, n))).length = 0) := by
        simpa using hempty
      show finishedSnaps ([] : List Emission) =
        if ((subNames sub).map (fun n => (n, n))).length = 0 then
          [([] : List (String × Bool))] else []
      rw [if_neg hw2]
      rfl
    · apply forall2_map_self
      intro p hp
      have hps : p.1 ∉ (autoNames sub).take (min m (autoNames sub).length) :=
        fun hm => anc p hp (List.take_subset _ _ hm)
      refine ⟨rfl, (so p hp).2, fun u hu => hu, fun u hu _ => hu, fun _ u _ => rfl,
        ?_, ?_, ?_, ?_, ?_⟩
      · intro _
        exact ⟨hstatL p.1 hps, fun hm => anc p hp hm⟩
      · intro h
        cases h
      · intro u _ hlk
        cases hlk
      · intro _ _ _
        show alookup ((subNames sub).map (fun n => (n, n))) p.1 = some p.1
        apply alookup_of_vals_eq
        · intro q hq
          obtain ⟨n, _, hn⟩ := List.mem_map.1 hq
          rw [← hn]
        · rw [keys_pairMap]
          exact (inm p hp).1
      · intro hw
        exact absurd hw (albumsOf_nonempty hp)

/-! ## Frame lemmas for the per-group invariant -/

theorem lerase_sublist (l : List String) (a : String) : List.Sublist (lerase l a) l := by
  induction l with
  | nil => exact List.Sublist.refl []
  | cons x r ih =>
    rw [lerase]
    by_cases hx : x = a
    · rw [if_pos hx]
      exact (List.Sublist.refl r).cons x
    · rw [if_neg hx]
      exact ih.cons₂ x

theorem eq_singleton_of_mem_length_one {l : List String} {n : String}
    (hm : n ∈ l) (hl : l.length = 1) : l = [n] := by
  cases l with
  | nil => cases hm
  | cons x r =>
    cases r with
    | nil =>
      rcases List.mem_cons.1 hm with rfl | hm2
      · rfl
      · cases hm2
    | cons y t =>
      rw [List.length_cons, List.length_cons] at hl
      omega

theorem forall2_imp_mem {α β : Type} {R S : α → β → Prop} :
    ∀ {l₁ : List α} {l₂ : List β}, List.Forall₂ R l₁ l₂ →
      (∀ a ∈ l₁, ∀ b, R a b → S a b) → List.Forall₂ S l₁ l₂ := by
  intro l₁ l₂ h
  induction h with
  | nil => intro _; exact List.Forall₂.nil
  | cons hab htail ih =>
    intro himp
    refine List.Forall₂.cons (himp _ (List.mem_cons_self _ _) _ hab) ?_
    exact ih (fun a ha b hr => himp a (List.mem_cons_of_mem _ ha) b hr)

theorem albumInv_mono (s s' : St) (alb : String × List String) (h : HelperSt)
    (hthr : alb.1 ∈ s'.threads ↔ alb.1 ∈ s.threads)
    (hts : s'.tstatus alb.1 = TStatus.unstarted ↔ s.tstatus alb.1 = TStatus.unstarted)
    (hwf : ∀ u ∈ alb.2, s'.wfin u = s.wfin u)
    (hcc : s'.cancelled = s.cancelled)
    (hres : ∀ u ∈ alb.2, alookup s'.results u = alookup s.results u)
    (hwk : alookup s'.workers alb.1 = alookup s.workers alb.1)
    (hI : AlbumInv s alb h) : AlbumInv s' alb h := by
  have hkeys : alb.1 ∈ keys s'.workers ↔ alb.1 ∈ keys s.workers := by
    rw [← alookup_isSome_iff, ← alookup_isSome_iff, hwk]
  obtain ⟨ce, pn, ps, pou, pu, pb, eb, fr, ct, rs⟩ := hI
  refine ⟨ce, pn, ps, ?_, ?_, ?_, ?_, ?_, ?_, ?_⟩
  · intro u hu hw
    rw [hwf u hu] at hw
    exact pou u hu hw
  · intro hc u hu
    rw [hcc] at hc
    rw [hwf u (ps u hu)]
    exact pu hc u hu
  · intro hne
    obtain ⟨h1, h2⟩ := pb hne
    exact ⟨hts.2 h1, fun hm => h2 (hthr.1 hm)⟩
  · intro he
    obtain ⟨h1, h2⟩ := eb he
    exact ⟨hts.2 h1, fun hm => h2 (hthr.1 hm)⟩
  · intro u hu hlk
    rw [hres u hu] at hlk
    exact fr u hu hlk
  · intro he h1 h2
    rw [hwk]
    exact ct he (hts.1 h1) (fun hm => h2 (hthr.2 hm))
  · intro h1 h2 h3
    rw [hcc] at h3
    rcases rs h1 h2 h3 with hm | hm
    · exact Or.inl (hthr.2 hm)
    · exact Or.inr (fun hk => hm (hkeys.1 hk))

theorem albumDone_mono (n : String) (s s' : St) (alb : String × List String) (h : HelperSt)
    (hthr : alb.1 ∈ s'.threads ↔ alb.1 ∈ s.threads)
    (hts : s'.tstatus alb.1 = TStatus.unstarted ↔ s.tstatus alb.1 = TStatus.unstarted)
    (hwf : ∀ u ∈ alb.2, s'.wfin u = s.wfin u)
    (hcc : s'.cancelled = s.cancelled)
    (hres : ∀ u ∈ alb.2, alookup s'.results u = alookup s.results u)
    (hwk : alookup s'.workers alb.1 = alookup s.workers alb.1)
    (hI : AlbumDoneInv n s alb h) : AlbumDoneInv n s' alb h := by
  have hkeys : alb.1 ∈ keys s'.workers ↔ alb.1 ∈ keys s.workers := by
    rw [← alookup_isSome_iff, ← alookup_isSome_iff, hwk]
  obtain ⟨ce, pn, ps, pou, pu, pb, eb, fr, ct, rs⟩ := hI
  refine ⟨ce, pn, ps, ?_, ?_, ?_, ?_, ?_, ?_, ?_⟩
  · intro u hu hw
    rw [hwf u hu] at hw
    exact pou u hu hw
  · intro hc u hu hun
    rw [hcc] at hc
    rw [hwf u (ps u hu)]
    exact pu hc u hu hun
  · intro hne
    obtain ⟨h1, h2⟩ := pb hne
    exact ⟨hts.2 h1, fun hm => h2 (hthr.1 hm)⟩
  · intro he
    obtain ⟨h1, h2⟩ := eb he
    exact ⟨hts.2 h1, fun hm => h2 (hthr.1 hm)⟩
  · intro u hu hlk
    rw [hres u hu] at hlk
    exact fr u hu hlk
  · intro he h1 h2
    rw [hwk]
    exact ct he (hts.1 h1) (fun hm => h2 (hthr.2 hm))
  · intro h1 h2 h3
    rw [hcc] at h3
    rcases rs h1 h2 h3 with hm | hm
    · exact Or.inl (hthr.2 hm)
    · exact Or.inr (fun hk => hm (hkeys.1 hk))

theorem albumInv_to_done (n : String) (b : Bool) (s s' : St)
    (alb : String × List String) (h : HelperSt)
    (hpre : s.wfin n = false)
    (hwf : s'.wfin = fupd s.wfin n true)
    (hres : s'.results = dictSet s.results n b)
    (hthr : s'.threads = s.threads) (hts : s'.tstatus = s.tstatus)
    (hcc : s'.cancelled = s.cancelled) (hwk : s'.workers = s.workers)
    (hI : AlbumInv s alb h) : AlbumDoneInv n s' alb h := by
  obtain ⟨ce, pn, ps, pou, pu, pb, eb, fr, ct, rs⟩ := hI
  refine ⟨ce, pn, ps, ?_, ?_, ?_, ?_, ?_, ?_, ?_⟩
  · intro u hu hw
    rw [hwf] at hw
    by_cases hun : u = n
    · subst hun
      rw [fupd_self] at hw
      cases hw
    · rw [fupd_ne _ _ _ _ hun] at hw
      exact pou u hu hw
  · intro hc u hu hun
    rw [hwf, fupd_ne _ _ _ _ hun]
    rw [hcc] at hc
    exact pu hc u hu
  · intro hne
    rw [hts, hthr]
    exact pb hne
  · intro he
    rw [hts, hthr]
    exact eb he
  · intro u hu hlk
    rw [hres] at hlk
    by_cases hun : u = n
    · subst hun
      exact Or.inr (pou u hu hpre)
    · rw [alookup_dictSet_ne _ _ _ _ hun] at hlk
      exact fr u hu hlk
  · intro he h1 h2
    rw [hwk]
    rw [hts] at h1
    rw [hthr] at h2
    exact ct he h1 h2
  · intro h1 h2 h3
    rw [hcc] at h3
    rw [hthr, hwk]
    exact rs h1 h2 h3

theorem albumDone_to_inv (n : String) (s : St) (alb : String × List String)
    (h : HelperSt) (hmem : n ∉ h.hworkers)
    (hD : AlbumDoneInv n s alb h) : AlbumInv s alb h := by
  obtain ⟨ce, pn, ps, pou, pu, pb, eb, fr, ct, rs⟩ := hD
  exact ⟨ce, pn, ps, pou,
    fun hc u hu => pu hc u hu (fun hh => hmem (hh ▸ hu)), pb, eb, fr, ct, rs⟩

theorem cancelWorkerFn_unstarted (s : St) (c : String)
    (hts : ¬(s.tstatus c = TStatus.running)) (hnt : c ∉ s.threads)
    (hne : ¬(s.threads.length = 0))
    (hv : ∀ q ∈ s.workers, q.2 = q.1) :
    cancelWorkerFn s c = { s with workers := delKey s.workers c } := by
  rw [cancelWorkerFn]
  rcases hlk : alookup s.workers c with _ | t
  · simp only
    rw [delKey_of_not_mem ((alookup_none_iff _ _).1 hlk)]
  · have htc : t = c := hv (c, t) (alookup_mem hlk)
    rw [htc]
    have hq : quitThread s c = s := by rw [quitThread, if_neg hts]
    simp only [hq, lerase_of_not_mem hnt, if_neg hne]

/-! ## The `worker_error` broadcast preserves the invariant -/

theorem helpersError_go (n : String) :
    ∀ (albs : List (String × List String)) (hs : List HelperSt) (s : St),
      s.working = true → ¬(s.threads.length = 0) →
      (∀ q ∈ s.workers, q.2 = q.1) →
      albs.Pairwise (fun a b => a.1 ≠ b.1 ∧ a.1 ∉ b.2 ∧ b.1 ∉ a.2) →
      List.Forall₂ (AlbumInv s) albs hs →
      ErrGo s (helpersError n s hs).1 albs (helpersError n s hs).2 := by
  intro albs
  induction albs with
  | nil =>
    intro hs s hw hthr hvals hpair hfa
    cases hfa
    exact ⟨rfl, rfl, rfl, rfl, rfl, rfl, rfl, rfl, rfl,
      fun q hq => hq, List.Sublist.refl _, fun k _ => rfl, fun k _ => rfl, List.Forall₂.nil⟩
  | cons alb restA ih =>
    intro hs s hw hthr hvals hpair hfa
    cases hs with
    | nil => cases hfa
    | cons h restH =>
      cases hfa with
      | cons hD htail =>
        obtain ⟨hph, hpt⟩ := List.pairwise_cons.1 hpair
        have hcomb : h.combine = alb.1 := hD.combine_eq
        by_cases hmem : n ∈ h.hworkers
        · have hne : h.hworkers ≠ [] := fun hh => (List.not_mem_nil n) (hh ▸ hmem)
          obtain ⟨huns, hnthr⟩ := hD.pending_blocks hne
          have hnr : ¬(s.tstatus alb.1 = TStatus.running) := by
            rw [huns]
            intro hh
            exact TStatus.noConfusion hh
          have hcancel : cancelWorkerFn s h.combine =
              { s with workers := delKey s.workers alb.1 } := by
            rw [hcomb]
            exact cancelWorkerFn_unstarted s alb.1 hnr hnthr hthr hvals
          have hstep : helpersError n s (h :: restH) =
              ((helpersError n { s with workers := delKey s.workers alb.1 } restH).1,
               { h with herror := true } ::
                 (helpersError n { s with workers := delKey s.workers alb.1 } restH).2) := by
            rw [helpersError]
            simp only [if_pos hmem, hcancel]
          have hfa1 : List.Forall₂ (AlbumInv { s with workers := delKey s.workers alb.1 })
              restA restH := by
            refine forall2_imp_mem htail ?_
            intro q hq h2 hI
            refine albumInv_mono s _ q h2 Iff.rfl Iff.rfl (fun u _ => rfl) rfl
              (fun u _ => rfl) ?_ hI
            exact alookup_delKey_ne s.workers alb.1 q.1 (fun hh => (hph q hq).1 hh.symm)
          have G := ih restH { s with workers := delKey s.workers alb.1 } hw hthr
            (fun q hq => hvals q (mem_delKey hq)) hpt hfa1
          rw [hstep]
          refine ⟨G.thr, G.wkg, G.res, G.wfn, G.tst, G.cnc, G.lg, G.prc, G.spn,
            ?_, ?_, ?_, ?_, ?_⟩
          · intro q hq
            exact mem_delKey (G.sub q hq)
          · refine G.ksub.trans ?_
            show List.Sublist (keys (delKey s.workers alb.1)) (keys s.workers)
            rw [keys_delKey]
            exact lerase_sublist _ _
          · intro k hk
            have hkne : ¬(k = alb.1) := fun hh => hnthr (hh ▸ hk)
            exact (G.keep k hk).trans (alookup_delKey_ne _ _ _ hkne)
          · intro k hk
            have h1 : ¬(k = alb.1) := fun hh =>
              hk (hh ▸ List.mem_cons_self _ _)
            have h2 : k ∉ restA.map (·.1) := fun hm => hk (List.mem_cons_of_mem _ hm)
            exact (G.keep2 k h2).trans (alookup_delKey_ne _ _ _ h1)
          · refine List.Forall₂.cons ?_ G.inv
            refine ⟨hD.combine_eq, hD.pending_nodup, hD.pending_sub, ?_, ?_, ?_, ?_,
              ?_, ?_, ?_⟩
            · intro u hu hwfin
              rw [G.wfn] at hwfin
              exact hD.pending_of_unfinished u hu hwfin
            · intro hc u hu
              rw [G.cnc] at hc
              rw [G.wfn]
              exact hD.pending_unfinished hc u hu
            · intro _
              rw [G.tst, G.thr]
              exact ⟨huns, hnthr⟩
            · intro _
              rw [G.tst, G.thr]
              exact ⟨huns, hnthr⟩
            · intro u hu hlk
              exact Or.inl rfl
            · intro hf
              exact Bool.noConfusion hf
            · intro hemp _ _
              have hemp2 : h.hworkers = [] := hemp
              exact absurd (hemp2 ▸ hmem) (List.not_mem_nil n)
        · have hstep : helpersError n s (h :: restH) =
              ((helpersError n s restH).1, h :: (helpersError n s restH).2) := by
            rw [helpersError]
            simp only [if_neg hmem]
          have G := ih restH s hw hthr hvals hpt htail
          rw [hstep]
          refine ⟨G.thr, G.wkg, G.res, G.wfn, G.tst, G.cnc, G.lg, G.prc, G.spn,
            G.sub, G.ksub, G.keep, ?_, ?_⟩
          · intro k hk
            exact G.keep2 k (fun hm => hk (List.mem_cons_of_mem _ hm))
          · refine List.Forall₂.cons ?_ G.inv
            have hna : alb.1 ∉ restA.map (·.1) := by
              intro hm
              obtain ⟨q, hq, hqe⟩ := List.mem_map.1 hm
              exact (hph q hq).1 hqe.symm
            refine albumInv_mono s _ alb h ?_ ?_ ?_ G.cnc ?_ ?_ hD
            · rw [G.thr]
            · rw [G.tst]
            · intro u _
              rw [G.wfn]
            · intro u _
              rw [G.res]
            · exact G.keep2 alb.1 hna

/-! ## The `worker_done` broadcast preserves the invariant -/

theorem helpersDone_go (m : Nat) (n : String) (b : Bool) :
    ∀ (albs : List (String × List String)) (hs : List HelperSt) (s : St),
      s.working = true → s.cancelled = false → s.threads.Nodup →
      (∀ q ∈ s.workers, q.2 = q.1) →
      s.wfin n = true → alookup s.results n = some b →
      albs.Pairwise (fun a b => a.1 ≠ b.1 ∧ a.1 ∉ b.2 ∧ b.1 ∉ a.2) →
      List.Forall₂ (AlbumDoneInv n s) albs hs →
      DoneGo s (helpersDone m n b s hs).1 albs (helpersDone m n b s hs).2 := by
  intro albs
  induction albs with
  | nil =>
    intro hs s hw hcc hnd hvals hfin hres hpair hfa
    cases hfa
    exact ⟨rfl, rfl, rfl, rfl, rfl, rfl, rfl, rfl, rfl,
      ⟨[], (List.append_nil _).symm, fun t ht => absurd ht (List.not_mem_nil t)⟩,
      hnd, List.Forall₂.nil⟩
  | cons alb restA ih =>
    intro hs s hw hcc hnd hvals hfin hres hpair hfa
    cases hs with
    | nil => cases hfa
    | cons h restH =>
      cases hfa with
      | cons hD htail =>
        obtain ⟨hph, hpt⟩ := List.pairwise_cons.1 hpair
        have hcomb : h.combine = alb.1 := hD.combine_eq
        by_cases hmem : n ∈ h.hworkers
        · -- this group just lost its pending worker `n`
          have hloc : helperDoneLocal n b h =
              { h with hworkers := lerase h.hworkers n, herror := h.herror || !b } := by
            rw [helperDoneLocal, if_pos hmem]
          have hne : h.hworkers ≠ [] := fun hh => (List.not_mem_nil n) (hh ▸ hmem)
          obtain ⟨huns, hnthr⟩ := hD.pending_blocks hne
          by_cases hfire : (lerase h.hworkers n).length = 0 ∧ (h.herror || !b) = false
          · -- last pending worker succeeded with no prior failure: release the combine
            obtain ⟨hlen0, herr0⟩ := hfire
            have hherr : h.herror = false := by
              rcases hx : h.herror with _ | _
              · rfl
              · rw [hx] at herr0
                exact Bool.noConfusion herr0
            have hb : b = true := by
              rcases hx : b with _ | _
              · rw [hx, hherr] at herr0
                exact Bool.noConfusion herr0
              · rfl
            have hsing : h.hworkers = [n] := by
              have hll := length_lerase_of_mem hmem
              exact eq_singleton_of_mem_length_one hmem (by omega)
            have hlist0 : lerase h.hworkers n = [] := List.length_eq_zero.1 hlen0
            have hlk : alookup s.workers alb.1 = some alb.1 :=
              hD.combine_tracked hherr huns hnthr
            have hsw : startWorkerFn m s h.combine =
                { s with threads := s.threads ++ [alb.1] } := by
              rw [hcomb, startWorkerFn, hlk]
              simp only
              rw [if_neg hnthr]
              simp only [hw, if_true, reduceIte]
            have hcond : (decide ((lerase h.hworkers n).length = 0) &&
                !(h.herror || !b)) = true := by
              rw [hlen0, herr0]
              rfl
            have hstep : helpersDone m n b s (h :: restH) =
                ((helpersDone m n b { s with threads := s.threads ++ [alb.1] } restH).1,
                 { h with hworkers := lerase h.hworkers n, herror := h.herror || !b } ::
                   (helpersDone m n b { s with threads := s.threads ++ [alb.1] }
                     restH).2) := by
              rw [helpersDone]
              simp only [hloc]
              rw [if_pos hcond, hsw]
            have hnd1 : (s.threads ++ [alb.1]).Nodup := by
              refine hnd.append (List.nodup_singleton _) ?_
              intro a ha hb2
              rw [List.mem_singleton] at hb2
              exact hnthr (hb2 ▸ ha)
            have hfa1 : List.Forall₂
                (AlbumDoneInv n { s with threads := s.threads ++ [alb.1] })
                restA restH := by
              refine forall2_imp_mem htail ?_
              intro q hq h2 hI
              refine albumDone_mono n s _ q h2 ?_ Iff.rfl (fun u _ => rfl) rfl
                (fun u _ => rfl) rfl hI
              show q.1 ∈ s.threads ++ [alb.1] ↔ q.1 ∈ s.threads
              constructor
              · intro hm
                rcases List.mem_append.1 hm with hm | hm
                · exact hm
                · rw [List.mem_singleton] at hm
                  exact absurd hm.symm (hph q hq).1
              · exact fun hm => List.mem_append_left _ hm
            have G := ih restH { s with threads := s.threads ++ [alb.1] } hw hcc hnd1
              hvals hfin hres hpt hfa1
            obtain ⟨ext, hext, hextp⟩ := G.thr
            have hmemthr : alb.1 ∈
                (helpersDone m n b { s with threads := s.threads ++ [alb.1] }
                  restH).1.threads := by
              rw [hext]
              exact List.mem_append_left _
                (List.mem_append_right _ (List.mem_singleton_self _))
            rw [hstep]
            refine ⟨G.wkr, G.res, G.wfn, G.tst, G.cnc, G.lg, G.prc, G.spn, G.wkg,
              ?_, G.ndp, ?_⟩
            · refine ⟨alb.1 :: ext, ?_, ?_⟩
              · rw [hext]
                show (s.threads ++ [alb.1]) ++ ext = s.threads ++ alb.1 :: ext
                rw [List.append_assoc]
                rfl
              · intro t ht
                rcases List.mem_cons.1 ht with rfl | hm
                · exact ⟨(alookup_isSome_iff _ _).1 (by rw [hlk]; rfl),
                    alb, List.mem_cons_self _ _, rfl⟩
                · obtain ⟨hk, q, hq, hqe⟩ := hextp t hm
                  exact ⟨hk, q, List.mem_cons_of_mem _ hq, hqe⟩
            · refine List.Forall₂.cons ?_ G.inv
              refine ⟨hD.combine_eq, nodup_lerase hD.pending_nodup,
                fun u hu => hD.pending_sub u (mem_of_mem_lerase hu), ?_, ?_, ?_, ?_,
                ?_, ?_, ?_⟩
              · intro u hu hwf2
                rw [G.wfn] at hwf2
                have hun : u ≠ n := by
                  intro hh
                  rw [hh] at hwf2
                  rw [hfin] at hwf2
                  exact Bool.noConfusion hwf2
                exact mem_lerase_of_ne (hD.pending_of_unfinished u hu hwf2) hun
              · intro hc u hu
                have hun : u ≠ n := by
                  intro hh
                  exact (not_mem_lerase_self hD.pending_nodup) (hh ▸ hu)
                rw [G.cnc] at hc
                rw [G.wfn]
                exact hD.pending_unfinished hc u (mem_of_mem_lerase hu) hun
              · intro hne2
                exact absurd hlist0 hne2
              · intro he2
                exact Bool.noConfusion (herr0 ▸ (he2 : (h.herror || !b) = true))
              · intro u hu hlk2
                rw [G.res] at hlk2
                rcases hD.failure_rec u hu hlk2 with he | hm
                · exact absurd he (by rw [hherr]; exact fun hh => Bool.noConfusion hh)
                · have hun : u = n := by
                    rw [hsing] at hm
                    exact List.mem_singleton.1 hm
                  subst hun
                  rw [hres, hb] at hlk2
                  simp at hlk2
              · intro _ _ hnt2
                exact absurd hmemthr hnt2
              · intro _ _ _
                exact Or.inl hmemthr
          · -- the group stays blocked: pending still nonempty, or a failure recorded
            have hcond : ¬((decide ((lerase h.hworkers n).length = 0) &&
                !(h.herror || !b)) = true) := by
              intro habs
              refine hfire ?_
              rw [Bool.and_eq_true] at habs
              obtain ⟨hd0, hn0⟩ := habs
              refine ⟨of_decide_eq_true hd0, ?_⟩
              rcases hx : (h.herror || !b) with _ | _
              · rfl
              · rw [hx] at hn0
                exact Bool.noConfusion hn0
            have hstep : helpersDone m n b s (h :: restH) =
                ((helpersDone m n b s restH).1,
                 { h with hworkers := lerase h.hworkers n, herror := h.herror || !b } ::
                   (helpersDone m n b s restH).2) := by
              rw [helpersDone]
              simp only [hloc]
              rw [if_neg hcond]
            have G := ih restH s hw hcc hnd hvals hfin hres hpt htail
            obtain ⟨ext, hext, hextp⟩ := G.thr
            have hextne : alb.1 ∉ ext := by
              intro hm
              obtain ⟨_, q, hq, hqe⟩ := hextp alb.1 hm
              exact (hph q hq).1 hqe
            have hnotthr : alb.1 ∉ (helpersDone m n b s restH).1.threads := by
              rw [hext]
              intro hm
              rcases List.mem_append.1 hm with hm | hm
              · exact hnthr hm
              · exact hextne hm
            rw [hstep]
            refine ⟨G.wkr, G.res, G.wfn, G.tst, G.cnc, G.lg, G.prc, G.spn, G.wkg,
              ?_, G.ndp, ?_⟩
            · refine ⟨ext, hext, ?_⟩
              intro t ht
              obtain ⟨hk, q, hq, hqe⟩ := hextp t ht
              exact ⟨hk, q, List.mem_cons_of_mem _ hq, hqe⟩
            · refine List.Forall₂.cons ?_ G.inv
              refine ⟨hD.combine_eq, nodup_lerase hD.pending_nodup,
                fun u hu => hD.pending_sub u (mem_of_mem_lerase hu), ?_, ?_, ?_, ?_,
                ?_, ?_, ?_⟩
              · intro u hu hwf2
                rw [G.wfn] at hwf2
                have hun : u ≠ n := by
                  intro hh
                  rw [hh] at hwf2
                  rw [hfin] at hwf2
                  exact Bool.noConfusion hwf2
                exact mem_lerase_of_ne (hD.pending_of_unfinished u hu hwf2) hun
              · intro hc u hu
                have hun : u ≠ n := by
                  intro hh
                  exact (not_mem_lerase_self hD.pending_nodup) (hh ▸ hu)
                rw [G.cnc] at hc
                rw [G.wfn]
                exact hD.pending_unfinished hc u (mem_of_mem_lerase hu) hun
              · intro _
                rw [G.tst]
                exact ⟨huns, hnotthr⟩
              · intro _
                rw [G.tst]
                exact ⟨huns, hnotthr⟩
              · intro u hu hlk2
                rw [G.res] at hlk2
                rcases hD.failure_rec u hu hlk2 with he | hm
                · refine Or.inl ?_
                  show (h.herror || !b) = true
                  rw [he]
                  rfl
                · by_cases hun : u = n
                  · subst hun
                    rw [hres] at hlk2
                    have hbf : b = false := by
                      rcases hx : b with _ | _
                      · rfl
                      · rw [hx] at hlk2
                        simp at hlk2
                    refine Or.inl ?_
                    show (h.herror || !b) = true
                    rw [hbf]
                    simp
                  · exact Or.inr (mem_lerase_of_ne hm hun)
              · intro he2 _ _
                rw [G.wkr]
                have hherr : h.herror = false := by
                  rcases hx : h.herror with _ | _
                  · rfl
                  · rw [hx] at he2
                    exact Bool.noConfusion (he2 : (true || !b) = false)
                exact hD.combine_tracked hherr huns hnthr
              · intro hw0 he0 _
                have hw02 : lerase h.hworkers n = [] := hw0
                have he02 : (h.herror || !b) = false := he0
                exact absurd ⟨by rw [hw02]; rfl, he02⟩ hfire
        · -- `n` is not pending in this group: the helper is unchanged and any
          -- repeated release attempt is a no-op
          have hloc : helperDoneLocal n b h = h := by
            rw [helperDoneLocal, if_neg hmem]
          have hs1 : (if h.hworkers.length = 0 && !h.herror then
              startWorkerFn m s h.combine else s) = s := by
            by_cases hcnd : (h.hworkers.length = 0 && !h.herror) = true
            · rw [if_pos hcnd]
              rw [Bool.and_eq_true] at hcnd
              obtain ⟨hd0, hn0⟩ := hcnd
              have hwemp : h.hworkers = [] := List.length_eq_zero.1 (of_decide_eq_true hd0)
              have hherr : h.herror = false := by
                rcases hx : h.herror with _ | _
                · rfl
                · rw [hx] at hn0
                  exact Bool.noConfusion hn0
              rcases hD.release_stable hwemp hherr hcc with hin | hout
              · rw [hcomb, startWorkerFn]
                rcases hlk : alookup s.workers alb.1 with _ | t
                · rfl
                · have htc : t = alb.1 := hvals (alb.1, t) (alookup_mem hlk)
                  rw [htc]
                  simp only
                  rw [if_pos hin]
              · rw [hcomb, startWorkerFn]
                rw [(alookup_none_iff _ _).2 hout]
            · rw [if_neg hcnd]
          have hstep : helpersDone m n b s (h :: restH) =
              ((helpersDone m n b s restH).1, h :: (helpersDone m n b s restH).2) := by
            rw [helpersDone]
            simp only [hloc]
            rw [hs1]
          have G := ih restH s hw hcc hnd hvals hfin hres hpt htail
          obtain ⟨ext, hext, hextp⟩ := G.thr
          have hextne : alb.1 ∉ ext := by
            intro hm
            obtain ⟨_, q, hq, hqe⟩ := hextp alb.1 hm
            exact (hph q hq).1 hqe
          rw [hstep]
          refine ⟨G.wkr, G.res, G.wfn, G.tst, G.cnc, G.lg, G.prc, G.spn, G.wkg,
            ?_, G.ndp, ?_⟩
          · refine ⟨ext, hext, ?_⟩
            intro t ht
            obtain ⟨hk, q, hq, hqe⟩ := hextp t ht
            exact ⟨hk, q, List.mem_cons_of_mem _ hq, hqe⟩
          · refine List.Forall₂.cons ?_ G.inv
            refine albumInv_mono s _ alb h ?_ ?_ ?_ G.cnc ?_ ?_
              (albumDone_to_inv n s alb h hmem hD)
            · rw [hext]
              constructor
              · intro hm
                rcases List.mem_append.1 hm with hm | hm
                · exact hm
                · exact absurd hm hextne
              · exact fun hm => List.mem_append_left _ hm
            · rw [G.tst]
            · intro u _
              rw [G.wfn]
            · intro u _
              rw [G.res]
            · rw [G.wkr]

/-! ## Invariant preservation, event by event -/

theorem inv_step_workerError (m : Nat) (sub : List SubItem) (dur : String → ℤ)
    (sys : Sys) (n : String) (msg : String)
    (hnd : (subNames sub).Nodup) (hI : Inv m sub sys)
    (hv : validEvB sys (Ev.workerError n msg) = true) :
    Inv m sub (stepEv m dur sys (Ev.workerError n msg)) := by
  obtain ⟨idle, alist, ltrack, tnd, knd, ksub, veq, abound, procs, spst, riw, wres,
    snaps, ainv⟩ := hI
  have hpw := (albFacts_of_nodup hnd).pairwise
  rw [validEvB, Bool.and_eq_true] at hv
  obtain ⟨hv1, _⟩ := hv
  have hrun : sys.rst.tstatus n = TStatus.running := of_decide_eq_true hv1
  have hwork : sys.rst.working = true := by
    rcases hx : sys.rst.working with _ | _
    · have h0 := idle hx n
      rw [hrun] at h0
      exact Bool.noConfusion h0
    · rfl
  have hnthreads : n ∈ sys.rst.threads := alist n (by rw [hrun]; rfl)
  have hnkeys : n ∈ keys sys.rst.workers := ltrack n hnthreads
  have hthr_ne : ¬(sys.rst.threads.length = 0) := by
    intro h0
    rw [List.length_eq_zero.1 h0] at hnthreads
    cases hnthreads
  rw [stepEv, workerErrorFn]
  set sE : St := { sys.rst with log := sys.rst.log ++ [Emission.jobError n msg] } with hsE
  have hfaE : List.Forall₂ (AlbumInv sE) (albumsOf sub) sys.helpers := by
    refine forall2_imp_mem ainv ?_
    intro alb _ h2 hA
    exact albumInv_mono sys.rst sE alb h2 Iff.rfl Iff.rfl (fun u _ => rfl) rfl
      (fun u _ => rfl) rfl hA
  have G := helpersError_go n (albumsOf sub) sys.helpers sE hwork hthr_ne veq hpw hfaE
  refine ⟨?_, ?_, ?_, ?_, ?_, ?_, ?_, ?_, ?_, ?_, ?_, ?_, ?_, ?_⟩
  · intro h0 x
    have h0' : (helpersError n sE sys.helpers).1.working = false := h0
    rw [G.wkg] at h0'
    rw [hwork] at h0'
    exact Bool.noConfusion h0'
  · intro x hx
    have hx2 : ((helpersError n sE sys.helpers).1.tstatus x).isRun = true := hx
    rw [G.tst] at hx2
    show x ∈ (helpersError n sE sys.helpers).1.threads
    rw [G.thr]
    exact alist x hx2
  · intro t ht
    have ht2 : t ∈ (helpersError n sE sys.helpers).1.threads := ht
    rw [G.thr] at ht2
    show t ∈ keys (helpersError n sE sys.helpers).1.workers
    rw [← alookup_isSome_iff, G.keep t ht2, alookup_isSome_iff]
    exact ltrack t ht2
  · show (helpersError n sE sys.helpers).1.threads.Nodup
    rw [G.thr]
    exact tnd
  · exact G.ksub.nodup knd
  · intro k hk
    have hk2 : k ∈ keys (helpersError n sE sys.helpers).1.workers := hk
    exact ksub k (G.ksub.subset hk2)
  · intro p hp
    exact veq p (G.sub p hp)
  · show ((subNames sub).filter
      (fun x => ((helpersError n sE sys.helpers).1.tstatus x).isRun)).length ≤ m
    have heq : (subNames sub).filter
        (fun x => ((helpersError n sE sys.helpers).1.tstatus x).isRun) =
        (subNames sub).filter (fun x => (sys.rst.tstatus x).isRun) :=
      List.filter_congr (fun x _ => by rw [G.tst])
    rw [heq]
    exact abound
  · intro p hp
    have hp2 : p ∈ (helpersError n sE sys.helpers).1.procs := hp
    rw [G.prc] at hp2
    obtain ⟨h1, h2⟩ := procs p hp2
    constructor
    · show (helpersError n sE sys.helpers).1.tstatus p = TStatus.running
      rw [G.tst]
      exact h1
    · show (helpersError n sE sys.helpers).1.wfin p = false
      rw [G.wfn]
      exact h2
  · intro x hx
    have hx2 : (helpersError n sE sys.helpers).1.spawned x = true := hx
    rw [G.spn] at hx2
    show ¬((helpersError n sE sys.helpers).1.tstatus x = TStatus.unstarted)
    rw [G.tst]
    exact spst x hx2
  · intro hc0 x
    have hc0' : (helpersError n sE sys.helpers).1.cancelled = false := hc0
    rw [G.cnc] at hc0'
    show (alookup (helpersError n sE sys.helpers).1.results x).isSome =
      (helpersError n sE sys.helpers).1.wfin x
    rw [G.res, G.wfn]
    exact riw hc0' x
  · intro x hx
    have hx2 : (helpersError n sE sys.helpers).1.wfin x = true := hx
    rw [G.wfn] at hx2
    show (alookup (helpersError n sE sys.helpers).1.results x).isSome = true
    rw [G.res]
    exact wres x hx2
  · intro hc0
    have hc0' : (helpersError n sE sys.helpers).1.cancelled = false := hc0
    rw [G.cnc] at hc0'
    have hnkeysP : n ∈ keys (helpersError n sE sys.helpers).1.workers := by
      rw [← alookup_isSome_iff, G.keep n hnthreads, alookup_isSome_iff]
      exact hnkeys
    have hwneP : ¬((helpersError n sE sys.helpers).1.workers.length = 0) := by
      intro h0
      rw [List.length_eq_zero.1 h0] at hnkeysP
      simp [keys] at hnkeysP
    have hwne : ¬(sys.rst.workers.length = 0) := by
      intro h0
      rw [List.length_eq_zero.1 h0] at hnkeys
      simp [keys] at hnkeys
    show finishedSnaps (helpersError n sE sys.helpers).1.log =
      if (helpersError n sE sys.helpers).1.workers.length = 0 then
        [(helpersError n sE sys.helpers).1.results] else []
    rw [G.lg, if_neg hwneP]
    show finishedSnaps (sys.rst.log ++ [Emission.jobError n msg]) = []
    rw [finishedSnaps_append, snaps hc0', if_neg hwne]
    rfl
  · exact G.inv

theorem inv_step_workerFinished (m : Nat) (sub : List SubItem) (dur : String → ℤ)
    (sys : Sys) (n : String) (b : Bool)
    (hnd : (subNames sub).Nodup) (hI : Inv m sub sys)
    (hv : validEvB sys (Ev.workerFinished n b) = true) :
    Inv m sub (stepEv m dur sys (Ev.workerFinished n b)) := by
  obtain ⟨idle, alist, ltrack, tnd, knd, ksub, veq, abound, procs, spst, riw, wres,
    snaps, ainv⟩ := hI
  have hpw := (albFacts_of_nodup hnd).pairwise
  rw [validEvB, Bool.and_eq_true, Bool.and_eq_true] at hv
  obtain ⟨⟨hv1, hv2⟩, hv3⟩ := hv
  have hrun : sys.rst.tstatus n = TStatus.running := of_decide_eq_true hv1
  have hnwf : sys.rst.wfin n = false := by
    rcases hx : sys.rst.wfin n with _ | _
    · rfl
    · rw [hx] at hv2
      exact Bool.noConfusion hv2
  have hnproc : ¬(n ∈ sys.rst.procs) := by
    intro hm
    rw [decide_eq_true hm] at hv3
    exact Bool.noConfusion hv3
  have hnthreads : n ∈ sys.rst.threads := alist n (by rw [hrun]; rfl)
  have hnkeys : n ∈ keys sys.rst.workers := ltrack n hnthreads
  by_cases hcan : sys.rst.cancelled = true
  · -- cancellation in force: only the result book-keeping happens
    have hstep : stepEv m dur sys (Ev.workerFinished n b) =
        { sys with rst := { sys.rst with
            results := dictSet sys.rst.results n b,
            wfin := fupd sys.rst.wfin n true } } := by
      simp only [stepEv, workerFinishedFn]
      rw [if_pos hcan]
    rw [hstep]
    refine ⟨idle, alist, ltrack, tnd, knd, ksub, veq, abound, ?_, spst, ?_, ?_, ?_, ?_⟩
    · intro p hp
      obtain ⟨h1, h2⟩ := procs p hp
      have hpn : ¬(p = n) := fun hh => hnproc (hh ▸ hp)
      refine ⟨h1, ?_⟩
      show fupd sys.rst.wfin n true p = false
      rw [fupd_ne _ _ _ _ hpn]
      exact h2
    · intro hc0
      exact Bool.noConfusion (hcan ▸ (hc0 : sys.rst.cancelled = false))
    · intro x hx
      have hx2 : fupd sys.rst.wfin n true x = true := hx
      by_cases hxn : x = n
      · show (alookup (dictSet sys.rst.results n b) x).isSome = true
        rw [hxn, alookup_dictSet_self]
        rfl
      · rw [fupd_ne _ _ _ _ hxn] at hx2
        show (alookup (dictSet sys.rst.results n b) x).isSome = true
        rw [alookup_dictSet_ne _ _ _ _ hxn]
        exact wres x hx2
    · intro hc0
      exact Bool.noConfusion (hcan ▸ (hc0 : sys.rst.cancelled = false))
    · refine forall2_imp_mem ainv ?_
      intro alb halb h2 hA
      obtain ⟨ce, pn2, ps2, pou, pu, pb, eb, fr, ct, rs⟩ := hA
      refine ⟨ce, pn2, ps2, ?_, ?_, pb, eb, ?_, ct, ?_⟩
      · intro u hu hwfu
        have hwfu2 : fupd sys.rst.wfin n true u = false := hwfu
        by_cases hun : u = n
        · rw [hun, fupd_self] at hwfu2
          exact Bool.noConfusion hwfu2
        · rw [fupd_ne _ _ _ _ hun] at hwfu2
          exact pou u hu hwfu2
      · intro hc0
        exact Bool.noConfusion (hcan ▸ (hc0 : sys.rst.cancelled = false))
      · intro u hu hlk
        have hlk2 : alookup (dictSet sys.rst.results n b) u = some false := hlk
        by_cases hun : u = n
        · have hnwf2 : sys.rst.wfin u = false := by
            rw [hun]
            exact hnwf
          exact Or.inr (pou u hu hnwf2)
        · rw [alookup_dictSet_ne _ _ _ _ hun] at hlk2
          exact fr u hu hlk2
      · intro _ _ hc0
        exact Bool.noConfusion (hcan ▸ (hc0 : sys.rst.cancelled = false))
  · -- live path: broadcast `worker_done`, then quit the worker's thread
    have hcanf : sys.rst.cancelled = false := by
      rcases hx : sys.rst.cancelled with _ | _
      · rfl
      · exact absurd hx hcan
    have hwork : sys.rst.working = true := by
      rcases hx : sys.rst.working with _ | _
      · have h0 := idle hx n
        rw [hrun] at h0
        exact Bool.noConfusion h0
      · rfl
    simp only [stepEv, workerFinishedFn]
    rw [if_neg hcan]
    set sE : St := { sys.rst with
      results := dictSet sys.rst.results n b,
      wfin := fupd sys.rst.wfin n true,
      log := sys.rst.log ++ [Emission.done n b] } with hsE
    have hfinE : sE.wfin n = true := by
      show fupd sys.rst.wfin n true n = true
      rw [fupd_self]
    have hresE : alookup sE.results n = some b := by
      show alookup (dictSet sys.rst.results n b) n = some b
      rw [alookup_dictSet_self]
    have hfaE : List.Forall₂ (AlbumDoneInv n sE) (albumsOf sub) sys.helpers := by
      refine forall2_imp_mem ainv ?_
      intro alb _ h2 hA
      exact albumInv_to_done n b sys.rst sE alb h2 hnwf rfl rfl rfl rfl rfl rfl hA
    have G := helpersDone_go m n b (albumsOf sub) sys.helpers sE hwork hcanf tnd veq
      hfinE hresE hpw hfaE
    obtain ⟨ext, hext, hextp⟩ := G.thr
    have hrunP : (helpersDone m n b sE sys.helpers).1.tstatus n = TStatus.running := by
      rw [G.tst]
      exact hrun
    have hquit : quitThread (helpersDone m n b sE sys.helpers).1 n =
        { (helpersDone m n b sE sys.helpers).1 with
          tstatus := fupd (helpersDone m n b sE sys.helpers).1.tstatus n
            TStatus.quitting } := by
      rw [quitThread, if_pos hrunP]
    rw [hquit]
    refine ⟨?_, ?_, ?_, ?_, ?_, ?_, ?_, ?_, ?_, ?_, ?_, ?_, ?_, ?_⟩
    · intro h0 _
      have h0' : (helpersDone m n b sE sys.helpers).1.working = false := h0
      rw [G.wkg] at h0'
      have h0'' : sys.rst.working = false := h0'
      rw [hwork] at h0''
      exact Bool.noConfusion h0''
    · intro x hx
      have hx2 : (fupd (helpersDone m n b sE sys.helpers).1.tstatus n
          TStatus.quitting x).isRun = true := hx
      by_cases hxn : x = n
      · show x ∈ (helpersDone m n b sE sys.helpers).1.threads
        rw [hxn, hext]
        exact List.mem_append_left _ hnthreads
      · rw [fupd_ne _ _ _ _ hxn, G.tst] at hx2
        have hx3 : (sys.rst.tstatus x).isRun = true := hx2
        show x ∈ (helpersDone m n b sE sys.helpers).1.threads
        rw [hext]
        exact List.mem_append_left _ (alist x hx3)
    · intro t ht
      have ht2 : t ∈ (helpersDone m n b sE sys.helpers).1.threads := ht
      rw [hext] at ht2
      show t ∈ keys (helpersDone m n b sE sys.helpers).1.workers
      rw [G.wkr]
      rcases List.mem_append.1 ht2 with hm | hm
      · exact ltrack t hm
      · exact (hextp t hm).1
    · exact G.ndp
    · show (keys (helpersDone m n b sE sys.helpers).1.workers).Nodup
      rw [G.wkr]
      exact knd
    · intro k hk
      have hk2 : k ∈ keys (helpersDone m n b sE sys.helpers).1.workers := hk
      rw [G.wkr] at hk2
      exact ksub k hk2
    · intro p hp
      have hp2 : p ∈ (helpersDone m n b sE sys.helpers).1.workers := hp
      rw [G.wkr] at hp2
      exact veq p hp2
    · show ((subNames sub).filter (fun x =>
        (fupd (helpersDone m n b sE sys.helpers).1.tstatus n
          TStatus.quitting x).isRun)).length ≤ m
      have heq : (subNames sub).filter (fun x =>
          (fupd (helpersDone m n b sE sys.helpers).1.tstatus n
            TStatus.quitting x).isRun) =
          (subNames sub).filter (fun x => (sys.rst.tstatus x).isRun) := by
        refine List.filter_congr ?_
        intro x _
        by_cases hxn : x = n
        · rw [hxn, fupd_self, hrun]
          rfl
        · rw [fupd_ne _ _ _ _ hxn, G.tst]
      rw [heq]
      exact abound
    · intro p hp
      have hp2 : p ∈ (helpersDone m n b sE sys.helpers).1.procs := hp
      rw [G.prc] at hp2
      have hp3 : p ∈ sys.rst.procs := hp2
      obtain ⟨h1, h2⟩ := procs p hp3
      have hpn : ¬(p = n) := fun hh => hnproc (hh ▸ hp3)
      constructor
      · show fupd (helpersDone m n b sE sys.helpers).1.tstatus n
          TStatus.quitting p = TStatus.running
        rw [fupd_ne _ _ _ _ hpn, G.tst]
        exact h1
      · show (helpersDone m n b sE sys.helpers).1.wfin p = false
        rw [G.wfn]
        show fupd sys.rst.wfin n true p = false
        rw [fupd_ne _ _ _ _ hpn]
        exact h2
    · intro x hx
      have hx2 : (helpersDone m n b sE sys.helpers).1.spawned x = true := hx
      rw [G.spn] at hx2
      have hx3 : sys.rst.spawned x = true := hx2
      by_cases hxn : x = n
      · show ¬(fupd (helpersDone m n b sE sys.helpers).1.tstatus n
          TStatus.quitting x = TStatus.unstarted)
        rw [hxn, fupd_self]
        intro hh
        exact TStatus.noConfusion hh
      · show ¬(fupd (helpersDone m n b sE sys.helpers).1.tstatus n
          TStatus.quitting x = TStatus.unstarted)
        rw [fupd_ne _ _ _ _ hxn, G.tst]
        exact spst x hx3
    · intro hc0 x
      show (alookup (helpersDone m n b sE sys.helpers).1.results x).isSome =
        (helpersDone m n b sE sys.helpers).1.wfin x
      rw [G.res, G.wfn]
      show (alookup (dictSet sys.rst.results n b) x).isSome = fupd sys.rst.wfin n true x
      by_cases hxn : x = n
      · rw [hxn, alookup_dictSet_self, fupd_self]
        rfl
      · rw [alookup_dictSet_ne _ _ _ _ hxn, fupd_ne _ _ _ _ hxn]
        exact riw hcanf x
    · intro x hx
      have hx2 : (helpersDone m n b sE sys.helpers).1.wfin x = true := hx
      rw [G.wfn] at hx2
      have hx3 : fupd sys.rst.wfin n true x = true := hx2
      show (alookup (helpersDone m n b sE sys.helpers).1.results x).isSome = true
      rw [G.res]
      show (alookup (dictSet sys.rst.results n b) x).isSome = true
      by_cases hxn : x = n
      · rw [hxn, alookup_dictSet_self]
        rfl
      · rw [alookup_dictSet_ne _ _ _ _ hxn]
        rw [fupd_ne _ _ _ _ hxn] at hx3
        exact wres x hx3
    · intro _
      have hwne : ¬(sys.rst.workers.length = 0) := by
        intro h0
        rw [List.length_eq_zero.1 h0] at hnkeys
        simp [keys] at hnkeys
      have hwneP : ¬((helpersDone m n b sE sys.helpers).1.workers.length = 0) := by
        intro h0
        rw [G.wkr] at h0
        exact hwne h0
      show finishedSnaps (helpersDone m n b sE sys.helpers).1.log =
        if (helpersDone m n b sE sys.helpers).1.workers.length = 0 then
          [(helpersDone m n b sE sys.helpers).1.results] else []
      rw [G.lg, if_neg hwneP]
      show finishedSnaps (sys.rst.log ++ [Emission.done n b]) = []
      rw [finishedSnaps_append, snaps hcanf, if_neg hwne]
      rfl
    · refine forall2_imp_mem G.inv ?_
      intro alb halb h2 hA
      refine albumInv_mono (helpersDone m n b sE sys.helpers).1 _ alb h2 Iff.rfl ?_
        (fun u _ => rfl) rfl (fun u _ => rfl) rfl hA
      show (fupd (helpersDone m n b sE sys.helpers).1.tstatus n
        TStatus.quitting alb.1 = TStatus.unstarted) ↔ _
      by_cases han : alb.1 = n
      · constructor
        · intro hh
          rw [han, fupd_self] at hh
          exact absurd hh (fun hz => TStatus.noConfusion hz)
        · intro hh
          rw [han, hrunP] at hh
          exact absurd hh (fun hz => TStatus.noConfusion hz)
      · rw [fupd_ne _ _ _ _ han]

theorem inv_step_threadDone (m : Nat) (sub : List SubItem) (dur : String → ℤ)
    (sys : Sys) (t : String)
    (hnd : (subNames sub).Nodup) (hI : Inv m sub sys)
    (hv : validEvB sys (Ev.threadDone t) = true) :
    Inv m sub (stepEv m dur sys (Ev.threadDone t)) := by
  obtain ⟨idle, alist, ltrack, tnd, knd, ksub, veq, abound, procs, spst, riw, wres,
    snaps, ainv⟩ := hI
  rw [validEvB] at hv
  have hq : sys.rst.tstatus t = TStatus.quitting := of_decide_eq_true hv
  have hrt : (sys.rst.tstatus t).isRun = true := by rw [hq]; rfl
  have ht_threads : t ∈ sys.rst.threads := alist t hrt
  have ht_keys : t ∈ keys sys.rst.workers := ltrack t ht_threads
  have ht_sub : t ∈ subNames sub := ksub t ht_keys
  have hwne : ¬(sys.rst.workers.length = 0) := by
    intro h0
    rw [List.length_eq_zero.1 h0] at ht_keys
    simp [keys] at ht_keys
  have hptne : ∀ p ∈ sys.rst.procs, ¬(p = t) := by
    intro p hp hh
    obtain ⟨h1, _⟩ := procs p hp
    rw [hh, hq] at h1
    exact TStatus.noConfusion h1
  have hdec : ((subNames sub).filter
      (fun x => (fupd sys.rst.tstatus t TStatus.finished x).isRun)).length + 1 =
      ((subNames sub).filter (fun x => (sys.rst.tstatus x).isRun)).length := by
    refine filter_length_update_decr (subNames sub) _ _ t hnd ht_sub hrt ?_ ?_
    · rw [fupd_self]
      rfl
    · intro x hxt
      rw [fupd_ne _ _ _ _ hxt]
  by_cases hcan : sys.rst.cancelled = true
  · -- cancellation in force: only the thread status is updated
    have hstep : stepEv m dur sys (Ev.threadDone t) =
        { sys with rst := { sys.rst with
            tstatus := fupd sys.rst.tstatus t TStatus.finished } } := by
      simp only [stepEv, threadFinishedFn]
      rw [if_pos hcan]
    rw [hstep]
    refine ⟨?_, ?_, ltrack, tnd, knd, ksub, veq, ?_, ?_, ?_, ?_, wres, ?_, ?_⟩
    · intro h0 x
      show (fupd sys.rst.tstatus t TStatus.finished x).isRun = false
      by_cases hxt : x = t
      · rw [hxt, fupd_self]
        rfl
      · rw [fupd_ne _ _ _ _ hxt]
        exact idle h0 x
    · intro x hx
      have hx2 : (fupd sys.rst.tstatus t TStatus.finished x).isRun = true := hx
      by_cases hxt : x = t
      · rw [hxt, fupd_self] at hx2
        exact Bool.noConfusion hx2
      · rw [fupd_ne _ _ _ _ hxt] at hx2
        exact alist x hx2
    · show ((subNames sub).filter
        (fun x => (fupd sys.rst.tstatus t TStatus.finished x).isRun)).length ≤ m
      omega
    · intro p hp
      obtain ⟨h1, h2⟩ := procs p hp
      refine ⟨?_, h2⟩
      show fupd sys.rst.tstatus t TStatus.finished p = TStatus.running
      rw [fupd_ne _ _ _ _ (hptne p hp)]
      exact h1
    · intro x hx
      have hx2 : sys.rst.spawned x = true := hx
      show ¬(fupd sys.rst.tstatus t TStatus.finished x = TStatus.unstarted)
      by_cases hxt : x = t
      · rw [hxt, fupd_self]
        intro hh
        exact TStatus.noConfusion hh
      · rw [fupd_ne _ _ _ _ hxt]
        exact spst x hx2
    · intro hc0
      exact Bool.noConfusion (hcan ▸ (hc0 : sys.rst.cancelled = false))
    · intro hc0
      exact Bool.noConfusion (hcan ▸ (hc0 : sys.rst.cancelled = false))
    · refine forall2_imp_mem ainv ?_
      intro alb halb h2 hA
      refine albumInv_mono sys.rst _ alb h2 Iff.rfl ?_ (fun u _ => rfl) rfl
        (fun u _ => rfl) rfl hA
      show (fupd sys.rst.tstatus t TStatus.finished alb.1 = TStatus.unstarted) ↔ _
      by_cases hat : alb.1 = t
      · constructor
        · intro hh
          rw [hat, fupd_self] at hh
          exact absurd hh (fun hz => TStatus.noConfusion hz)
        · intro hh
          rw [hat, hq] at hh
          exact absurd hh (fun hz => TStatus.noConfusion hz)
      · rw [fupd_ne _ _ _ _ hat]
  · -- live path
    have hcanf : sys.rst.cancelled = false := by
      rcases hx : sys.rst.cancelled with _ | _
      · rfl
      · exact absurd hx hcan
    have hwork : sys.rst.working = true := by
      rcases hx : sys.rst.working with _ | _
      · have h0 := idle hx t
        rw [hq] at h0
        exact Bool.noConfusion h0
      · rfl
    have hdv : delVal sys.rst.workers t = delKey sys.rst.workers t :=
      delVal_eq_delKey _ _ veq
    have htnl : t ∉ lerase sys.rst.threads t := not_mem_lerase_self tnd
    have htnk : t ∉ keys (delKey sys.rst.workers t) := by
      rw [keys_delKey]
      exact not_mem_lerase_self knd
    by_cases hC1 : (lerase sys.rst.threads t).length = 0
    · have hTnil : lerase sys.rst.threads t = [] := List.length_eq_zero.1 hC1
      have hsingt : sys.rst.threads = [t] := by
        have hll := length_lerase_of_mem ht_threads
        exact eq_singleton_of_mem_length_one ht_threads (by omega)
      by_cases hC2 : (delKey sys.rst.workers t).length = 0
      · -- last thread and last worker: the batch result is emitted
        have hWnil : delKey sys.rst.workers t = [] := List.length_eq_zero.1 hC2
        have halk : ∀ k, ¬(k = t) → alookup sys.rst.workers k = none := by
          intro k hk
          rw [← alookup_delKey_ne sys.rst.workers t k hk, hWnil]
          rfl
        have hstep : stepEv m dur sys (Ev.threadDone t) =
            { sys with rst := { sys.rst with
                tstatus := fupd sys.rst.tstatus t TStatus.finished,
                threads := [], workers := [], working := false,
                log := sys.rst.log ++ [Emission.batchFinished sys.rst.results] } } := by
          simp only [stepEv, threadFinishedFn]
          rw [if_neg hcan]
          simp only [hdv, hTnil, hWnil, List.length_nil, List.find?_nil, reduceIte]
        rw [hstep]
        refine ⟨?_, ?_, ?_, List.nodup_nil, ?_, ?_, ?_, ?_, ?_, ?_, ?_, wres, ?_, ?_⟩
        · intro _ x
          show (fupd sys.rst.tstatus t TStatus.finished x).isRun = false
          by_cases hxt : x = t
          · rw [hxt, fupd_self]
            rfl
          · rw [fupd_ne _ _ _ _ hxt]
            rcases hx : (sys.rst.tstatus x).isRun with _ | _
            · rfl
            · have hm := alist x hx
              rw [hsingt, List.mem_singleton] at hm
              exact absurd hm hxt
        · intro x hx
          have hx2 : (fupd sys.rst.tstatus t TStatus.finished x).isRun = true := hx
          by_cases hxt : x = t
          · rw [hxt, fupd_self] at hx2
            exact Bool.noConfusion hx2
          · rw [fupd_ne _ _ _ _ hxt] at hx2
            have hm := alist x hx2
            rw [hsingt, List.mem_singleton] at hm
            exact absurd hm hxt
        · intro t0 ht0
          cases ht0
        · show (keys ([] : List (String × String))).Nodup
          simp [keys]
        · intro k hk
          simp [keys] at hk
        · intro p hp
          cases hp
        · show ((subNames sub).filter
            (fun x => (fupd sys.rst.tstatus t TStatus.finished x).isRun)).length ≤ m
          omega
        · intro p hp
          obtain ⟨h1, h2⟩ := procs p hp
          refine ⟨?_, h2⟩
          show fupd sys.rst.tstatus t TStatus.finished p = TStatus.running
          rw [fupd_ne _ _ _ _ (hptne p hp)]
          exact h1
        · intro x hx
          have hx2 : sys.rst.spawned x = true := hx
          show ¬(fupd sys.rst.tstatus t TStatus.finished x = TStatus.unstarted)
          by_cases hxt : x = t
          · rw [hxt, fupd_self]
            intro hh
            exact TStatus.noConfusion hh
          · rw [fupd_ne _ _ _ _ hxt]
            exact spst x hx2
        · intro _ x
          exact riw hcanf x
        · intro _
          show finishedSnaps (sys.rst.log ++ [Emission.batchFinished sys.rst.results]) =
            if ([] : List (String × String)).length = 0 then [sys.rst.results] else []
          have h00 : ([] : List (String × String)).length = 0 := rfl
          rw [finishedSnaps_append, snaps hcanf, if_neg hwne, if_pos h00]
          rfl
        · refine forall2_imp_mem ainv ?_
          intro alb halb h2 hA
          obtain ⟨ce, pn2, ps2, pou, pu, pb, eb, fr, ct, rs⟩ := hA
          by_cases hat : alb.1 = t
          · refine ⟨ce, pn2, ps2, pou, pu, ?_, ?_, fr, ?_, ?_⟩
            · intro hne3
              obtain ⟨hu0, _⟩ := pb hne3
              rw [hat, hq] at hu0
              exact absurd hu0 (fun hz => TStatus.noConfusion hz)
            · intro he3
              obtain ⟨hu0, _⟩ := eb he3
              rw [hat, hq] at hu0
              exact absurd hu0 (fun hz => TStatus.noConfusion hz)
            · intro _ hu2 _
              have hu3 : fupd sys.rst.tstatus t TStatus.finished alb.1 =
                TStatus.unstarted := hu2
              rw [hat, fupd_self] at hu3
              exact absurd hu3 (fun hz => TStatus.noConfusion hz)
            · intro _ _ _
              refine Or.inr ?_
              intro hm
              simp [keys] at hm
          · refine ⟨ce, pn2, ps2, pou, pu, ?_, ?_, fr, ?_, ?_⟩
            · intro hne3
              obtain ⟨hu0, _⟩ := pb hne3
              refine ⟨?_, fun hm => (List.not_mem_nil _) hm⟩
              show fupd sys.rst.tstatus t TStatus.finished alb.1 = TStatus.unstarted
              rw [fupd_ne _ _ _ _ hat]
              exact hu0
            · intro he3
              obtain ⟨hu0, _⟩ := eb he3
              refine ⟨?_, fun hm => (List.not_mem_nil _) hm⟩
              show fupd sys.rst.tstatus t TStatus.finished alb.1 = TStatus.unstarted
              rw [fupd_ne _ _ _ _ hat]
              exact hu0
            · intro he3 hu2 _
              have hu3 : fupd sys.rst.tstatus t TStatus.finished alb.1 =
                TStatus.unstarted := hu2
              rw [fupd_ne _ _ _ _ hat] at hu3
              have hnthr0 : alb.1 ∉ sys.rst.threads := by
                rw [hsingt]
                intro hm
                exact hat (List.mem_singleton.1 hm)
              have hsome := ct he3 hu3 hnthr0
              rw [halk alb.1 hat] at hsome
              exact Option.noConfusion hsome
            · intro _ _ _
              refine Or.inr ?_
              intro hm
              simp [keys] at hm
      · -- last thread, but untracked combine jobs remain: no emission yet
        have hstep : stepEv m dur sys (Ev.threadDone t) =
            { sys with rst := { sys.rst with
                tstatus := fupd sys.rst.tstatus t TStatus.finished,
                threads := [], workers := delKey sys.rst.workers t,
                working := false } } := by
          simp only [stepEv, threadFinishedFn]
          rw [if_neg hcan]
          simp only [hdv, hTnil, List.length_nil, reduceIte]
          rw [if_neg hC2]
          simp only [List.find?_nil]
        rw [hstep]
        refine ⟨?_, ?_, ?_, List.nodup_nil, ?_, ?_, ?_, ?_, ?_, ?_, ?_, wres, ?_, ?_⟩
        · intro _ x
          show (fupd sys.rst.tstatus t TStatus.finished x).isRun = false
          by_cases hxt : x = t
          · rw [hxt, fupd_self]
            rfl
          · rw [fupd_ne _ _ _ _ hxt]
            rcases hx : (sys.rst.tstatus x).isRun with _ | _
            · rfl
            · have hm := alist x hx
              rw [hsingt, List.mem_singleton] at hm
              exact absurd hm hxt
        · intro x hx
          have hx2 : (fupd sys.rst.tstatus t TStatus.finished x).isRun = true := hx
          by_cases hxt : x = t
          · rw [hxt, fupd_self] at hx2
            exact Bool.noConfusion hx2
          · rw [fupd_ne _ _ _ _ hxt] at hx2
            have hm := alist x hx2
            rw [hsingt, List.mem_singleton] at hm
            exact absurd hm hxt
        · intro t0 ht0
          cases ht0
        · show (keys (delKey sys.rst.workers t)).Nodup
          rw [keys_delKey]
          exact nodup_lerase knd
        · intro k hk
          have hk2 : k ∈ keys (delKey sys.rst.workers t) := hk
          rw [keys_delKey] at hk2
          exact ksub k (mem_of_mem_lerase hk2)
        · intro p hp
          exact veq p (mem_delKey hp)
        · show ((subNames sub).filter
            (fun x => (fupd sys.rst.tstatus t TStatus.finished x).isRun)).length ≤ m
          omega
        · intro p hp
          obtain ⟨h1, h2⟩ := procs p hp
          refine ⟨?_, h2⟩
          show fupd sys.rst.tstatus t TStatus.finished p = TStatus.running
          rw [fupd_ne _ _ _ _ (hptne p hp)]
          exact h1
        · intro x hx
          have hx2 : sys.rst.spawned x = true := hx
          show ¬(fupd sys.rst.tstatus t TStatus.finished x = TStatus.unstarted)
          by_cases hxt : x = t
          · rw [hxt, fupd_self]
            intro hh
            exact TStatus.noConfusion hh
          · rw [fupd_ne _ _ _ _ hxt]
            exact spst x hx2
        · intro _ x
          exact riw hcanf x
        · intro _
          show finishedSnaps sys.rst.log =
            if (delKey sys.rst.workers t).length = 0 then
              [sys.rst.results] else []
          rw [snaps hcanf, if_neg hwne, if_neg hC2]
        · refine forall2_imp_mem ainv ?_
          intro alb halb h2 hA
          obtain ⟨ce, pn2, ps2, pou, pu, pb, eb, fr, ct, rs⟩ := hA
          by_cases hat : alb.1 = t
          · refine ⟨ce, pn2, ps2, pou, pu, ?_, ?_, fr, ?_, ?_⟩
            · intro hne3
              obtain ⟨hu0, _⟩ := pb hne3
              rw [hat, hq] at hu0
              exact absurd hu0 (fun hz => TStatus.noConfusion hz)
            · intro he3
              obtain ⟨hu0, _⟩ := eb he3
              rw [hat, hq] at hu0
              exact absurd hu0 (fun hz => TStatus.noConfusion hz)
            · intro _ hu2 _
              have hu3 : fupd sys.rst.tstatus t TStatus.finished alb.1 =
                TStatus.unstarted := hu2
              rw [hat, fupd_self] at hu3
              exact absurd hu3 (fun hz => TStatus.noConfusion hz)
            · intro _ _ _
              refine Or.inr ?_
              rw [hat]
              exact htnk
          · refine ⟨ce, pn2, ps2, pou, pu, ?_, ?_, fr, ?_, ?_⟩
            · intro hne3
              obtain ⟨hu0, _⟩ := pb hne3
              refine ⟨?_, fun hm => (List.not_mem_nil _) hm⟩
              show fupd sys.rst.tstatus t TStatus.finished alb.1 = TStatus.unstarted
              rw [fupd_ne _ _ _ _ hat]
              exact hu0
            · intro he3
              obtain ⟨hu0, _⟩ := eb he3
              refine ⟨?_, fun hm => (List.not_mem_nil _) hm⟩
              show fupd sys.rst.tstatus t TStatus.finished alb.1 = TStatus.unstarted
              rw [fupd_ne _ _ _ _ hat]
              exact hu0
            · intro he3 hu2 _
              have hu3 : fupd sys.rst.tstatus t TStatus.finished alb.1 =
                TStatus.unstarted := hu2
              rw [fupd_ne _ _ _ _ hat] at hu3
              have hnthr0 : alb.1 ∉ sys.rst.threads := by
                rw [hsingt]
                intro hm
                exact hat (List.mem_singleton.1 hm)
              show alookup (delKey sys.rst.workers t) alb.1 = some alb.1
              rw [alookup_delKey_ne _ _ _ hat]
              exact ct he3 hu3 hnthr0
            · intro hw0 he0 hc0
              rcases rs hw0 he0 hcanf with hm | hm
              · rw [hsingt, List.mem_singleton] at hm
                exact absurd hm hat
              · refine Or.inr ?_
                intro hk
                have hk2 : alb.1 ∈ keys (delKey sys.rst.workers t) := hk
                rw [keys_delKey] at hk2
                exact hm (mem_of_mem_lerase hk2)
    · -- other threads remain queued: drop `t`, maybe start the next one
      have hC2 : ¬((delKey sys.rst.workers t).length = 0) := by
        intro h0
        have hTne : ¬(lerase sys.rst.threads t = []) := by
          intro hh
          rw [hh] at hC1
          exact hC1 rfl
        obtain ⟨th, hth⟩ := List.exists_mem_of_ne_nil _ hTne
        have hthne : th ≠ t := fun hh => htnl (hh ▸ hth)
        have hthk : th ∈ keys (delKey sys.rst.workers t) := by
          rw [keys_delKey]
          exact mem_lerase_of_ne (ltrack th (mem_of_mem_lerase hth)) hthne
        rw [List.length_eq_zero.1 h0] at hthk
        simp [keys] at hthk
      rcases hfind : List.find?
          (fun th => !(fupd sys.rst.tstatus t TStatus.finished th).isRun)
          (lerase sys.rst.threads t) with _ | th
      · -- every queued thread is already running
        have hstep : stepEv m dur sys (Ev.threadDone t) =
            { sys with rst := { sys.rst with
                tstatus := fupd sys.rst.tstatus t TStatus.finished,
                threads := lerase sys.rst.threads t,
                workers := delKey sys.rst.workers t } } := by
          simp only [stepEv, threadFinishedFn]
          rw [if_neg hcan]
          simp only [hdv, if_neg hC1, if_neg hC2, hfind]
        rw [hstep]
        refine ⟨?_, ?_, ?_, nodup_lerase tnd, ?_, ?_, ?_, ?_, ?_, ?_, ?_, wres, ?_, ?_⟩
        · intro h0 _
          have h0' : sys.rst.working = false := h0
          rw [hwork] at h0'
          exact Bool.noConfusion h0'
        · intro x hx
          have hx2 : (fupd sys.rst.tstatus t TStatus.finished x).isRun = true := hx
          by_cases hxt : x = t
          · rw [hxt, fupd_self] at hx2
            exact Bool.noConfusion hx2
          · rw [fupd_ne _ _ _ _ hxt] at hx2
            exact mem_lerase_of_ne (alist x hx2) hxt
        · intro t0 ht0
          have ht02 : t0 ∈ lerase sys.rst.threads t := ht0
          have ht0ne : t0 ≠ t := fun hh => htnl (hh ▸ ht02)
          show t0 ∈ keys (delKey sys.rst.workers t)
          rw [keys_delKey]
          exact mem_lerase_of_ne (ltrack t0 (mem_of_mem_lerase ht02)) ht0ne
        · show (keys (delKey sys.rst.workers t)).Nodup
          rw [keys_delKey]
          exact nodup_lerase knd
        · intro k hk
          have hk2 : k ∈ keys (delKey sys.rst.workers t) := hk
          rw [keys_delKey] at hk2
          exact ksub k (mem_of_mem_lerase hk2)
        · intro p hp
          exact veq p (mem_delKey hp)
        · show ((subNames sub).filter
            (fun x => (fupd sys.rst.tstatus t TStatus.finished x).isRun)).length ≤ m
          omega
        · intro p hp
          obtain ⟨h1, h2⟩ := procs p hp
          refine ⟨?_, h2⟩
          show fupd sys.rst.tstatus t TStatus.finished p = TStatus.running
          rw [fupd_ne _ _ _ _ (hptne p hp)]
          exact h1
        · intro x hx
          have hx2 : sys.rst.spawned x = true := hx
          show ¬(fupd sys.rst.tstatus t TStatus.finished x = TStatus.unstarted)
          by_cases hxt : x = t
          · rw [hxt, fupd_self]
            intro hh
            exact TStatus.noConfusion hh
          · rw [fupd_ne _ _ _ _ hxt]
            exact spst x hx2
        · intro _ x
          exact riw hcanf x
        · intro _
          show finishedSnaps sys.rst.log =
            if (delKey sys.rst.workers t).length = 0 then [sys.rst.results] else []
          rw [snaps hcanf, if_neg hwne, if_neg hC2]
        · refine forall2_imp_mem ainv ?_
          intro alb halb h2 hA
          by_cases hat : alb.1 = t
          · obtain ⟨ce, pn2, ps2, pou, pu, pb, eb, fr, ct, rs⟩ := hA
            refine ⟨ce, pn2, ps2, pou, pu, ?_, ?_, fr, ?_, ?_⟩
            · intro hne3
              obtain ⟨hu0, _⟩ := pb hne3
              rw [hat, hq] at hu0
              exact absurd hu0 (fun hz => TStatus.noConfusion hz)
            · intro he3
              obtain ⟨hu0, _⟩ := eb he3
              rw [hat, hq] at hu0
              exact absurd hu0 (fun hz => TStatus.noConfusion hz)
            · intro _ hu2 _
              have hu3 : fupd sys.rst.tstatus t TStatus.finished alb.1 =
                TStatus.unstarted := hu2
              rw [hat, fupd_self] at hu3
              exact absurd hu3 (fun hz => TStatus.noConfusion hz)
            · intro _ _ _
              refine Or.inr ?_
              rw [hat]
              exact htnk
          · refine albumInv_mono sys.rst _ alb h2 ?_ ?_ (fun u _ => rfl) rfl
              (fun u _ => rfl) ?_ hA
            · show alb.1 ∈ lerase sys.rst.threads t ↔ alb.1 ∈ sys.rst.threads
              constructor
              · exact fun hm => mem_of_mem_lerase hm
              · exact fun hm => mem_lerase_of_ne hm hat
            · show (fupd sys.rst.tstatus t TStatus.finished alb.1 =
                TStatus.unstarted) ↔ _
              rw [fupd_ne _ _ _ _ hat]
            · show alookup (delKey sys.rst.workers t) alb.1 = _
              rw [alookup_delKey_ne _ _ _ hat]
      · -- a queued thread `th` is not yet running: it is started now
        have hth_mem : th ∈ lerase sys.rst.threads t := List.mem_of_find?_eq_some hfind
        have hth_pred := List.find?_some hfind
        have hth_norun : ¬((fupd sys.rst.tstatus t TStatus.finished th).isRun = true) := by
          intro hh
          rw [hh] at hth_pred
          exact Bool.noConfusion hth_pred
        have hthne : th ≠ t := fun hh => htnl (hh ▸ hth_mem)
        have hstart : startThread { sys.rst with
            tstatus := fupd sys.rst.tstatus t TStatus.finished,
            threads := lerase sys.rst.threads t,
            workers := delKey sys.rst.workers t } th =
            { sys.rst with
              tstatus := fupd (fupd sys.rst.tstatus t TStatus.finished) th
                TStatus.running,
              threads := lerase sys.rst.threads t,
              workers := delKey sys.rst.workers t } := by
          rw [startThread, if_neg hth_norun]
        have hstep : stepEv m dur sys (Ev.threadDone t) =
            { sys with rst := { sys.rst with
                tstatus := fupd (fupd sys.rst.tstatus t TStatus.finished) th
                  TStatus.running,
                threads := lerase sys.rst.threads t,
                workers := delKey sys.rst.workers t,
                working := true } } := by
          simp only [stepEv, threadFinishedFn]
          rw [if_neg hcan]
          simp only [hdv, if_neg hC1, if_neg hC2, hfind, hstart]
        rw [hstep]
        refine ⟨?_, ?_, ?_, nodup_lerase tnd, ?_, ?_, ?_, ?_, ?_, ?_, ?_, wres, ?_, ?_⟩
        · intro h0 _
          exact Bool.noConfusion (h0 : true = false)
        · intro x hx
          have hx2 : (fupd (fupd sys.rst.tstatus t TStatus.finished) th
              TStatus.running x).isRun = true := hx
          by_cases hxth : x = th
          · show x ∈ lerase sys.rst.threads t
            rw [hxth]
            exact hth_mem
          · rw [fupd_ne _ _ _ _ hxth] at hx2
            by_cases hxt : x = t
            · rw [hxt, fupd_self] at hx2
              exact Bool.noConfusion hx2
            · rw [fupd_ne _ _ _ _ hxt] at hx2
              exact mem_lerase_of_ne (alist x hx2) hxt
        · intro t0 ht0
          have ht02 : t0 ∈ lerase sys.rst.threads t := ht0
          have ht0ne : t0 ≠ t := fun hh => htnl (hh ▸ ht02)
          show t0 ∈ keys (delKey sys.rst.workers t)
          rw [keys_delKey]
          exact mem_lerase_of_ne (ltrack t0 (mem_of_mem_lerase ht02)) ht0ne
        · show (keys (delKey sys.rst.workers t)).Nodup
          rw [keys_delKey]
          exact nodup_lerase knd
        · intro k hk
          have hk2 : k ∈ keys (delKey sys.rst.workers t) := hk
          rw [keys_delKey] at hk2
          exact ksub k (mem_of_mem_lerase hk2)
        · intro p hp
          exact veq p (mem_delKey hp)
        · show ((subNames sub).filter (fun x =>
            (fupd (fupd sys.rst.tstatus t TStatus.finished) th
              TStatus.running x).isRun)).length ≤ m
          have hle : ((subNames sub).filter (fun x =>
              (fupd (fupd sys.rst.tstatus t TStatus.finished) th
                TStatus.running x).isRun)).length ≤
              ((subNames sub).filter (fun x =>
                (fupd sys.rst.tstatus t TStatus.finished x).isRun)).length + 1 := by
            refine filter_length_update_le (subNames sub) _ _ th hnd ?_
            intro x hxth
            rw [fupd_ne _ _ _ _ hxth]
          omega
        · intro p hp
          obtain ⟨h1, h2⟩ := procs p hp
          refine ⟨?_, h2⟩
          show fupd (fupd sys.rst.tstatus t TStatus.finished) th
            TStatus.running p = TStatus.running
          by_cases hpth : p = th
          · rw [hpth, fupd_self]
          · rw [fupd_ne _ _ _ _ hpth, fupd_ne _ _ _ _ (hptne p hp)]
            exact h1
        · intro x hx
          have hx2 : sys.rst.spawned x = true := hx
          show ¬(fupd (fupd sys.rst.tstatus t TStatus.finished) th
            TStatus.running x = TStatus.unstarted)
          by_cases hxth : x = th
          · rw [hxth, fupd_self]
            intro hh
            exact TStatus.noConfusion hh
          · rw [fupd_ne _ _ _ _ hxth]
            by_cases hxt : x = t
            · rw [hxt, fupd_self]
              intro hh
              exact TStatus.noConfusion hh
            · rw [fupd_ne _ _ _ _ hxt]
              exact spst x hx2
        · intro _ x
          exact riw hcanf x
        · intro _
          show finishedSnaps sys.rst.log =
            if (delKey sys.rst.workers t).length = 0 then [sys.rst.results] else []
          rw [snaps hcanf, if_neg hwne, if_neg hC2]
        · refine forall2_imp_mem ainv ?_
          intro alb halb h2 hA
          obtain ⟨ce, pn2, ps2, pou, pu, pb, eb, fr, ct, rs⟩ := hA
          by_cases hat : alb.1 = t
          · refine ⟨ce, pn2, ps2, pou, pu, ?_, ?_, fr, ?_, ?_⟩
            · intro hne3
              obtain ⟨hu0, _⟩ := pb hne3
              rw [hat, hq] at hu0
              exact absurd hu0 (fun hz => TStatus.noConfusion hz)
            · intro he3
              obtain ⟨hu0, _⟩ := eb he3
              rw [hat, hq] at hu0
              exact absurd hu0 (fun hz => TStatus.noConfusion hz)
            · intro _ hu2 _
              have hu3 : fupd (fupd sys.rst.tstatus t TStatus.finished) th
                TStatus.running alb.1 = TStatus.unstarted := hu2
              have hath : ¬(alb.1 = th) := fun hh => hthne (hh ▸ hat ▸ rfl)
              rw [fupd_ne _ _ _ _ hath, hat, fupd_self] at hu3
              exact absurd hu3 (fun hz => TStatus.noConfusion hz)
            · intro _ _ _
              refine Or.inr ?_
              rw [hat]
              exact htnk
          · by_cases hath : alb.1 = th
            · -- the released combine job of this group is being started
              refine ⟨ce, pn2, ps2, pou, pu, ?_, ?_, fr, ?_, ?_⟩
              · intro hne3
                obtain ⟨_, hnt0⟩ := pb hne3
                exact absurd (hath ▸ hth_mem : alb.1 ∈ lerase sys.rst.threads t)
                  (fun hm => hnt0 (mem_of_mem_lerase hm))
              · intro he3
                obtain ⟨_, hnt0⟩ := eb he3
                exact absurd (hath ▸ hth_mem : alb.1 ∈ lerase sys.rst.threads t)
                  (fun hm => hnt0 (mem_of_mem_lerase hm))
              · intro _ hu2 _
                have hu3 : fupd (fupd sys.rst.tstatus t TStatus.finished) th
                  TStatus.running alb.1 = TStatus.unstarted := hu2
                rw [hath, fupd_self] at hu3
                exact absurd hu3 (fun hz => TStatus.noConfusion hz)
              · intro _ _ _
                refine Or.inl ?_
                show alb.1 ∈ lerase sys.rst.threads t
                rw [hath]
                exact hth_mem
            · refine albumInv_mono sys.rst _ alb h2 ?_ ?_ (fun u _ => rfl) rfl
                (fun u _ => rfl) ?_ ⟨ce, pn2, ps2, pou, pu, pb, eb, fr, ct, rs⟩
              · show alb.1 ∈ lerase sys.rst.threads t ↔ alb.1 ∈ sys.rst.threads
                constructor
                · exact fun hm => mem_of_mem_lerase hm
                · exact fun hm => mem_lerase_of_ne hm hat
              · show (fupd (fupd sys.rst.tstatus t TStatus.finished) th
                  TStatus.running alb.1 = TStatus.unstarted) ↔ _
                rw [fupd_ne _ _ _ _ hath, fupd_ne _ _ _ _ hat]
              · show alookup (delKey sys.rst.workers t) alb.1 = _
                rw [alookup_delKey_ne _ _ _ hat]

theorem inv_step_cancelAll (m : Nat) (sub : List SubItem) (dur : String → ℤ)
    (sys : Sys) (hI : Inv m sub sys) :
    Inv m sub (stepEv m dur sys Ev.cancelAll) := by
  obtain ⟨idle, alist, ltrack, tnd, knd, ksub, veq, abound, procs, spst, riw, wres,
    snaps, ainv⟩ := hI
  have hstep : stepEv m dur sys Ev.cancelAll =
      { sys with rst := { sys.rst with
          procs := [], cancelled := true,
          results := (keys sys.rst.workers).foldl
            (fun r n => if (alookup r n).isSome then r else dictSet r n false)
            sys.rst.results,
          log := sys.rst.log ++ [Emission.batchFinished
            ((keys sys.rst.workers).foldl
              (fun r n => if (alookup r n).isSome then r else dictSet r n false)
              sys.rst.results)] } } := by
    simp only [stepEv, cancelFn]
  rw [hstep]
  refine ⟨idle, alist, ltrack, tnd, knd, ksub, veq, abound, ?_, spst, ?_, ?_, ?_, ?_⟩
  · intro p hp
    cases hp
  · intro hc0
    exact Bool.noConfusion (hc0 : true = false)
  · intro x hx
    have hx2 : sys.rst.wfin x = true := hx
    have hws := wres x hx2
    rcases halx : alookup sys.rst.results x with _ | v
    · rw [halx] at hws
      exact Bool.noConfusion hws
    · show (alookup ((keys sys.rst.workers).foldl
        (fun r n => if (alookup r n).isSome then r else dictSet r n false)
        sys.rst.results) x).isSome = true
      rw [cancelFold_preserve (keys sys.rst.workers) sys.rst.results x v halx]
      rfl
  · intro hc0
    exact Bool.noConfusion (hc0 : true = false)
  · refine forall2_imp_mem ainv ?_
    intro alb halb h2 hA
    obtain ⟨ce, pn2, ps2, pou, pu, pb, eb, fr, ct, rs⟩ := hA
    refine ⟨ce, pn2, ps2, pou, ?_, pb, eb, ?_, ct, ?_⟩
    · intro hc0
      exact Bool.noConfusion (hc0 : true = false)
    · intro u hu hlk
      have hlk2 : alookup ((keys sys.rst.workers).foldl
          (fun r n => if (alookup r n).isSome then r else dictSet r n false)
          sys.rst.results) u = some false := hlk
      rcases halx : alookup sys.rst.results u with _ | v
      · rcases hwf : sys.rst.wfin u with _ | _
        · exact Or.inr (pou u hu hwf)
        · have hws := wres u hwf
          rw [halx] at hws
          exact Bool.noConfusion hws
      · have hvv := cancelFold_preserve (keys sys.rst.workers) sys.rst.results u v halx
        rw [hvv] at hlk2
        injection hlk2 with hv
        rw [hv] at halx
        exact fr u hu halx
    · intro _ _ hc0
      exact Bool.noConfusion (hc0 : true = false)

theorem inv_step_procSpawn (m : Nat) (sub : List SubItem) (dur : String → ℤ)
    (sys : Sys) (n : String) (hI : Inv m sub sys)
    (hv : validEvB sys (Ev.procSpawn n) = true) :
    Inv m sub (stepEv m dur sys (Ev.procSpawn n)) := by
  obtain ⟨idle, alist, ltrack, tnd, knd, ksub, veq, abound, procs, spst, riw, wres,
    snaps, ainv⟩ := hI
  rw [validEvB, Bool.and_eq_true, Bool.and_eq_true] at hv
  obtain ⟨⟨hv1, hv2⟩, _⟩ := hv
  have hrun : sys.rst.tstatus n = TStatus.running := of_decide_eq_true hv1
  have hnwf : sys.rst.wfin n = false := by
    rcases hx : sys.rst.wfin n with _ | _
    · rfl
    · rw [hx] at hv2
      exact Bool.noConfusion hv2
  refine ⟨idle, alist, ltrack, tnd, knd, ksub, veq, abound, ?_, ?_, riw, wres,
    snaps, ?_⟩
  · intro p hp
    have hp2 : p ∈ sys.rst.procs ++ [n] := hp
    rcases List.mem_append.1 hp2 with hm | hm
    · exact procs p hm
    · rw [List.mem_singleton] at hm
      rw [hm]
      exact ⟨hrun, hnwf⟩
  · intro x hx
    have hx2 : fupd sys.rst.spawned n true x = true := hx
    by_cases hxn : x = n
    · show ¬(sys.rst.tstatus x = TStatus.unstarted)
      rw [hxn, hrun]
      intro hh
      exact TStatus.noConfusion hh
    · rw [fupd_ne _ _ _ _ hxn] at hx2
      exact spst x hx2
  · refine forall2_imp_mem ainv ?_
    intro alb _ h2 hA
    exact albumInv_mono sys.rst _ alb h2 Iff.rfl Iff.rfl (fun u _ => rfl) rfl
      (fun u _ => rfl) rfl hA

theorem inv_step_procExit (m : Nat) (sub : List SubItem) (dur : String → ℤ)
    (sys : Sys) (n : String) (hI : Inv m sub sys) :
    Inv m sub (stepEv m dur sys (Ev.procExit n)) := by
  obtain ⟨idle, alist, ltrack, tnd, knd, ksub, veq, abound, procs, spst, riw, wres,
    snaps, ainv⟩ := hI
  refine ⟨idle, alist, ltrack, tnd, knd, ksub, veq, abound, ?_, spst, riw, wres,
    snaps, ?_⟩
  · intro p hp
    have hp2 : p ∈ lerase sys.rst.procs n := hp
    exact procs p (mem_of_mem_lerase hp2)
  · refine forall2_imp_mem ainv ?_
    intro alb _ h2 hA
    exact albumInv_mono sys.rst _ alb h2 Iff.rfl Iff.rfl (fun u _ => rfl) rfl
      (fun u _ => rfl) rfl hA

theorem inv_step_progressLine (m : Nat) (sub : List SubItem) (dur : String → ℤ)
    (sys : Sys) (n : String) (line : String) (hI : Inv m sub sys) :
    Inv m sub (stepEv m dur sys (Ev.progressLine n line)) := by
  rcases hwp : (workerProgressHandler (dur n) line).1 with _ | pval
  · have hstep : stepEv m dur sys (Ev.progressLine n line) = sys := by
      simp only [stepEv, progressEvtFn, hwp]
    rw [hstep]
    exact hI
  · obtain ⟨idle, alist, ltrack, tnd, knd, ksub, veq, abound, procs, spst, riw, wres,
      snaps, ainv⟩ := hI
    have hstep : stepEv m dur sys (Ev.progressLine n line) =
        { sys with rst := { sys.rst with
            log := sys.rst.log ++ [Emission.progress n pval] } } := by
      simp only [stepEv, progressEvtFn, hwp]
    rw [hstep]
    refine ⟨idle, alist, ltrack, tnd, knd, ksub, veq, abound, procs, spst, riw, wres,
      ?_, ?_⟩
    · intro hc0
      have hc0' : sys.rst.cancelled = false := hc0
      show finishedSnaps (sys.rst.log ++ [Emission.progress n pval]) =
        if sys.rst.workers.length = 0 then [sys.rst.results] else []
      rw [finishedSnaps_append, snaps hc0']
      have h0 : finishedSnaps [Emission.progress n pval] = [] := rfl
      rw [h0, List.append_nil]
    · refine forall2_imp_mem ainv ?_
      intro alb _ h2 hA
      exact albumInv_mono sys.rst _ alb h2 Iff.rfl Iff.rfl (fun u _ => rfl) rfl
        (fun u _ => rfl) rfl hA

theorem inv_step (m : Nat) (sub : List SubItem) (dur : String → ℤ) (sys : Sys) (ev : Ev)
    (hnd : (subNames sub).Nodup) (hI : Inv m sub sys) (hv : validEvB sys ev = true) :
    Inv m sub (stepEv m dur sys ev) := by
  cases ev with
  | workerFinished n b => exact inv_step_workerFinished m sub dur sys n b hnd hI hv
  | workerError n msg => exact inv_step_workerError m sub dur sys n msg hnd hI hv
  | progressLine n line => exact inv_step_progressLine m sub dur sys n line hI
  | threadDone t => exact inv_step_threadDone m sub dur sys t hnd hI hv
  | procSpawn n => exact inv_step_procSpawn m sub dur sys n hI hv
  | procExit n => exact inv_step_procExit m sub dur sys n hI
  | cancelAll => exact inv_step_cancelAll m sub dur sys hI

theorem inv_run (m : Nat) (sub : List SubItem) (dur : String → ℤ) :
    ∀ (evs : List Ev) (sys : Sys), (subNames sub).Nodup → Inv m sub sys →
      validFrom m dur sys evs = true → Inv m sub (runEvs m dur sys evs) := by
  intro evs
  induction evs with
  | nil =>
    intro sys _ hI _
    exact hI
  | cons e rest ih =>
    intro sys hnd hI hv
    rw [validFrom, Bool.and_eq_true] at hv
    obtain ⟨hv1, hv2⟩ := hv
    exact ih (stepEv m dur sys e) hnd (inv_step m sub dur sys e hnd hI hv1) hv2

/-! ## Field-preservation facts for whole runs -/

theorem startThread_cancelled (s : St) (t : String) :
    (startThread s t).cancelled = s.cancelled := by
  rw [startThread]
  split <;> rfl

theorem startThread_wfin (s : St) (t : String) :
    (startThread s t).wfin = s.wfin := by
  rw [startThread]
  split <;> rfl

theorem quitThread_cancelled (s : St) (t : String) :
    (quitThread s t).cancelled = s.cancelled := by
  rw [quitThread]
  split <;> rfl

theorem quitThread_wfin (s : St) (t : String) :
    (quitThread s t).wfin = s.wfin := by
  rw [quitThread]
  split <;> rfl

theorem foldl_startThread_cancelled (l : List String) (s : St) :
    (l.foldl startThread s).cancelled = s.cancelled := by
  obtain ⟨f, hf⟩ := foldl_startThread_shape l s
  rw [hf]

theorem foldl_startThread_wfin (l : List String) (s : St) :
    (l.foldl startThread s).wfin = s.wfin := by
  obtain ⟨f, hf⟩ := foldl_startThread_shape l s
  rw [hf]

theorem renderFn_cancelled (m : Nat) (s : St) :
    (renderFn m s).cancelled = s.cancelled := by
  simp only [renderFn]
  split <;> simp only [foldl_startThread_cancelled]

theorem renderFn_wfin (m : Nat) (s : St) :
    (renderFn m s).wfin = s.wfin := by
  simp only [renderFn]
  split <;> simp only [foldl_startThread_wfin]

theorem startWorkerFn_cancelled (m : Nat) (s : St) (n : String) :
    (startWorkerFn m s n).cancelled = s.cancelled := by
  rw [startWorkerFn]
  rcases alookup s.workers n with _ | t
  · rfl
  · simp only
    split
    · rfl
    · split
      · rfl
      · simp only [renderFn_cancelled]

theorem startWorkerFn_wfin (m : Nat) (s : St) (n : String) :
    (startWorkerFn m s n).wfin = s.wfin := by
  rw [startWorkerFn]
  rcases alookup s.workers n with _ | t
  · rfl
  · simp only
    split
    · rfl
    · split
      · rfl
      · simp only [renderFn_wfin]

theorem helpersDone_cancelled (m : Nat) (n : String) (b : Bool) :
    ∀ (hs : List HelperSt) (s : St),
      ((helpersDone m n b s hs).1).cancelled = s.cancelled := by
  intro hs
  induction hs with
  | nil => intro s; rfl
  | cons h rest ih =>
    intro s
    rw [helpersDone]
    simp only
    split
    · rw [ih, startWorkerFn_cancelled]
    · rw [ih]

theorem helpersDone_wfin (m : Nat) (n : String) (b : Bool) :
    ∀ (hs : List HelperSt) (s : St),
      ((helpersDone m n b s hs).1).wfin = s.wfin := by
  intro hs
  induction hs with
  | nil => intro s; rfl
  | cons h rest ih =>
    intro s
    rw [helpersDone]
    simp only
    split
    · rw [ih, startWorkerFn_wfin]
    · rw [ih]

theorem helpersError_cancelled (n : String) (s : St) (hs : List HelperSt) :
    ((helpersError n s hs).1).cancelled = s.cancelled := by
  obtain ⟨f, th, wo, wk, h⟩ := helpersError_shape n s hs
  rw [h]

theorem helpersError_wfin (n : String) (s : St) (hs : List HelperSt) :
    ((helpersError n s hs).1).wfin = s.wfin := by
  obtain ⟨f, th, wo, wk, h⟩ := helpersError_shape n s hs
  rw [h]

theorem helpersError_snd (n : String) :
    ∀ (hs : List HelperSt) (s : St),
      (helpersError n s hs).2 =
        hs.map (fun h => if n ∈ h.hworkers then { h with herror := true } else h) := by
  intro hs
  induction hs with
  | nil => intro s; rfl
  | cons h rest ih =>
    intro s
    rw [helpersError]
    simp only [List.map_cons]
    rw [ih]

theorem stepEv_cancelled_eq (m : Nat) (dur : String → ℤ) (sys : Sys) (ev : Ev)
    (hne : ¬(ev = Ev.cancelAll)) :
    (stepEv m dur sys ev).rst.cancelled = sys.rst.cancelled := by
  cases ev with
  | workerFinished n b =>
    simp only [stepEv, workerFinishedFn]
    by_cases hc : sys.rst.cancelled = true
    · rw [if_pos hc]
    · rw [if_neg hc]
      show (quitThread (helpersDone m n b _ sys.helpers).1 n).cancelled = _
      rw [quitThread_cancelled, helpersDone_cancelled]
  | workerError n msg =>
    simp only [stepEv, workerErrorFn]
    rw [helpersError_cancelled]
  | progressLine n line =>
    simp only [stepEv, progressEvtFn]
    rcases (workerProgressHandler (dur n) line).1 with _ | p
    · rfl
    · rfl
  | threadDone t =>
    simp only [stepEv, threadFinishedFn]
    by_cases hc : sys.rst.cancelled = true
    · rw [if_pos hc]
    · rw [if_neg hc]
      split
      · simp only [startThread_cancelled]
        repeat' split
        all_goals rfl
      · repeat' split
        all_goals rfl
  | procSpawn n => rfl
  | procExit n => rfl
  | cancelAll => exact absurd rfl hne

theorem runEvs_cancelled (m : Nat) (dur : String → ℤ) :
    ∀ (evs : List Ev) (sys : Sys), Ev.cancelAll ∉ evs →
      (runEvs m dur sys evs).rst.cancelled = sys.rst.cancelled := by
  intro evs
  induction evs with
  | nil => intro sys _; rfl
  | cons e rest ih =>
    intro sys hever
    have hne : ¬(e = Ev.cancelAll) := fun hh =>
      hever (hh ▸ List.mem_cons_self _ _)
    rw [runEvs]
    rw [ih (stepEv m dur sys e) (fun hm => hever (List.mem_cons_of_mem _ hm))]
    exact stepEv_cancelled_eq m dur sys e hne

theorem stepEv_wfin_mono (m : Nat) (dur : String → ℤ) (sys : Sys) (ev : Ev) (u : String)
    (h : sys.rst.wfin u = true) : (stepEv m dur sys ev).rst.wfin u = true := by
  cases ev with
  | workerFinished n b =>
    simp only [stepEv, workerFinishedFn]
    by_cases hc : sys.rst.cancelled = true
    · rw [if_pos hc]
      show fupd sys.rst.wfin n true u = true
      by_cases hun : u = n
      · rw [hun, fupd_self]
      · rw [fupd_ne _ _ _ _ hun]
        exact h
    · rw [if_neg hc]
      show (quitThread (helpersDone m n b _ sys.helpers).1 n).wfin u = true
      rw [quitThread_wfin, helpersDone_wfin]
      show fupd sys.rst.wfin n true u = true
      by_cases hun : u = n
      · rw [hun, fupd_self]
      · rw [fupd_ne _ _ _ _ hun]
        exact h
  | workerError n msg =>
    simp only [stepEv, workerErrorFn]
    rw [helpersError_wfin]
    exact h
  | progressLine n line =>
    simp only [stepEv, progressEvtFn]
    rcases (workerProgressHandler (dur n) line).1 with _ | p
    · exact h
    · exact h
  | threadDone t =>
    simp only [stepEv, threadFinishedFn]
    by_cases hc : sys.rst.cancelled = true
    · rw [if_pos hc]
      exact h
    · rw [if_neg hc]
      split
      · simp only [startThread_wfin]
        repeat' split
        all_goals exact h
      · repeat' split
        all_goals exact h
  | procSpawn n => exact h
  | procExit n => exact h
  | cancelAll => exact h

theorem stepEv_wfin_set (m : Nat) (dur : String → ℤ) (sys : Sys) (u : String) (b : Bool) :
    (stepEv m dur sys (Ev.workerFinished u b)).rst.wfin u = true := by
  simp only [stepEv, workerFinishedFn]
  by_cases hc : sys.rst.cancelled = true
  · rw [if_pos hc]
    show fupd sys.rst.wfin u true u = true
    rw [fupd_self]
  · rw [if_neg hc]
    show (quitThread (helpersDone m u b _ sys.helpers).1 u).wfin u = true
    rw [quitThread_wfin, helpersDone_wfin]
    show fupd sys.rst.wfin u true u = true
    rw [fupd_self]

theorem runEvs_wfin_mono (m : Nat) (dur : String → ℤ) :
    ∀ (evs : List Ev) (sys : Sys) (u : String), sys.rst.wfin u = true →
      (runEvs m dur sys evs).rst.wfin u = true := by
  intro evs
  induction evs with
  | nil => intro sys u h; exact h
  | cons e rest ih =>
    intro sys u h
    exact ih (stepEv m dur sys e) u (stepEv_wfin_mono m dur sys e u h)

theorem runEvs_wfin_mem (m : Nat) (dur : String → ℤ) :
    ∀ (evs : List Ev) (sys : Sys) (u : String) (b : Bool),
      Ev.workerFinished u b ∈ evs →
      (runEvs m dur sys evs).rst.wfin u = true := by
  intro evs
  induction evs with
  | nil => intro sys u b h; cases h
  | cons e rest ih =>
    intro sys u b h
    rcases List.mem_cons.1 h with rfl | hm
    · exact runEvs_wfin_mono m dur rest _ u (stepEv_wfin_set m dur sys u b)
    · exact ih (stepEv m dur sys e) u b hm

theorem initSys_cancelled (m : Nat) (sub : List SubItem)
    (hnd : (subNames sub).Nodup) : (initSys m sub).rst.cancelled = false := by
  rw [initSys_eq m sub hnd]
  show (renderFn m (initRst sub)).cancelled = false
  rw [renderFn_cancelled]
  rfl

theorem albumsOf_single (c : String) (songs : List String)
    (hsne : songs.isEmpty = false) :
    albumsOf [SubItem.album c songs] = [(c, songs)] := by
  rw [albumsOf]
  rw [if_neg (fun hz => Bool.noConfusion (hsne ▸ hz))]
  rfl

theorem initSys_helpers_single (m : Nat) (c : String) (songs : List String)
    (hsne : songs.isEmpty = false)
    (hnd : (subNames [SubItem.album c songs]).Nodup) :
    (initSys m [SubItem.album c songs]).helpers = [⟨songs, false, c⟩] := by
  rw [initSys_eq m _ hnd]
  show (albumsOf [SubItem.album c songs]).map
    (fun p => ({ hworkers := p.2, herror := false, combine := p.1 } : HelperSt)) = _
  rw [albumsOf_single c songs hsne]
  rfl

/-- Along a valid trace in which no song of the album emits an error event and
no song finishes with `success=false`, the album helper never records an
error. -/
theorem album_herror_run (m : Nat) (dur : String → ℤ) (c : String)
    (songs : List String) (hsne : songs.isEmpty = false)
    (hnd : (subNames [SubItem.album c songs]).Nodup) :
    ∀ (evs : List Ev) (sys : Sys),
      Inv m [SubItem.album c songs] sys →
      validFrom m dur sys evs = true →
      (∀ u ∈ songs, ∀ msg, (Ev.workerError u msg) ∉ evs) →
      (∀ u ∈ songs, (Ev.workerFinished u false) ∉ evs) →
      ∀ h, sys.helpers = [h] → h.herror = false →
      ∃ h2, (runEvs m dur sys evs).helpers = [h2] ∧ h2.herror = false := by
  intro evs
  induction evs with
  | nil =>
    intro sys _ _ _ _ h hh hhe
    exact ⟨h, hh, hhe⟩
  | cons e rest ih =>
    intro sys hI hv hne hnf h hh hhe
    rw [validFrom, Bool.and_eq_true] at hv
    obtain ⟨hv1, hv2⟩ := hv
    have hI' := inv_step m _ dur sys e hnd hI hv1
    have hne' : ∀ u ∈ songs, ∀ msg, (Ev.workerError u msg) ∉ rest :=
      fun u hu msg hm => hne u hu msg (List.mem_cons_of_mem _ hm)
    have hnf' : ∀ u ∈ songs, (Ev.workerFinished u false) ∉ rest :=
      fun u hu hm => hnf u hu (List.mem_cons_of_mem _ hm)
    have halb : albumsOf [SubItem.album c songs] = [(c, songs)] :=
      albumsOf_single c songs hsne
    have hA : AlbumInv sys.rst (c, songs) h := by
      have hfa := hI.albums_inv
      rw [halb, hh] at hfa
      cases hfa with
      | cons hA _ => exact hA
    cases e with
    | workerFinished u b =>
      by_cases hcsys : sys.rst.cancelled = true
      · have hstep_h : (stepEv m dur sys (Ev.workerFinished u b)).helpers =
            sys.helpers := by
          simp only [stepEv, workerFinishedFn]
          rw [if_pos hcsys]
        refine ih _ hI' hv2 hne' hnf' h ?_ hhe
        rw [hstep_h]
        exact hh
      · have hstep_h : (stepEv m dur sys (Ev.workerFinished u b)).helpers =
            [helperDoneLocal u b h] := by
          simp only [stepEv, workerFinishedFn]
          rw [if_neg hcsys]
          show (helpersDone m u b _ sys.helpers).2 = [helperDoneLocal u b h]
          rw [helpersDone_snd, hh]
          rfl
        refine ih _ hI' hv2 hne' hnf' (helperDoneLocal u b h) hstep_h ?_
        rw [helperDoneLocal]
        by_cases hcu : u ∈ h.hworkers
        · rw [if_pos hcu]
          show (h.herror || !b) = false
          have hus : u ∈ songs := hA.pending_sub u hcu
          have hbt : b = true := by
            rcases hxb : b with _ | _
            · exact absurd (hxb ▸ List.mem_cons_self (Ev.workerFinished u b) rest)
                (hnf u hus)
            · rfl
          rw [hhe, hbt]
          rfl
        · rw [if_neg hcu]
          exact hhe
    | workerError u msg =>
      have hcu : u ∉ h.hworkers := by
        intro hm
        exact (hne u (hA.pending_sub u hm) msg) (List.mem_cons_self _ _)
      have hstep_h : (stepEv m dur sys (Ev.workerError u msg)).helpers = [h] := by
        simp only [stepEv, workerErrorFn]
        show (helpersError u _ sys.helpers).2 = [h]
        rw [helpersError_snd, hh]
        show [if u ∈ h.hworkers then { h with herror := true } else h] = [h]
        rw [if_neg hcu]
      exact ih _ hI' hv2 hne' hnf' h hstep_h hhe
    | progressLine u line =>
      have hstep_h : (stepEv m dur sys (Ev.progressLine u line)).helpers = [h] := by
        simp only [stepEv, progressEvtFn]
        rcases (workerProgressHandler (dur u) line).1 with _ | pv
        · exact hh
        · exact hh
      exact ih _ hI' hv2 hne' hnf' h hstep_h hhe
    | threadDone t0 =>
      have hstep_h : (stepEv m dur sys (Ev.threadDone t0)).helpers = [h] := by
        simp only [stepEv, threadFinishedFn]
        by_cases hc : sys.rst.cancelled = true
        · rw [if_pos hc]
          exact hh
        · rw [if_neg hc]
          exact hh
      exact ih _ hI' hv2 hne' hnf' h hstep_h hhe
    | procSpawn u =>
      exact ih _ hI' hv2 hne' hnf' h hh hhe
    | procExit u =>
      exact ih _ hI' hv2 hne' hnf' h hh hhe
    | cancelAll =>
      exact ih _ hI' hv2 hne' hnf' h hh hhe

/-- C5: at every point of a valid execution of a duplicate-free batch, at most
`maxProcesses` jobs are in the RUNNING state. -/
theorem c5_concurrency_bound (m : Nat) (sub : List SubItem) (dur : String → ℤ)
    (evs : List Ev) (hnd : (subNames sub).Nodup)
    (hv : validFrom m dur (initSys m sub) evs = true) :
    runningCount sub (runEvs m dur (initSys m sub) evs) ≤ m := by
  have hI := inv_run m sub dur evs (initSys m sub) hnd (inv_init m sub hnd) hv
  refine le_trans ?_ hI.active_bound
  rw [runningCount]
  refine filter_length_mono (subNames sub) _ _ ?_
  intro x hx
  rw [of_decide_eq_true hx]
  rfl

theorem c5_concurrency_bound_witness :
    (subNames [SubItem.song "a", SubItem.song "b"]).Nodup ∧
    validFrom 1 exDur (initSys 1 [SubItem.song "a", SubItem.song "b"])
      [Ev.workerFinished "a" true] = true ∧
    runningCount [SubItem.song "a", SubItem.song "b"]
      (runEvs 1 exDur (initSys 1 [SubItem.song "a", SubItem.song "b"])
        [Ev.workerFinished "a" true]) ≤ 1 :=
  ⟨by decide, by decide,
    c5_concurrency_bound 1 [SubItem.song "a", SubItem.song "b"] exDur
      [Ev.workerFinished "a" true] (by decide) (by decide)⟩

/-- C2: in a cancellation-free valid run, once every tracked worker is gone
the batch-finished signal has fired exactly once, carrying the results map,
and the map has an entry exactly for each worker whose `finished` signal was
processed through `worker_finished`. -/
theorem c2_batch_results (m : Nat) (sub : List SubItem) (dur : String → ℤ)
    (evs : List Ev) (hnd : (subNames sub).Nodup)
    (hv : validFrom m dur (initSys m sub) evs = true)
    (hnc : Ev.cancelAll ∉ evs)
    (hw0 : (runEvs m dur (initSys m sub) evs).rst.workers = []) :
    finishedSnaps (runEvs m dur (initSys m sub) evs).rst.log =
      [(runEvs m dur (initSys m sub) evs).rst.results] ∧
    ∀ n, (alookup (runEvs m dur (initSys m sub) evs).rst.results n).isSome =
      (runEvs m dur (initSys m sub) evs).rst.wfin n := by
  have hI := inv_run m sub dur evs (initSys m sub) hnd (inv_init m sub hnd) hv
  have hcc : (runEvs m dur (initSys m sub) evs).rst.cancelled = false := by
    rw [runEvs_cancelled m dur evs (initSys m sub) hnc]
    exact initSys_cancelled m sub hnd
  constructor
  · have hs := hI.snaps_spec hcc
    rw [hw0] at hs
    have h00 : ([] : List (String × String)).length = 0 := rfl
    rw [if_pos h00] at hs
    exact hs
  · exact hI.results_iff_wfin hcc

theorem c2_batch_results_witness :
    (subNames [SubItem.song "a"]).Nodup ∧
    validFrom 1 exDur (initSys 1 [SubItem.song "a"])
      [Ev.workerFinished "a" true, Ev.threadDone "a"] = true ∧
    Ev.cancelAll ∉ [Ev.workerFinished "a" true, Ev.threadDone "a"] ∧
    (runEvs 1 exDur (initSys 1 [SubItem.song "a"])
      [Ev.workerFinished "a" true, Ev.threadDone "a"]).rst.workers = [] ∧
    (finishedSnaps (runEvs 1 exDur (initSys 1 [SubItem.song "a"])
        [Ev.workerFinished "a" true, Ev.threadDone "a"]).rst.log =
      [(runEvs 1 exDur (initSys 1 [SubItem.song "a"])
        [Ev.workerFinished "a" true, Ev.threadDone "a"]).rst.results] ∧
    ∀ n, (alookup (runEvs 1 exDur (initSys 1 [SubItem.song "a"])
        [Ev.workerFinished "a" true, Ev.threadDone "a"]).rst.results n).isSome =
      (runEvs 1 exDur (initSys 1 [SubItem.song "a"])
        [Ev.workerFinished "a" true, Ev.threadDone "a"]).rst.wfin n) :=
  ⟨by decide, by decide, by decide, by decide,
    c2_batch_results 1 [SubItem.song "a"] exDur
      [Ev.workerFinished "a" true, Ev.threadDone "a"]
      (by decide) (by decide) (by decide) (by decide)⟩

/-- C1: for an album in SINGLE-playlist mode, the combine job is released to
the run queue (at most once) when every song job finishes successfully and no
song emits an error event while pending; and whenever some song's recorded
result is a failure, the combine job is still unstarted and no process was
ever spawned for it. -/
theorem c1_dependency_gating (m : Nat) (dur : String → ℤ) (c : String)
    (songs : List String) (evs : List Ev)
    (hsne : songs.isEmpty = false)
    (hnd : (subNames [SubItem.album c songs]).Nodup)
    (hv : validFrom m dur (initSys m [SubItem.album c songs]) evs = true) :
    ((Ev.cancelAll ∉ evs) →
      (∀ u ∈ songs, ∀ msg, Ev.workerError u msg ∉ evs) →
      (∀ u ∈ songs, Ev.workerFinished u false ∉ evs) →
      (∀ u ∈ songs, ∃ b, Ev.workerFinished u b ∈ evs) →
      released (runEvs m dur (initSys m [SubItem.album c songs]) evs) c ∧
      (runEvs m dur (initSys m [SubItem.album c songs]) evs).rst.threads.count c
        ≤ 1) ∧
    (∀ u ∈ songs,
      alookup (runEvs m dur (initSys m [SubItem.album c songs]) evs).rst.results u
        = some false →
      (runEvs m dur (initSys m [SubItem.album c songs]) evs).rst.tstatus c =
        TStatus.unstarted ∧
      (runEvs m dur (initSys m [SubItem.album c songs]) evs).rst.spawned c =
        false) := by
  have hI := inv_run m [SubItem.album c songs] dur evs _ hnd
    (inv_init m [SubItem.album c songs] hnd) hv
  have halb : albumsOf [SubItem.album c songs] = [(c, songs)] :=
    albumsOf_single c songs hsne
  obtain ⟨h2, hh2, hA2⟩ : ∃ h2,
      (runEvs m dur (initSys m [SubItem.album c songs]) evs).helpers = [h2] ∧
      AlbumInv (runEvs m dur (initSys m [SubItem.album c songs]) evs).rst
        (c, songs) h2 := by
    have hfa := hI.albums_inv
    rw [halb] at hfa
    generalize hgen :
      (runEvs m dur (initSys m [SubItem.album c songs]) evs).helpers = hl at hfa
    cases hfa with
    | cons hA htl =>
      cases htl with
      | nil => exact ⟨_, hgen ▸ rfl, hA⟩
  have hspawn : (runEvs m dur (initSys m [SubItem.album c songs]) evs).rst.tstatus c
      = TStatus.unstarted →
      (runEvs m dur (initSys m [SubItem.album c songs]) evs).rst.spawned c
        = false := by
    intro h1
    rcases hx : (runEvs m dur (initSys m [SubItem.album c songs]) evs).rst.spawned c
      with _ | _
    · rfl
    · exact absurd h1 (hI.spawned_started c hx)
  constructor
  · intro hnc hne hnf hall
    have hccF : (runEvs m dur (initSys m [SubItem.album c songs]) evs).rst.cancelled
        = false := by
      rw [runEvs_cancelled m dur evs _ hnc]
      exact initSys_cancelled m _ hnd
    obtain ⟨h3, hh3, hhe3⟩ := album_herror_run m dur c songs hsne hnd evs
      (initSys m [SubItem.album c songs]) (inv_init m _ hnd) hv hne hnf
      ⟨songs, false, c⟩ (initSys_helpers_single m c songs hsne hnd) rfl
    have hee : h2 = h3 := by
      rw [hh2] at hh3
      injection hh3
    have hherr2 : h2.herror = false := by
      rw [hee]
      exact hhe3
    have hwfall : ∀ u ∈ songs,
        (runEvs m dur (initSys m [SubItem.album c songs]) evs).rst.wfin u = true := by
      intro u hu
      obtain ⟨b0, hb0⟩ := hall u hu
      exact runEvs_wfin_mem m dur evs _ u b0 hb0
    have hwemp : h2.hworkers = [] := by
      rcases hx : h2.hworkers with _ | ⟨u0, rest0⟩
      · rfl
      · have hu0 : u0 ∈ h2.hworkers := by
          rw [hx]
          exact List.mem_cons_self _ _
        have h1 := hA2.pending_unfinished hccF u0 hu0
        rw [hwfall u0 (hA2.pending_sub u0 hu0)] at h1
        exact Bool.noConfusion h1
    constructor
    · rcases hA2.release_stable hwemp hherr2 hccF with hm | hm
      · exact Or.inr hm
      · by_cases hun :
          (runEvs m dur (initSys m [SubItem.album c songs]) evs).rst.tstatus c =
            TStatus.unstarted
        · by_cases hthr :
            c ∈ (runEvs m dur (initSys m [SubItem.album c songs]) evs).rst.threads
          · exact Or.inr hthr
          · have hsome := hA2.combine_tracked hherr2 hun hthr
            exact absurd ((alookup_isSome_iff _ _).1 (by rw [hsome]; rfl)) hm
        · exact Or.inl hun
    · exact List.nodup_iff_count_le_one.1 hI.threads_nodup c
  · intro u hu hres
    rcases hA2.failure_rec u hu hres with he | hm
    · obtain ⟨h1, _⟩ := hA2.error_blocks he
      exact ⟨h1, hspawn h1⟩
    · obtain ⟨h1, _⟩ := hA2.pending_blocks
        (fun hh => (List.not_mem_nil u) (hh ▸ hm))
      exact ⟨h1, hspawn h1⟩

theorem c1_dependency_gating_witness :
    (["s1"] : List String).isEmpty = false ∧
    (subNames [SubItem.album "alb" ["s1"]]).Nodup ∧
    validFrom 2 exDur (initSys 2 [SubItem.album "alb" ["s1"]])
      [Ev.workerFinished "s1" true] = true ∧
    (((Ev.cancelAll ∉ [Ev.workerFinished "s1" true]) →
      (∀ u ∈ ["s1"], ∀ msg, Ev.workerError u msg ∉ [Ev.workerFinished "s1" true]) →
      (∀ u ∈ ["s1"], Ev.workerFinished u false ∉ [Ev.workerFinished "s1" true]) →
      (∀ u ∈ ["s1"], ∃ b, Ev.workerFinished u b ∈ [Ev.workerFinished "s1" true]) →
      released (runEvs 2 exDur (initSys 2 [SubItem.album "alb" ["s1"]])
        [Ev.workerFinished "s1" true]) "alb" ∧
      (runEvs 2 exDur (initSys 2 [SubItem.album "alb" ["s1"]])
        [Ev.workerFinished "s1" true]).rst.threads.count "alb" ≤ 1) ∧
    (∀ u ∈ ["s1"],
      alookup (runEvs 2 exDur (initSys 2 [SubItem.album "alb" ["s1"]])
        [Ev.workerFinished "s1" true]).rst.results u = some false →
      (runEvs 2 exDur (initSys 2 [SubItem.album "alb" ["s1"]])
        [Ev.workerFinished "s1" true]).rst.tstatus "alb" = TStatus.unstarted ∧
      (runEvs 2 exDur (initSys 2 [SubItem.album "alb" ["s1"]])
        [Ev.workerFinished "s1" true]).rst.spawned "alb" = false)) :=
  ⟨by decide, by decide, by decide,
    c1_dependency_gating 2 exDur "alb" ["s1"] [Ev.workerFinished "s1" true]
      (by decide) (by decide) (by decide)⟩

end SongsToYoutube
